import Mathlib

/-!
# StrokeHandler: the freehand stroke input pipeline

A shallow embedding of `src/core/control/tools/StrokeHandler.cpp`.

* `double` values are rationals (`ℚ`). The embedding comes twice. The first
  one computes in exact rationals: it is about the real-number semantics of
  the arithmetic. The namespace `Fp` repeats the point emitter, the press and
  the release in double arithmetic, where every operation rounds to the
  nearest double and the conversion of `nbSteps` to `int` is an operation of
  its own; the statements that depend on rounding are made there.
* `guint32` time stamps are natural numbers, subtracted modulo `2 ^ 32`;
  `int` settings are integers, converted to `guint32` where the source
  compares them with a time-stamp difference.
* The handler is a record holding its own fields together with the part of
  the world it writes to: the selected layer, the undo stack, the
  subscribers of the view pool, and the ordered trace of the calls it makes
  on its collaborators.
* A call that dereferences a null `stroke`, or fails an `assert`, has no
  result (`none`).
-/

namespace StrokeHandler

/-! ## Data model -/

/-- A point of a stroke: position `x`, `y` and width `z`. -/
structure Point where
  x : ℚ
  y : ℚ
  z : ℚ
deriving DecidableEq, Repr

/-- The constants the source reads from headers that are not part of the
sources at hand (`StrokeHandler.h`, `Point.h`); they are parameters of the
embedding. Both thresholds are positive constants in the header, the
theorems assume it where they need it. -/
structure Consts where
  PIXEL_MOTION_THRESHOLD : ℚ
  MAX_WIDTH_VARIATION : ℚ
  NO_PRESSURE : ℚ
deriving DecidableEq, Repr

/-- Modelled from the spec: `Point::lineLengthTo` is the Euclidean distance
of the two points in the plane; this is its square, the distance itself is
`√ (lineLengthSqTo p q)`. -/
def Point.lineLengthSqTo (p q : Point) : ℚ :=
  (p.x - q.x) ^ 2 + (p.y - q.y) ^ 2

/-- The test `distance < t` on a distance given by its square `d2`. -/
def sqrtLt (d2 t : ℚ) : Bool :=
  decide (0 < t) && decide (d2 < t ^ 2)

/-- The value `std::floor(distance / t)` on a distance given by its square
`d2`, for a positive `t`: the integer square root of `⌊d2 / t ^ 2⌋`. -/
def floorSqrtDiv (d2 t : ℚ) : ℤ :=
  (Nat.sqrt ⌊d2 / t ^ 2⌋.toNat : ℕ)

/-- Modelled from the spec: the `Stroke` of `model/Stroke.h`, an append-only
sequence of points plus style metadata; `width` is the base width and
`toolPressureSensitive` is `getToolType().isPressureSensitive()`. -/
structure Stroke where
  width : ℚ
  toolPressureSensitive : Bool
  points : List Point
deriving DecidableEq, Repr

namespace Stroke

/-- Modelled from the spec: `Stroke::getWidth`, the base width. -/
def getWidth (s : Stroke) : ℚ := s.width

/-- Modelled from the spec: `Stroke::setWidth`. -/
def setWidth (s : Stroke) (w : ℚ) : Stroke := { s with width := w }

/-- Modelled from the spec: `Stroke::getPointCount`. -/
def getPointCount (s : Stroke) : ℕ := s.points.length

/-- Modelled from the spec: `Stroke::addPoint` appends a point. -/
def addPoint (s : Stroke) (p : Point) : Stroke := { s with points := s.points ++ [p] }

/-- Replace the width of the last element of a list of points. -/
def setLastZ (z : ℚ) : List Point → List Point
  | [] => []
  | [p] => [{ p with z := z }]
  | p :: q :: ps => p :: setLastZ z (q :: ps)

/-- Modelled from the spec: `Stroke::setLastPressure` sets the width of the
last point of the stroke, if there is one. -/
def setLastPressure (s : Stroke) (z : ℚ) : Stroke :=
  { s with points := setLastZ z s.points }

/-- Modelled from the spec: `Stroke::freeUnusedPointItems` trims unused
capacity, the points are unchanged. -/
def freeUnusedPointItems (s : Stroke) : Stroke := s

end Stroke

/-- Modelled from the spec: the `Rectangle<double>` of `util/Rectangle.h`. -/
structure Rectangle where
  x : ℚ
  y : ℚ
  width : ℚ
  height : ℚ
deriving DecidableEq, Repr

/-- Modelled from the spec: the `Range` of `util/Range.h`, an invalidation
region; `empty` is the default constructed `Range()`. -/
inductive Range where
  | empty
  | box (minX minY maxX maxY : ℚ)
deriving DecidableEq, Repr

namespace Range

/-- Modelled from the spec: `Range(const Rectangle<double>&)`. -/
def ofRectangle (r : Rectangle) : Range :=
  .box r.x r.y (r.x + r.width) (r.y + r.height)

/-- Modelled from the spec: `Range(double x, double y)`. -/
def ofPoint (x y : ℚ) : Range := .box x y x y

/-- Modelled from the spec: `Range::addPoint` grows the region to hold the
point. -/
def addPoint (r : Range) (x y : ℚ) : Range :=
  match r with
  | .empty => .box x y x y
  | .box x0 y0 x1 y1 => .box (min x0 x) (min y0 y) (max x1 x) (max y1 y)

end Range

/-- The requests the handler broadcasts to the views of its pool
(`xoj::view::StrokeToolView`). -/
inductive ViewRequest where
  | ADD_POINT_REQUEST (p : Point)
  | THICKEN_FIRST_POINT_REQUEST (z : ℚ)
  | CANCELLATION_REQUEST (r : Range)
  | FINALIZATION_REQUEST (r : Range)
  | STROKE_REPLACEMENT_REQUEST (s : Stroke)
deriving DecidableEq, Repr

/-- The actions handed to the undo/redo handler. -/
inductive UndoAction where
  | InsertUndoAction (s : Stroke)
  | RecognizerUndoAction (original recognized : Stroke)
deriving DecidableEq, Repr

/-- Modelled from the spec: `PositionInputData`, a device sample; the time
stamp is a `guint32`. -/
structure PositionInputData where
  x : ℚ
  y : ℚ
  pressure : ℚ
  timestamp : ℕ
deriving DecidableEq, Repr

/-- The calls the handler makes on its collaborators, in the order of the
source text. -/
inductive Call where
  | dispatch (r : ViewRequest)
  | dispatchAndClear (r : ViewRequest)
  | lock
  | unlock
  | getPdfPageCount
  | getPageCount
  | addElement (s : Stroke)
  | addUndoAction (a : UndoAction)
  | insertNewPage (position : ℕ)
  | recognizePatterns (s : Stroke)
  | fireElementChanged (s : Stroke)
  | stabilizerInit (pos : PositionInputData)
  | stabilizerProcessEvent (pos : PositionInputData)
  | stabilizerFinalizeStroke
deriving DecidableEq, Repr

/-- The handler, with the part of the document, undo stack and view pool it
acts on. `lastStrokeTime` is the static member shared by all handlers. -/
structure Handler where
  stroke : Option Stroke
  hasPressure : Bool
  buttonDownPoint : Point
  startStrokeTime : ℕ
  lastStrokeTime : ℕ
  userTapped : Bool
  subscribers : List ℕ
  layer : List Stroke
  undo : List UndoAction
  trace : List Call
deriving DecidableEq, Repr

namespace Handler

/-- Modelled from the spec: `DispatchPool::dispatch` delivers the request to
all current subscribers. -/
def dispatch (h : Handler) (r : ViewRequest) : Handler :=
  { h with trace := h.trace ++ [.dispatch r] }

/-- Modelled from the spec: `DispatchPool::dispatchAndClear` delivers the
request to all current subscribers and unregisters them afterwards. -/
def dispatchAndClear (h : Handler) (r : ViewRequest) : Handler :=
  { h with trace := h.trace ++ [.dispatchAndClear r], subscribers := [] }

/-- Record a call on a collaborator whose effect lies outside the handler. -/
def call (h : Handler) (c : Call) : Handler :=
  { h with trace := h.trace ++ [c] }

end Handler

/-! ## Point emitter -/

/-- The body of `StrokeHandler::drawSegmentTo`. -/
def drawSegmentTo (c : Consts) (h : Handler) (point : Point) : Option Handler :=
  match h.stroke with
  | none => none
  | some s =>
    let s1 := s.addPoint (if h.hasPressure then point else ⟨point.x, point.y, c.NO_PRESSURE⟩)
    let h1 := { h with stroke := some s1 }
    some (h1.dispatch (.ADD_POINT_REQUEST (s1.points.getLastD point)))

/-- The loop of `StrokeHandler::paintTo` that commits the intermediate
points: `n` rounds, each advancing `endPoint` by `increment` and drawing a
segment to it. -/
def decomposeLoop (c : Consts) (increment : Point) : ℕ → Point → Handler → Option Handler
  | 0, _, h => some h
  | n + 1, endPoint, h =>
    let endPoint1 : Point :=
      ⟨endPoint.x + increment.x, endPoint.y + increment.y, endPoint.z + increment.z⟩
    (drawSegmentTo c h endPoint1).bind (decomposeLoop c increment n endPoint1)

/-- The sample of `StrokeHandler::paintTo` after its first statement: the
pressure is multiplied by the base width of the stroke when the session has
pressure and the pressure is positive. -/
def scaledPoint (h : Handler) (s : Stroke) (point : Point) : Point :=
  if h.hasPressure ∧ point.z > 0 then { point with z := point.z * s.getWidth } else point

/-- The number `nbSteps` of `StrokeHandler::paintTo` in exact arithmetic: the
quotients are not rounded (`Fp.nbSteps` rounds them). -/
def nbSteps (c : Consts) (widthDelta d2 : ℚ) : ℤ :=
  min ⌈|widthDelta| / c.MAX_WIDTH_VARIATION⌉ (floorSqrtDiv d2 c.PIXEL_MOTION_THRESHOLD)

/-- The body of `StrokeHandler::paintTo` in exact arithmetic. The distance to
the last point is carried by its square `d2`; `nbSteps` is an integer whose
conversion to `int` in the loop bound is taken as exact here (`Fp.paintTo`
has the conversion), and the loop runs `nbSteps - 1` times when `nbSteps` is
at least one and not at all otherwise. -/
def paintTo (c : Consts) (h : Handler) (point0 : Point) : Option Handler :=
  match h.stroke with
  | none => none
  | some s =>
    let point := scaledPoint h s point0
    let pointCount := s.getPointCount
    match s.points.getLast? with
    | none => drawSegmentTo c h point
    | some endPoint =>
      let d2 := point.lineLengthSqTo endPoint
      if sqrtLt d2 c.PIXEL_MOTION_THRESHOLD then
        if pointCount = 1 ∧ h.hasPressure ∧ endPoint.z < point.z then
          some ({ h with stroke := some (s.setLastPressure point.z) }.dispatch
            (.THICKEN_FIRST_POINT_REQUEST point.z))
        else
          some h
      else if h.hasPressure then
        let widthDelta := point.z - endPoint.z
        if -widthDelta > c.MAX_WIDTH_VARIATION ∨ widthDelta > c.MAX_WIDTH_VARIATION then
          let n := nbSteps c widthDelta d2
          let stepLength : ℚ := 1 / n
          let increment : Point :=
            ⟨(point.x - endPoint.x) * stepLength, (point.y - endPoint.y) * stepLength,
              widthDelta * stepLength⟩
          let endPoint1 : Point := { endPoint with z := endPoint.z + increment.z }
          (decomposeLoop c increment (n - 1).toNat endPoint1 h).bind
            fun h1 => drawSegmentTo c h1 point
        else
          drawSegmentTo c h point
      else
        drawSegmentTo c h point

/-- A run of `paintTo` calls, as issued by the stabilizer. -/
def paintAll (c : Consts) (h : Handler) : List Point → Option Handler
  | [] => some h
  | p :: ps => (paintTo c h p).bind fun h1 => paintAll c h1 ps

/-! ## Collaborators -/

/-- The values of `EmptyLastPageAppendType` the handler tells apart. -/
inductive EmptyLastPageAppendType where
  | Disabled
  | OnDrawOfLastPage
  | OnScrollToEndOfLastPage
deriving DecidableEq, Repr

/-- The values of `DrawingType` the handler tells apart. -/
inductive DrawingType where
  | DRAWING_TYPE_DEFAULT
  | DRAWING_TYPE_STROKE_RECOGNIZER
  | DRAWING_TYPE_OTHER
deriving DecidableEq, Repr

/-- The settings the handler reads (`control/settings/Settings.h`). -/
structure Settings where
  strokeFilterEnabled : Bool
  strokeFilterIgnoreTime : ℤ
  strokeFilterIgnoreLength : ℚ
  strokeFilterSuccessiveTime : ℤ
  displayDpi : ℚ
  emptyLastPageAppend : EmptyLastPageAppendType
  snapRecognizedShapesEnabled : Bool
  strokeRecognizerMinSize : ℚ
deriving DecidableEq, Repr

/-- What the handler reads from `Control` during one call: the settings, the
tool (thickness, pressure sensitivity, drawing type) and the page counts of
the document. -/
structure Control where
  settings : Settings
  toolThickness : ℚ
  toolPressureSensitive : Bool
  drawingType : DrawingType
  pdfPageCount : ℕ
  pageCount : ℕ
  currentPageNo : ℕ
deriving DecidableEq, Repr

/-- The functions of the collaborators whose code is not part of the sources
at hand: the geometry of an element, the grid snapping and the shape
recognizer. They are parameters of the embedding. -/
structure Collaborators where
  boundingRect : Stroke → Rectangle
  getSnappedBounds : Stroke → Rectangle
  getX : Stroke → ℚ
  getY : Stroke → ℚ
  getElementWidth : Stroke → ℚ
  getElementHeight : Stroke → ℚ
  move : Stroke → ℚ → ℚ → Stroke
  scale : Stroke → ℚ → ℚ → ℚ → ℚ → Stroke
  hasPressure : Stroke → Bool
  getAvgPressure : Stroke → ℚ
  snapToGrid : Point → Point
  recognizePatterns : Stroke → ℚ → Option Stroke

/-- Modelled from the spec: `InputHandler::createStroke` creates a new stroke
from the current tool settings; it has no point yet. -/
def createStroke (ctl : Control) : Stroke :=
  { width := ctl.toolThickness, toolPressureSensitive := ctl.toolPressureSensitive, points := [] }

/-! ## Machine integers -/

/-- Subtraction of two `guint32`. -/
def subU32 (a b : ℕ) : ℕ := (a % 2 ^ 32 + (2 ^ 32 - b % 2 ^ 32)) % 2 ^ 32

/-- Conversion of an `int` to `guint32`, as done by a comparison of the two. -/
def intToU32 (i : ℤ) : ℕ := (i % 2 ^ 32).toNat

/-- The value of `getPageCount() - 1` in `size_t`. -/
def lastPageNo (pageCount : ℕ) : ℕ := (pageCount % 2 ^ 64 + (2 ^ 64 - 1)) % 2 ^ 64

/-! ## Session state machine -/

/-- The body of `StrokeHandler::onButtonPressEvent`; the `assert` fails when
a stroke is active. -/
def onButtonPressEvent (c : Consts) (ctl : Control) (h : Handler) (pos : PositionInputData)
    (zoom : ℚ) : Option Handler :=
  match h.stroke with
  | some _ => none
  | none =>
    let buttonDownPoint : Point := { h.buttonDownPoint with x := pos.x / zoom, y := pos.y / zoom }
    let s := createStroke ctl
    let hasPressure : Bool := s.toolPressureSensitive && decide (pos.pressure ≠ c.NO_PRESSURE)
    let width : ℚ := if hasPressure then pos.pressure * s.getWidth else c.NO_PRESSURE
    let s1 := s.addPoint ⟨buttonDownPoint.x, buttonDownPoint.y, width⟩
    let h1 : Handler :=
      { h with buttonDownPoint := buttonDownPoint, stroke := some s1, hasPressure := hasPressure }
    some { h1.call (.stabilizerInit pos) with startStrokeTime := pos.timestamp }

/-- The body of `StrokeHandler::onButtonDoublePressEvent`. -/
def onButtonDoublePressEvent (h : Handler) (_pos : PositionInputData) (_zoom : ℚ) : Handler := h

/-- The body of `StrokeHandler::onMotionNotifyEvent`. The stabilizer answers
`processEvent` with calls of `paintTo`; `emitted` lists their samples. -/
def onMotionNotifyEvent (c : Consts) (h : Handler) (pos : PositionInputData) (_zoom : ℚ)
    (emitted : List Point) : Option (Bool × Handler) :=
  match h.stroke with
  | none => some (false, h)
  | some _ =>
    if pos.pressure = 0 then
      some (true, h)
    else
      (paintAll c (h.call (.stabilizerProcessEvent pos)) emitted).map fun h1 => (true, h1)

/-- The body of `StrokeHandler::onSequenceCancelEvent`. -/
def onSequenceCancelEvent (g : Collaborators) (h : Handler) : Handler :=
  match h.stroke with
  | some s =>
    { h.dispatchAndClear (.CANCELLATION_REQUEST (Range.ofRectangle (g.boundingRect s))) with
      stroke := none }
  | none => h

/-- Modelled from the spec: the view built by `StrokeHandler::createView`
registers itself in the view pool of the handler; the `assert` fails when no
stroke is active. -/
def createView (h : Handler) (view : ℕ) : Option Handler :=
  match h.stroke with
  | none => none
  | some _ => some { h with subscribers := h.subscribers ++ [view] }

/-! ## Finalization -/

/-- The local `lengthSqrd` of `StrokeHandler::onButtonReleaseEvent` in exact
arithmetic (`Fp.lengthSqrd` rounds every operation). -/
def lengthSqrd (h : Handler) (pos : PositionInputData) (zoom : ℚ) : ℚ :=
  ((pos.x / zoom - h.buttonDownPoint.x) ^ 2 + (pos.y / zoom - h.buttonDownPoint.y) ^ 2) * zoom ^ 2

/-- The local `dpmm` of `StrokeHandler::onButtonReleaseEvent`. -/
def dpmm (st : Settings) : ℚ := st.displayDpi / 25.4

/-- The outer condition of the stroke filter: the stroke is short and
quick. -/
def shortAndQuick (st : Settings) (h : Handler) (pos : PositionInputData) (zoom : ℚ) : Bool :=
  decide (lengthSqrd h pos zoom < (st.strokeFilterIgnoreLength * dpmm st) ^ 2) &&
    decide (subU32 pos.timestamp h.startStrokeTime < intToU32 st.strokeFilterIgnoreTime)

/-- The inner condition of the stroke filter: the previous stroke ended long
enough ago. -/
def notSuccessive (st : Settings) (h : Handler) (pos : PositionInputData) : Bool :=
  decide (subU32 pos.timestamp h.lastStrokeTime > intToU32 st.strokeFilterSuccessiveTime)

/-- The single point fix of `StrokeHandler::onButtonReleaseEvent`. -/
def singlePointFix (h : Handler) (s : Stroke) (pos : PositionInputData) : Handler × Stroke :=
  match s.points with
  | [pt] =>
    if h.hasPressure then
      let newPressure := max pt.z (pos.pressure * s.getWidth)
      let s1 := s.setLastPressure newPressure
      ((h.dispatch (.THICKEN_FIRST_POINT_REQUEST newPressure)), s1.addPoint pt)
    else
      (h, s.addPoint pt)
  | _ => (h, s)

/-- The block of `StrokeHandler::onButtonReleaseEvent` that appends an empty
page after a stroke on the last page. The effect of `Control::insertNewPage`
lies outside the handler, the call is recorded. -/
def appendEmptyLastPage (ctl : Control) (h : Handler) : Handler :=
  if ctl.settings.emptyLastPageAppend = .OnDrawOfLastPage then
    let h1 := ((h.call .lock).call .getPdfPageCount).call .unlock
    if ctl.pdfPageCount = 0 then
      let h2 := ((h1.call .lock).call .getPageCount).call .unlock
      if ctl.currentPageNo = lastPageNo ctl.pageCount then
        h2.call (.insertNewPage (ctl.currentPageNo + 1))
      else
        h2
    else
      h1
  else
    h

/-- The value of `std::numeric_limits<double>::epsilon()`. -/
def epsilon : ℚ := 1 / 2 ^ 52

/-- The intermediate values of the snapping block of
`StrokeHandler::strokeRecognizerDetected`. -/
structure Snapping where
  topLeftSnapped : Point
  moved : Stroke
  snappedBounds : Rectangle
  belowRightSnapped : Point

/-- The snapping block of `StrokeHandler::strokeRecognizerDetected` up to the
computation of the scale factors. -/
def snapping (c : Consts) (g : Collaborators) (recognized : Stroke) : Snapping :=
  let oldSnappedBounds := g.getSnappedBounds recognized
  let topLeft : Point := ⟨oldSnappedBounds.x, oldSnappedBounds.y, c.NO_PRESSURE⟩
  let topLeftSnapped := g.snapToGrid topLeft
  let moved := g.move recognized (topLeftSnapped.x - topLeft.x) (topLeftSnapped.y - topLeft.y)
  let snappedBounds := g.getSnappedBounds moved
  let belowRight : Point :=
    ⟨snappedBounds.x + snappedBounds.width, snappedBounds.y + snappedBounds.height, c.NO_PRESSURE⟩
  { topLeftSnapped := topLeftSnapped, moved := moved, snappedBounds := snappedBounds,
    belowRightSnapped := g.snapToGrid belowRight }

/-- The local `fx` of `StrokeHandler::strokeRecognizerDetected`. -/
def Snapping.fx (d : Snapping) : ℚ :=
  if |d.snappedBounds.width| > epsilon then
    (d.belowRightSnapped.x - d.topLeftSnapped.x) / d.snappedBounds.width
  else 1

/-- The local `fy` of `StrokeHandler::strokeRecognizerDetected`. -/
def Snapping.fy (d : Snapping) : ℚ :=
  if |d.snappedBounds.height| > epsilon then
    (d.belowRightSnapped.y - d.topLeftSnapped.y) / d.snappedBounds.height
  else 1

/-- The recognized shape after the first statements of
`StrokeHandler::strokeRecognizerDetected`: the width is set and the shape is
snapped to the grid when the setting asks for it. -/
def adjustRecognized (c : Consts) (g : Collaborators) (ctl : Control) (s recognized : Stroke) :
    Stroke :=
  let r := recognized.setWidth (if g.hasPressure s then g.getAvgPressure s else s.getWidth)
  if ctl.settings.snapRecognizedShapesEnabled then
    let d := snapping c g r
    g.scale d.moved d.topLeftSnapped.x d.topLeftSnapped.y d.fx d.fy
  else
    r

/-- The invalidation range of `StrokeHandler::strokeRecognizerDetected`. -/
def replacementRange (g : Collaborators) (s recognized : Stroke) : Range :=
  (((Range.ofPoint (g.getX recognized) (g.getY recognized)).addPoint
      (g.getX recognized + g.getElementWidth recognized)
      (g.getY recognized + g.getElementHeight recognized)).addPoint
      (g.getX s) (g.getY s)).addPoint
      (g.getX s + g.getElementWidth s) (g.getY s + g.getElementHeight s)

/-- The body of `StrokeHandler::strokeRecognizerDetected`. -/
def strokeRecognizerDetected (c : Consts) (g : Collaborators) (ctl : Control) (h : Handler)
    (recognized0 : Stroke) : Option Handler :=
  match h.stroke with
  | none => none
  | some s =>
    let recognized := adjustRecognized c g ctl s recognized0
    let a := UndoAction.RecognizerUndoAction s recognized
    let h1 := { h with undo := h.undo ++ [a] }.call (.addUndoAction a)
    let h2 := h1.call .lock
    let h3 := { h2 with layer := h2.layer ++ [recognized] }.call (.addElement recognized)
    let h4 := h3.call .unlock
    let range := replacementRange g s recognized
    let h5 := { h4 with stroke := none }
    let h6 := h5.dispatch (.STROKE_REPLACEMENT_REQUEST recognized)
    let h7 := h6.dispatchAndClear (.FINALIZATION_REQUEST range)
    let h8 := { h7 with stroke := some recognized }
    let h9 := h8.call (.fireElementChanged recognized)
    some { h9 with stroke := none }

/-- The last statements of `StrokeHandler::onButtonReleaseEvent`: the stroke
is added to the layer and the views are told to finalize. -/
def insertStroke (h : Handler) (s : Stroke) : Handler :=
  let h1 := h.call .lock
  let h2 := { h1 with layer := h1.layer ++ [s] }.call (.addElement s)
  let h3 := h2.call .unlock
  let h4 := h3.dispatchAndClear (.FINALIZATION_REQUEST .empty)
  let h5 := h4.call (.fireElementChanged s)
  { h5 with stroke := none }

/-- The part of `StrokeHandler::onButtonReleaseEvent` after the stroke
filter. -/
def finishStroke (c : Consts) (g : Collaborators) (ctl : Control) (h : Handler)
    (pos : PositionInputData) : Option Handler :=
  match h.stroke with
  | none => none
  | some s0 =>
    let (h1, s1) := singlePointFix h s0 pos
    let s := s1.freeUnusedPointItems
    let a := UndoAction.InsertUndoAction s
    let h2 := { h1 with stroke := some s, undo := h1.undo ++ [a] }.call (.addUndoAction a)
    let h3 := appendEmptyLastPage ctl h2
    if ctl.drawingType = .DRAWING_TYPE_STROKE_RECOGNIZER then
      let h4 := h3.call (.recognizePatterns s)
      match g.recognizePatterns s ctl.settings.strokeRecognizerMinSize with
      | some recognized => strokeRecognizerDetected c g ctl h4 recognized
      | none => some (insertStroke h4 s)
    else
      some (insertStroke h3 s)

/-- The body of `StrokeHandler::onButtonReleaseEvent`. The stabilizer answers
`finalizeStroke` with calls of `paintTo`; `flush` lists their samples. -/
def onButtonReleaseEvent (c : Consts) (g : Collaborators) (ctl : Control) (h : Handler)
    (pos : PositionInputData) (zoom : ℚ) (flush : List Point) : Option Handler :=
  match h.stroke with
  | none => some h
  | some _ =>
    (paintAll c (h.call .stabilizerFinalizeStroke) flush).bind fun h1 =>
      if ctl.settings.strokeFilterEnabled then
        if shortAndQuick ctl.settings h1 pos zoom && notSuccessive ctl.settings h1 pos then
          h1.stroke.map fun s =>
            { h1.dispatchAndClear
                (.CANCELLATION_REQUEST (Range.ofRectangle (g.boundingRect s))) with
              stroke := none, userTapped := true, lastStrokeTime := pos.timestamp }
        else
          finishStroke c g ctl { h1 with lastStrokeTime := pos.timestamp } pos
      else
        finishStroke c g ctl h1 pos

/-! ## Reachable states -/

/-- The states of a handler in use: a new handler holds no stroke and its
pool has no subscriber, and each step is one call of a handler function or
the coming or going of a view. -/
inductive Reachable (c : Consts) (g : Collaborators) : Handler → Prop where
  | init (h : Handler) : h.stroke = none → h.subscribers = [] → Reachable c g h
  | press (ctl : Control) (pos : PositionInputData) (zoom : ℚ) (h h1 : Handler) :
      Reachable c g h → onButtonPressEvent c ctl h pos zoom = some h1 → Reachable c g h1
  | doublePress (pos : PositionInputData) (zoom : ℚ) (h : Handler) :
      Reachable c g h → Reachable c g (onButtonDoublePressEvent h pos zoom)
  | motion (pos : PositionInputData) (zoom : ℚ) (emitted : List Point) (b : Bool)
      (h h1 : Handler) :
      Reachable c g h → onMotionNotifyEvent c h pos zoom emitted = some (b, h1) →
      Reachable c g h1
  | paint (p : Point) (h h1 : Handler) :
      Reachable c g h → paintTo c h p = some h1 → Reachable c g h1
  | cancel (h : Handler) : Reachable c g h → Reachable c g (onSequenceCancelEvent g h)
  | release (ctl : Control) (pos : PositionInputData) (zoom : ℚ) (flush : List Point)
      (h h1 : Handler) :
      Reachable c g h → onButtonReleaseEvent c g ctl h pos zoom flush = some h1 →
      Reachable c g h1
  | view (v : ℕ) (h h1 : Handler) : Reachable c g h → createView h v = some h1 → Reachable c g h1
  | viewGone (v : ℕ) (h : Handler) :
      Reachable c g h → Reachable c g { h with subscribers := h.subscribers.erase v }

/-! ## Double arithmetic

The definitions above compute in exact rationals. The namespace `Fp` below
repeats the point emitter, the press and the release with the arithmetic of
the program: a finite `double` is a rational, and every operation rounds its
exact result to the nearest `double`. -/

/-- The integer nearest to `r`, the even one of the two in a tie. -/
def roundEven (r : ℚ) : ℤ :=
  if r - ⌊r⌋ < 1 / 2 then ⌊r⌋
  else if 1 / 2 < r - ⌊r⌋ then ⌊r⌋ + 1
  else if ⌊r⌋ % 2 = 0 then ⌊r⌋ else ⌊r⌋ + 1

/-- The number of binary digits of `n`, found in at most `fuel` halvings. -/
def bitLen : ℕ → ℕ → ℕ
  | 0, _ => 0
  | fuel + 1, n => if n = 0 then 0 else bitLen fuel (n / 2) + 1

/-- The exponent `k` with `2 ^ k ≤ |q| < 2 ^ (k + 1)`, for `q` other than
zero: the difference of the numbers of digits of numerator and denominator,
or one less. -/
def ilog2 (q : ℚ) : ℤ :=
  if (2 : ℚ) ^ ((bitLen q.num.natAbs q.num.natAbs : ℤ) - bitLen q.den q.den) ≤ |q| then
    (bitLen q.num.natAbs q.num.natAbs : ℤ) - bitLen q.den q.den
  else (bitLen q.num.natAbs q.num.natAbs : ℤ) - bitLen q.den q.den - 1

/-- The exponent of the unit in the last place of the doubles of the size of
`q`: 52 binary places below the leading digit of `q`, and `-1074` for the
subnormal numbers. -/
def ulpExp (q : ℚ) : ℤ := max (ilog2 q - 52) (-1074)

/-- The `double` nearest to `q`: IEEE 754 binary64, round to nearest, ties to
even. Overflow to infinity, NaN and the sign of zero are not modelled. -/
def rnd (q : ℚ) : ℚ := roundEven (q / 2 ^ ulpExp q) * 2 ^ ulpExp q

/-- Addition of two doubles. -/
def fadd (a b : ℚ) : ℚ := rnd (a + b)

/-- Subtraction of two doubles. -/
def fsub (a b : ℚ) : ℚ := rnd (a - b)

/-- Multiplication of two doubles. -/
def fmul (a b : ℚ) : ℚ := rnd (a * b)

/-- Division of two doubles; the divisor is not zero. -/
def fdiv (a b : ℚ) : ℚ := rnd (a / b)

/-- The value of `pow(a, 2)`: the double nearest to the square. -/
def fsq (a : ℚ) : ℚ := rnd (a ^ 2)

/-- The value of `static_cast<int>(x)` for a double `x` whose value is the
integer `n`. Outside the range of `int` the conversion is undefined; the
model takes `INT_MIN`, the result of the conversion instruction of x86-64. -/
def castInt (n : ℤ) : ℤ :=
  if -2 ^ 31 ≤ n ∧ n < 2 ^ 31 then n else -2 ^ 31

namespace Fp

/-- What the handler takes from the sources that are not at hand: the
constants of `Consts` and `Point::lineLengthTo`, which returns the distance
of two points in the plane as a double. -/
structure Params extends Consts where
  lineLengthTo : Point → Point → ℚ

/-- The sample of `StrokeHandler::paintTo` after its first statement, in
double arithmetic. -/
def scaledPoint (h : Handler) (s : Stroke) (point : Point) : Point :=
  if h.hasPressure ∧ point.z > 0 then { point with z := fmul point.z s.getWidth } else point

/-- The number `nbSteps` of `StrokeHandler::paintTo`, in double arithmetic:
both quotients are rounded before `std::ceil` and `std::floor`, whose values
are integers. -/
def nbSteps (c : Params) (widthDelta distance : ℚ) : ℤ :=
  min ⌈fdiv |widthDelta| c.MAX_WIDTH_VARIATION⌉ ⌊fdiv distance c.PIXEL_MOTION_THRESHOLD⌋

/-- The loop of `StrokeHandler::paintTo` in double arithmetic: `n` rounds,
each advancing `endPoint` by `increment` and drawing a segment to it. -/
def decomposeLoop (c : Params) (increment : Point) : ℕ → Point → Handler → Option Handler
  | 0, _, h => some h
  | n + 1, endPoint, h =>
    let endPoint1 : Point :=
      ⟨fadd endPoint.x increment.x, fadd endPoint.y increment.y, fadd endPoint.z increment.z⟩
    (drawSegmentTo c.toConsts h endPoint1).bind (decomposeLoop c increment n endPoint1)

/-- The body of `StrokeHandler::paintTo` in double arithmetic. The loop
`for (int i = 1; i < static_cast<int>(nbSteps); i++)` runs
`castInt nbSteps - 1` times when that number is positive and not at all
otherwise. -/
def paintTo (c : Params) (h : Handler) (point0 : Point) : Option Handler :=
  match h.stroke with
  | none => none
  | some s =>
    let point := scaledPoint h s point0
    let pointCount := s.getPointCount
    match s.points.getLast? with
    | none => drawSegmentTo c.toConsts h point
    | some endPoint =>
      let distance := c.lineLengthTo point endPoint
      if distance < c.PIXEL_MOTION_THRESHOLD then
        if pointCount = 1 ∧ h.hasPressure ∧ endPoint.z < point.z then
          some ({ h with stroke := some (s.setLastPressure point.z) }.dispatch
            (.THICKEN_FIRST_POINT_REQUEST point.z))
        else
          some h
      else if h.hasPressure then
        let widthDelta := fsub point.z endPoint.z
        if -widthDelta > c.MAX_WIDTH_VARIATION ∨ widthDelta > c.MAX_WIDTH_VARIATION then
          let n := nbSteps c widthDelta distance
          let stepLength : ℚ := fdiv 1 n
          let increment : Point :=
            ⟨fmul (fsub point.x endPoint.x) stepLength, fmul (fsub point.y endPoint.y) stepLength,
              fmul widthDelta stepLength⟩
          let endPoint1 : Point := { endPoint with z := fadd endPoint.z increment.z }
          (decomposeLoop c increment (castInt n - 1).toNat endPoint1 h).bind
            fun h1 => drawSegmentTo c.toConsts h1 point
        else
          drawSegmentTo c.toConsts h point
      else
        drawSegmentTo c.toConsts h point

/-- A run of `paintTo` calls in double arithmetic, as issued by the
stabilizer. -/
def paintAll (c : Params) (h : Handler) : List Point → Option Handler
  | [] => some h
  | p :: ps => (paintTo c h p).bind fun h1 => paintAll c h1 ps

/-- The body of `StrokeHandler::onButtonPressEvent` in double arithmetic; the
`assert` fails when a stroke is active. -/
def onButtonPressEvent (c : Params) (ctl : Control) (h : Handler) (pos : PositionInputData)
    (zoom : ℚ) : Option Handler :=
  match h.stroke with
  | some _ => none
  | none =>
    let buttonDownPoint : Point :=
      { h.buttonDownPoint with x := fdiv pos.x zoom, y := fdiv pos.y zoom }
    let s := createStroke ctl
    let hasPressure : Bool := s.toolPressureSensitive && decide (pos.pressure ≠ c.NO_PRESSURE)
    let width : ℚ := if hasPressure then fmul pos.pressure s.getWidth else c.NO_PRESSURE
    let s1 := s.addPoint ⟨buttonDownPoint.x, buttonDownPoint.y, width⟩
    let h1 : Handler :=
      { h with buttonDownPoint := buttonDownPoint, stroke := some s1, hasPressure := hasPressure }
    some { h1.call (.stabilizerInit pos) with startStrokeTime := pos.timestamp }

/-- The local `lengthSqrd` of `StrokeHandler::onButtonReleaseEvent` in double
arithmetic. -/
def lengthSqrd (h : Handler) (pos : PositionInputData) (zoom : ℚ) : ℚ :=
  fmul
    (fadd (fsq (fsub (fdiv pos.x zoom) h.buttonDownPoint.x))
      (fsq (fsub (fdiv pos.y zoom) h.buttonDownPoint.y)))
    (fsq zoom)

/-- The local `dpmm` of `StrokeHandler::onButtonReleaseEvent` in double
arithmetic; the literal `25.4` is the double nearest to it. -/
def dpmm (st : Settings) : ℚ := fdiv st.displayDpi (rnd 25.4)

/-- The outer condition of the stroke filter in double arithmetic: the stroke
is short and quick. -/
def shortAndQuick (st : Settings) (h : Handler) (pos : PositionInputData) (zoom : ℚ) : Bool :=
  decide (lengthSqrd h pos zoom < fsq (fmul st.strokeFilterIgnoreLength (dpmm st))) &&
    decide (subU32 pos.timestamp h.startStrokeTime < intToU32 st.strokeFilterIgnoreTime)

/-- The single point fix of `StrokeHandler::onButtonReleaseEvent` in double
arithmetic. -/
def singlePointFix (h : Handler) (s : Stroke) (pos : PositionInputData) : Handler × Stroke :=
  match s.points with
  | [pt] =>
    if h.hasPressure then
      let newPressure := max pt.z (fmul pos.pressure s.getWidth)
      let s1 := s.setLastPressure newPressure
      ((h.dispatch (.THICKEN_FIRST_POINT_REQUEST newPressure)), s1.addPoint pt)
    else
      (h, s.addPoint pt)
  | _ => (h, s)

/-- The snapping block of `StrokeHandler::strokeRecognizerDetected` up to the
computation of the scale factors, in double arithmetic. -/
def snapping (c : Params) (g : Collaborators) (recognized : Stroke) : Snapping :=
  let oldSnappedBounds := g.getSnappedBounds recognized
  let topLeft : Point := ⟨oldSnappedBounds.x, oldSnappedBounds.y, c.NO_PRESSURE⟩
  let topLeftSnapped := g.snapToGrid topLeft
  let moved :=
    g.move recognized (fsub topLeftSnapped.x topLeft.x) (fsub topLeftSnapped.y topLeft.y)
  let snappedBounds := g.getSnappedBounds moved
  let belowRight : Point :=
    ⟨fadd snappedBounds.x snappedBounds.width, fadd snappedBounds.y snappedBounds.height,
      c.NO_PRESSURE⟩
  { topLeftSnapped := topLeftSnapped, moved := moved, snappedBounds := snappedBounds,
    belowRightSnapped := g.snapToGrid belowRight }

/-- The local `fx` of `StrokeHandler::strokeRecognizerDetected` in double
arithmetic. -/
def fx (d : Snapping) : ℚ :=
  if |d.snappedBounds.width| > epsilon then
    fdiv (fsub d.belowRightSnapped.x d.topLeftSnapped.x) d.snappedBounds.width
  else 1

/-- The local `fy` of `StrokeHandler::strokeRecognizerDetected` in double
arithmetic. -/
def fy (d : Snapping) : ℚ :=
  if |d.snappedBounds.height| > epsilon then
    fdiv (fsub d.belowRightSnapped.y d.topLeftSnapped.y) d.snappedBounds.height
  else 1

/-- The recognized shape after the first statements of
`StrokeHandler::strokeRecognizerDetected`, in double arithmetic. -/
def adjustRecognized (c : Params) (g : Collaborators) (ctl : Control) (s recognized : Stroke) :
    Stroke :=
  let r := recognized.setWidth (if g.hasPressure s then g.getAvgPressure s else s.getWidth)
  if ctl.settings.snapRecognizedShapesEnabled then
    let d := snapping c g r
    g.scale d.moved d.topLeftSnapped.x d.topLeftSnapped.y (fx d) (fy d)
  else
    r

/-- The invalidation range of `StrokeHandler::strokeRecognizerDetected` in
double arithmetic. -/
def replacementRange (g : Collaborators) (s recognized : Stroke) : Range :=
  (((Range.ofPoint (g.getX recognized) (g.getY recognized)).addPoint
      (fadd (g.getX recognized) (g.getElementWidth recognized))
      (fadd (g.getY recognized) (g.getElementHeight recognized))).addPoint
      (g.getX s) (g.getY s)).addPoint
      (fadd (g.getX s) (g.getElementWidth s)) (fadd (g.getY s) (g.getElementHeight s))

/-- The body of `StrokeHandler::strokeRecognizerDetected` in double
arithmetic. -/
def strokeRecognizerDetected (c : Params) (g : Collaborators) (ctl : Control) (h : Handler)
    (recognized0 : Stroke) : Option Handler :=
  match h.stroke with
  | none => none
  | some s =>
    let recognized := adjustRecognized c g ctl s recognized0
    let a := UndoAction.RecognizerUndoAction s recognized
    let h1 := { h with undo := h.undo ++ [a] }.call (.addUndoAction a)
    let h2 := h1.call .lock
    let h3 := { h2 with layer := h2.layer ++ [recognized] }.call (.addElement recognized)
    let h4 := h3.call .unlock
    let range := replacementRange g s recognized
    let h5 := { h4 with stroke := none }
    let h6 := h5.dispatch (.STROKE_REPLACEMENT_REQUEST recognized)
    let h7 := h6.dispatchAndClear (.FINALIZATION_REQUEST range)
    let h8 := { h7 with stroke := some recognized }
    let h9 := h8.call (.fireElementChanged recognized)
    some { h9 with stroke := none }

/-- The part of `StrokeHandler::onButtonReleaseEvent` after the stroke
filter, in double arithmetic. -/
def finishStroke (c : Params) (g : Collaborators) (ctl : Control) (h : Handler)
    (pos : PositionInputData) : Option Handler :=
  match h.stroke with
  | none => none
  | some s0 =>
    let (h1, s1) := singlePointFix h s0 pos
    let s := s1.freeUnusedPointItems
    let a := UndoAction.InsertUndoAction s
    let h2 := { h1 with stroke := some s, undo := h1.undo ++ [a] }.call (.addUndoAction a)
    let h3 := appendEmptyLastPage ctl h2
    if ctl.drawingType = .DRAWING_TYPE_STROKE_RECOGNIZER then
      let h4 := h3.call (.recognizePatterns s)
      match g.recognizePatterns s ctl.settings.strokeRecognizerMinSize with
      | some recognized => strokeRecognizerDetected c g ctl h4 recognized
      | none => some (insertStroke h4 s)
    else
      some (insertStroke h3 s)

/-- The body of `StrokeHandler::onButtonReleaseEvent` in double arithmetic.
The stabilizer answers `finalizeStroke` with calls of `paintTo`; `flush`
lists their samples. -/
def onButtonReleaseEvent (c : Params) (g : Collaborators) (ctl : Control) (h : Handler)
    (pos : PositionInputData) (zoom : ℚ) (flush : List Point) : Option Handler :=
  match h.stroke with
  | none => some h
  | some _ =>
    (paintAll c (h.call .stabilizerFinalizeStroke) flush).bind fun h1 =>
      if ctl.settings.strokeFilterEnabled then
        if shortAndQuick ctl.settings h1 pos zoom && notSuccessive ctl.settings h1 pos then
          h1.stroke.map fun s =>
            { h1.dispatchAndClear
                (.CANCELLATION_REQUEST (Range.ofRectangle (g.boundingRect s))) with
              stroke := none, userTapped := true, lastStrokeTime := pos.timestamp }
        else
          finishStroke c g ctl { h1 with lastStrokeTime := pos.timestamp } pos
      else
        finishStroke c g ctl h1 pos

end Fp

/-! ## Auxiliary definitions of the proofs -/

/-- The point as `drawSegmentTo` stores it. -/
def stored (c : Consts) (h : Handler) (p : Point) : Point :=
  if h.hasPressure then p else ⟨p.x, p.y, c.NO_PRESSURE⟩

/-- The handler after the points `pts` were drawn one after the other onto
the stroke `s`. -/
def appendPoints (c : Consts) (h : Handler) (s : Stroke) (pts : List Point) : Handler :=
  { h with
    stroke := some { s with points := s.points ++ pts.map (stored c h) }
    trace := h.trace ++ pts.map fun p => Call.dispatch (.ADD_POINT_REQUEST (stored c h p)) }

/-- The end points visited by `n` rounds of the decomposition loop. -/
def steps (increment : Point) : ℕ → Point → List Point
  | 0, _ => []
  | n + 1, e =>
    ⟨e.x + increment.x, e.y + increment.y, e.z + increment.z⟩ ::
      steps increment n ⟨e.x + increment.x, e.y + increment.y, e.z + increment.z⟩

/-- The intermediate points `paintTo` hands to `drawSegmentTo` before the
sample itself, for the scaled sample `point` and the last point `endPoint`
of the stroke. -/
def midPoints (c : Consts) (h : Handler) (point endPoint : Point) : List Point :=
  let widthDelta := point.z - endPoint.z
  if h.hasPressure ∧ (-widthDelta > c.MAX_WIDTH_VARIATION ∨ widthDelta > c.MAX_WIDTH_VARIATION) then
    let n := nbSteps c widthDelta (point.lineLengthSqTo endPoint)
    let stepLength : ℚ := 1 / n
    steps
      ⟨(point.x - endPoint.x) * stepLength, (point.y - endPoint.y) * stepLength,
        widthDelta * stepLength⟩
      (n - 1).toNat { endPoint with z := endPoint.z + widthDelta * stepLength }
  else
    []

/-- The fields of the handler that `paintTo` does not write. -/
def Handler.frame (h : Handler) :
    Bool × Point × ℕ × ℕ × Bool × List ℕ × List Stroke × List UndoAction :=
  (h.hasPressure, h.buttonDownPoint, h.startStrokeTime, h.lastStrokeTime, h.userTapped,
    h.subscribers, h.layer, h.undo)

/-- The calls `paintTo` makes: requests to add a point or to thicken the
first point, dispatched without clearing the pool. -/
def Call.isPaint : Call → Bool
  | .dispatch (.ADD_POINT_REQUEST _) => true
  | .dispatch (.THICKEN_FIRST_POINT_REQUEST _) => true
  | _ => false

/-- Two points whose distance in the plane is at least
`PIXEL_MOTION_THRESHOLD`, compared by squares. -/
def farApart (c : Consts) (a b : Point) : Prop :=
  c.PIXEL_MOTION_THRESHOLD ^ 2 ≤ (b.x - a.x) ^ 2 + (b.y - a.y) ^ 2

/-- The requests that cancel a stroke. -/
def Call.isCancellation : Call → Bool
  | .dispatch (.CANCELLATION_REQUEST _) => true
  | .dispatchAndClear (.CANCELLATION_REQUEST _) => true
  | _ => false

/-- The calls made by `appendEmptyLastPage`. -/
def pageCalls (ctl : Control) : List Call :=
  if ctl.settings.emptyLastPageAppend = .OnDrawOfLastPage then
    [.lock, .getPdfPageCount, .unlock] ++
      if ctl.pdfPageCount = 0 then
        [.lock, .getPageCount, .unlock] ++
          if ctl.currentPageNo = lastPageNo ctl.pageCount then
            [.insertNewPage (ctl.currentPageNo + 1)]
          else []
      else []
  else []

/-- The calls made by `singlePointFix`. -/
def fixCalls (h : Handler) (s : Stroke) (pos : PositionInputData) : List Call :=
  match s.points with
  | [pt] =>
    if h.hasPressure then
      [.dispatch (.THICKEN_FIRST_POINT_REQUEST (max pt.z (pos.pressure * s.getWidth)))]
    else []
  | _ => []

/-- The shape that replaces the finished stroke `fin`: the answer of the
recognizer, asked for the stroke recognizer drawing type only, with its width
set and snapped to the grid. -/
def recognizedShape (c : Consts) (g : Collaborators) (ctl : Control) (fin : Stroke) :
    Option Stroke :=
  if ctl.drawingType = .DRAWING_TYPE_STROKE_RECOGNIZER then
    (g.recognizePatterns fin ctl.settings.strokeRecognizerMinSize).map
      (adjustRecognized c g ctl fin)
  else none

/-- The call of the recognizer, made for the stroke recognizer drawing type
only. -/
def recognizerCalls (ctl : Control) (fin : Stroke) : List Call :=
  if ctl.drawingType = .DRAWING_TYPE_STROKE_RECOGNIZER then [.recognizePatterns fin] else []

/-- The calls that hand the finished stroke `fin` over: those of
`strokeRecognizerDetected` when a shape replaces it, those of `insertStroke`
otherwise. -/
def handoffCalls (g : Collaborators) (fin : Stroke) : Option Stroke → List Call
  | some r =>
    [.addUndoAction (.RecognizerUndoAction fin r), .lock, .addElement r, .unlock,
      .dispatch (.STROKE_REPLACEMENT_REQUEST r),
      .dispatchAndClear (.FINALIZATION_REQUEST (replacementRange g fin r)),
      .fireElementChanged r]
  | none =>
    [.lock, .addElement fin, .unlock, .dispatchAndClear (.FINALIZATION_REQUEST .empty),
      .fireElementChanged fin]

/-- The calls made by `finishStroke` for the finished stroke `fin`, after
those of the single point fix. -/
def finishCalls (c : Consts) (g : Collaborators) (ctl : Control) (fin : Stroke) : List Call :=
  .addUndoAction (.InsertUndoAction fin) ::
    (pageCalls ctl ++ (recognizerCalls ctl fin ++ handoffCalls g fin (recognizedShape c g ctl fin)))

/-- The undo actions recorded by `finishStroke` for the finished stroke
`fin`. -/
def finishUndo (c : Consts) (g : Collaborators) (ctl : Control) (fin : Stroke) :
    List UndoAction :=
  match recognizedShape c g ctl fin with
  | some r => [.InsertUndoAction fin, .RecognizerUndoAction fin r]
  | none => [.InsertUndoAction fin]

/-- The element added to the layer by `finishStroke` for the finished stroke
`fin`. -/
def finishElement (c : Consts) (g : Collaborators) (ctl : Control) (fin : Stroke) : Stroke :=
  (recognizedShape c g ctl fin).getD fin

/-- The stroke filter of `onButtonReleaseEvent` rejects the stroke as a tap:
the filter is enabled, the stroke is short and quick, and the previous stroke
ended long enough ago. -/
def tapRejected (ctl : Control) (h : Handler) (pos : PositionInputData) (zoom : ℚ) : Bool :=
  ctl.settings.strokeFilterEnabled &&
    (shortAndQuick ctl.settings h pos zoom && notSuccessive ctl.settings h pos)

/-- The calls that add an element to the layer. -/
def Call.isAddElement : Call → Bool
  | .addElement _ => true
  | _ => false

/-- The state of the document lock along a trace of calls: not held, held
with no call on the document made yet, held with one call on the document
made. -/
inductive LockState where
  | free
  | held
  | used
deriving DecidableEq, Repr

/-- The calls on the document and its layer that the source brackets with the
lock. -/
def Call.isDocumentCall : Call → Bool
  | .getPdfPageCount => true
  | .getPageCount => true
  | .addElement _ => true
  | _ => false

/-- The calls during which the lock must not be held: the dispatches to the
views, the recording of an undo action, the insertion of a page, the shape
recognition and `fireElementChanged`. -/
def Call.needsFreeLock : Call → Bool
  | .dispatch _ => true
  | .dispatchAndClear _ => true
  | .addUndoAction _ => true
  | .insertNewPage _ => true
  | .recognizePatterns _ => true
  | .fireElementChanged _ => true
  | _ => false

/-- One step of the lock discipline: `lock` is taken when the lock is free,
between `lock` and `unlock` there is exactly one call, a call on the
document, and every other call finds the lock free. A step that breaks the
discipline has no result. -/
def lockStep : LockState → Call → Option LockState
  | .free, .lock => some .held
  | .free, .unlock => none
  | .free, _ => some .free
  | .held, x => if x.isDocumentCall then some .used else none
  | .used, .unlock => some .free
  | .used, _ => none

/-- The lock discipline along a trace, from a given state of the lock. -/
def lockRun : LockState → List Call → Option LockState
  | st, [] => some st
  | st, x :: xs => (lockStep st x).bind fun st1 => lockRun st1 xs

/-- A division of doubles in which a divisor of zero is an error: `none`
stands for a division by zero. -/
def checkedDiv (a b : ℚ) : Option ℚ :=
  if b = 0 then none else some (a / b)

/-- The local `fx` of `StrokeHandler::strokeRecognizerDetected`, computed
with `checkedDiv`. -/
def Snapping.fxChecked (d : Snapping) : Option ℚ :=
  if |d.snappedBounds.width| > epsilon then
    checkedDiv (d.belowRightSnapped.x - d.topLeftSnapped.x) d.snappedBounds.width
  else some 1

/-- The local `fy` of `StrokeHandler::strokeRecognizerDetected`, computed
with `checkedDiv`. -/
def Snapping.fyChecked (d : Snapping) : Option ℚ :=
  if |d.snappedBounds.height| > epsilon then
    checkedDiv (d.belowRightSnapped.y - d.topLeftSnapped.y) d.snappedBounds.height
  else some 1

/-- The local `stepLength` of `StrokeHandler::paintTo`, computed with
`checkedDiv`. -/
def stepLengthChecked (c : Consts) (widthDelta d2 : ℚ) : Option ℚ :=
  checkedDiv 1 (nbSteps c widthDelta d2)

/-- The requests that thicken the first point. -/
def Call.isThicken : Call → Bool
  | .dispatch (.THICKEN_FIRST_POINT_REQUEST _) => true
  | _ => false

/-- The end points visited by `n` rounds of the decomposition loop in double
arithmetic. -/
def Fp.steps (increment : Point) : ℕ → Point → List Point
  | 0, _ => []
  | n + 1, e =>
    ⟨fadd e.x increment.x, fadd e.y increment.y, fadd e.z increment.z⟩ ::
      Fp.steps increment n ⟨fadd e.x increment.x, fadd e.y increment.y, fadd e.z increment.z⟩

/-- The intermediate points `Fp.paintTo` hands to `drawSegmentTo` before the
sample itself, for the scaled sample `point` and the last point `endPoint`
of the stroke. -/
def Fp.midPoints (c : Fp.Params) (h : Handler) (point endPoint : Point) : List Point :=
  let widthDelta := fsub point.z endPoint.z
  if h.hasPressure ∧ (-widthDelta > c.MAX_WIDTH_VARIATION ∨ widthDelta > c.MAX_WIDTH_VARIATION) then
    let n := Fp.nbSteps c widthDelta (c.lineLengthTo point endPoint)
    let stepLength : ℚ := fdiv 1 n
    Fp.steps
      ⟨fmul (fsub point.x endPoint.x) stepLength, fmul (fsub point.y endPoint.y) stepLength,
        fmul widthDelta stepLength⟩
      (castInt n - 1).toNat { endPoint with z := fadd endPoint.z (fmul widthDelta stepLength) }
  else
    []

/-- The local `stepLength` of `StrokeHandler::paintTo` in double arithmetic,
with a division in which a divisor of zero is an error. -/
def Fp.stepLengthChecked (c : Fp.Params) (widthDelta distance : ℚ) : Option ℚ :=
  if ((Fp.nbSteps c widthDelta distance : ℤ) : ℚ) = 0 then none
  else some (fdiv 1 (Fp.nbSteps c widthDelta distance))

/-- Sample constants: both thresholds are `0.3`, the sentinel is `-1`. -/
def sampleConsts : Consts := ⟨3 / 10, 3 / 10, -1⟩

/-- Sample collaborators: every element has the empty bounding box, nothing
snaps and no shape is recognized. -/
def sampleCollaborators : Collaborators where
  boundingRect := fun _ => ⟨0, 0, 0, 0⟩
  getSnappedBounds := fun _ => ⟨0, 0, 0, 0⟩
  getX := fun _ => 0
  getY := fun _ => 0
  getElementWidth := fun _ => 0
  getElementHeight := fun _ => 0
  move := fun s _ _ => s
  scale := fun s _ _ _ _ => s
  hasPressure := fun _ => false
  getAvgPressure := fun _ => 0
  snapToGrid := fun p => p
  recognizePatterns := fun _ _ => none

/-- Sample settings: the stroke filter ignores strokes shorter than 1 mm and
150 ms unless the previous stroke ended at most 500 ms ago; the display has
254 dpi, that is 10 pixels per mm. -/
def sampleSettings : Settings where
  strokeFilterEnabled := true
  strokeFilterIgnoreTime := 150
  strokeFilterIgnoreLength := 1
  strokeFilterSuccessiveTime := 500
  displayDpi := 254
  emptyLastPageAppend := .Disabled
  snapRecognizedShapesEnabled := false
  strokeRecognizerMinSize := 0

/-- Sample control: a pressure sensitive pen of thickness 2 on the only page
of a document without PDF background. -/
def sampleControl : Control where
  settings := sampleSettings
  toolThickness := 2
  toolPressureSensitive := true
  drawingType := .DRAWING_TYPE_DEFAULT
  pdfPageCount := 0
  pageCount := 1
  currentPageNo := 0

/-- A new handler, the previous stroke having ended at time `last`. -/
def sampleIdle (last : ℕ) : Handler where
  stroke := none
  hasPressure := false
  buttonDownPoint := ⟨0, 0, 0⟩
  startStrokeTime := 0
  lastStrokeTime := last
  userTapped := false
  subscribers := []
  layer := []
  undo := []
  trace := []

/-- The press of the samples: at `(10, 10)` with pressure `0.5` at time
`1000`. -/
def samplePress : PositionInputData := ⟨10, 10, 1 / 2, 1000⟩

/-- The handler `sampleIdle last` after `samplePress` at zoom 1. -/
def samplePressed (last : ℕ) : Handler where
  stroke := some ⟨2, true, [⟨10, 10, 1⟩]⟩
  hasPressure := true
  buttonDownPoint := ⟨10, 10, 0⟩
  startStrokeTime := 1000
  lastStrokeTime := last
  userTapped := false
  subscribers := []
  layer := []
  undo := []
  trace := [.stabilizerInit samplePress]

/-- The release of the samples: one pixel to the right of the press, ten
milliseconds later. -/
def sampleRelease : PositionInputData := ⟨11, 10, 0, 1010⟩

/-- A motion event without pressure, as some devices send when the tip of
the stylus is lifted. -/
def sampleLift : PositionInputData := ⟨12, 10, 0, 1005⟩

/-- A motion event with pressure. -/
def sampleMotion : PositionInputData := ⟨15, 10, 1, 1005⟩

/-- Sample control with the stroke recognizer as drawing type. -/
def sampleRecognizerControl : Control :=
  { sampleControl with drawingType := .DRAWING_TYPE_STROKE_RECOGNIZER }

/-- Sample collaborators whose recognizer answers every stroke with the line
from `(10, 10)` to `(20, 10)`. -/
def sampleRecognizer : Collaborators :=
  { sampleCollaborators with
    recognizePatterns := fun _ _ => some ⟨1, true, [⟨10, 10, -1⟩, ⟨20, 10, -1⟩]⟩ }

/-- The line from `(10, 10)` to `(20, 10)`, as a recognizer may answer. -/
def sampleLine : Stroke := ⟨1, true, [⟨10, 10, -1⟩, ⟨20, 10, -1⟩]⟩

/-- Sample collaborators for a grid of 14 units: the snapped bounds of a
stroke of two points span from the first point to the second, `move`
translates the points, `scale` scales them about the given origin, and
`snapToGrid` rounds both coordinates to the nearest multiple of 14. -/
def sampleGrid : Collaborators :=
  { sampleCollaborators with
    getSnappedBounds := fun s =>
      match s.points with
      | [a, b] => ⟨a.x, a.y, b.x - a.x, b.y - a.y⟩
      | _ => ⟨0, 0, 0, 0⟩
    move := fun s dx dy => { s with points := s.points.map fun p => ⟨p.x + dx, p.y + dy, p.z⟩ }
    scale := fun s x0 y0 fx fy =>
      { s with points := s.points.map fun p => ⟨x0 + (p.x - x0) * fx, y0 + (p.y - y0) * fy, p.z⟩ }
    snapToGrid := fun p => ⟨14 * ⌊p.x / 14 + 1 / 2⌋, 14 * ⌊p.y / 14 + 1 / 2⌋, p.z⟩ }

/-- Sample control with the snapping of recognized shapes enabled. -/
def sampleSnapControl : Control :=
  { sampleControl with settings := { sampleSettings with snapRecognizedShapesEnabled := true } }

/-- A release with the full pressure 1, one pixel to the right of the press
of the samples and ten milliseconds later. -/
def sampleFirmRelease : PositionInputData := ⟨11, 10, 1, 1010⟩

/-- Steps of Heron's method for the square root of `s`, from the estimate
`x`. -/
def heron (s : ℚ) : ℕ → ℚ → ℚ
  | 0, x => x
  | n + 1, x => heron s n ((x + s / x) / 2)

/-- Sample `Point::lineLengthTo`: `std::hypot` of the differences of the
coordinates, as the double nearest to the result of six steps of Heron's
method from the larger of the two differences. For two points on a
horizontal or vertical line it is the absolute value of the difference. -/
def sampleLineLengthTo (p q : Point) : ℚ :=
  rnd (heron (fsub p.x q.x ^ 2 + fsub p.y q.y ^ 2) 6 (max |fsub p.x q.x| |fsub p.y q.y|))

/-- Sample parameters in double arithmetic: both thresholds are the double
`0.3`, and `NO_PRESSURE` is `-1`. -/
def sampleParams : Fp.Params :=
  { toConsts := ⟨rnd 0.3, rnd 0.3, -1⟩, lineLengthTo := sampleLineLengthTo }
/-! ## Lemmas on the point emitter -/

theorem appendPoints_nil (c : Consts) (h : Handler) (s : Stroke) (hs : h.stroke = some s) :
    appendPoints c h s [] = h := by
  cases h
  simp_all [appendPoints]

theorem appendPoints_append (c : Consts) (h : Handler) (s : Stroke) (a b : List Point) :
    appendPoints c (appendPoints c h s a) { s with points := s.points ++ a.map (stored c h) } b =
      appendPoints c h s (a ++ b) := by
  simp [appendPoints, stored]

theorem drawSegmentTo_eq (c : Consts) (h : Handler) (s : Stroke) (p : Point)
    (hs : h.stroke = some s) : drawSegmentTo c h p = some (appendPoints c h s [p]) := by
  simp [drawSegmentTo, hs, appendPoints, stored, Stroke.addPoint, Handler.dispatch]

theorem decomposeLoop_eq (c : Consts) (increment : Point) (n : ℕ) :
    ∀ (e : Point) (h : Handler) (s : Stroke), h.stroke = some s →
      decomposeLoop c increment n e h = some (appendPoints c h s (steps increment n e)) := by
  induction n with
  | zero =>
    intro e h s hs
    simp [decomposeLoop, steps, appendPoints_nil c h s hs]
  | succ n ih =>
    intro e h s hs
    simp only [decomposeLoop, steps]
    rw [drawSegmentTo_eq c h s _ hs]
    simp only [Option.some_bind]
    rw [ih _ (appendPoints c h s [_]) { s with points := s.points ++ [_].map (stored c h) } rfl]
    rw [appendPoints_append]
    rfl

theorem paintTo_close (c : Consts) (h : Handler) (s : Stroke) (p e : Point)
    (hs : h.stroke = some s) (he : s.points.getLast? = some e)
    (hd : sqrtLt ((scaledPoint h s p).lineLengthSqTo e) c.PIXEL_MOTION_THRESHOLD = true) :
    paintTo c h p = some
      (if s.points.length = 1 ∧ h.hasPressure = true ∧ e.z < (scaledPoint h s p).z then
        { h with stroke := some (s.setLastPressure (scaledPoint h s p).z) }.dispatch
          (.THICKEN_FIRST_POINT_REQUEST (scaledPoint h s p).z)
      else h) := by
  simp only [paintTo, hs, he, hd, if_true, Stroke.getPointCount]
  split <;> rfl

theorem paintTo_far (c : Consts) (h : Handler) (s : Stroke) (p e : Point)
    (hs : h.stroke = some s) (he : s.points.getLast? = some e)
    (hd : sqrtLt ((scaledPoint h s p).lineLengthSqTo e) c.PIXEL_MOTION_THRESHOLD = false) :
    paintTo c h p = some (appendPoints c h s
      (midPoints c h (scaledPoint h s p) e ++ [scaledPoint h s p])) := by
  simp only [paintTo, hs, he, hd, midPoints]
  by_cases hp : h.hasPressure = true
  · by_cases hw : -((scaledPoint h s p).z - e.z) > c.MAX_WIDTH_VARIATION ∨
        (scaledPoint h s p).z - e.z > c.MAX_WIDTH_VARIATION
    · simp only [hp, hw, if_true, and_self, Bool.false_eq_true, if_false]
      rw [decomposeLoop_eq c _ _ _ h s hs]
      simp only [Option.some_bind]
      rw [drawSegmentTo_eq c _ _ _ rfl, appendPoints_append]
    · simp only [hp, hw, if_true, if_false, and_false, Bool.false_eq_true, List.nil_append]
      exact drawSegmentTo_eq c h s _ hs
  · simp only [hp, if_false, false_and, Bool.false_eq_true, List.nil_append]
    exact drawSegmentTo_eq c h s _ hs

theorem paintTo_empty (c : Consts) (h : Handler) (s : Stroke) (p : Point)
    (hs : h.stroke = some s) (he : s.points = []) :
    paintTo c h p = some (appendPoints c h s [scaledPoint h s p]) := by
  simp only [paintTo, hs, he, List.getLast?_nil]
  exact drawSegmentTo_eq c h s _ (by simp [hs, he])

theorem setLastZ_length (z : ℚ) : ∀ l : List Point, (Stroke.setLastZ z l).length = l.length
  | [] => rfl
  | [_] => rfl
  | _ :: q :: ps => by simp [Stroke.setLastZ, setLastZ_length z (q :: ps)]

theorem paintTo_total (c : Consts) (h : Handler) (s : Stroke) (p : Point)
    (hs : h.stroke = some s) :
    ∃ h1 s1 t, paintTo c h p = some h1 ∧ h1.stroke = some s1 ∧ h1.frame = h.frame ∧
      s1.width = s.width ∧ s1.toolPressureSensitive = s.toolPressureSensitive ∧
      s.points.length ≤ s1.points.length ∧
      h1.trace = h.trace ++ t ∧ ∀ x ∈ t, Call.isPaint x = true := by
  rcases hl : s.points.getLast? with _ | e
  · have he : s.points = [] := List.getLast?_eq_none_iff.mp hl
    refine ⟨_, _, _, paintTo_empty c h s p hs he, rfl, rfl, rfl, rfl, by simp, rfl, ?_⟩
    simp [Call.isPaint]
  · rcases hd : sqrtLt ((scaledPoint h s p).lineLengthSqTo e) c.PIXEL_MOTION_THRESHOLD with _ | _
    · refine ⟨_, _, _, paintTo_far c h s p e hs hl hd, rfl, rfl, rfl, rfl, by simp, rfl, ?_⟩
      intro x hx
      simp only [List.mem_map] at hx
      obtain ⟨q, _, rfl⟩ := hx
      rfl
    · rw [paintTo_close c h s p e hs hl hd]
      split
      · refine ⟨_, _, [_], rfl, rfl, rfl, rfl, rfl, ?_, rfl, ?_⟩
        · simp [Stroke.setLastPressure, setLastZ_length]
        · simp [Call.isPaint]
      · exact ⟨h, s, [], rfl, hs, rfl, rfl, rfl, le_refl _, by simp, by simp⟩

theorem paintAll_total (c : Consts) (ps : List Point) :
    ∀ (h : Handler) (s : Stroke), h.stroke = some s →
    ∃ h1 s1 t, paintAll c h ps = some h1 ∧ h1.stroke = some s1 ∧ h1.frame = h.frame ∧
      s1.width = s.width ∧ s1.toolPressureSensitive = s.toolPressureSensitive ∧
      s.points.length ≤ s1.points.length ∧
      h1.trace = h.trace ++ t ∧ ∀ x ∈ t, Call.isPaint x = true := by
  induction ps with
  | nil =>
    intro h s hs
    exact ⟨h, s, [], rfl, hs, rfl, rfl, rfl, le_refl _, by simp, by simp⟩
  | cons p ps ih =>
    intro h s hs
    obtain ⟨h1, s1, t1, e1, hs1, hf1, hw1, hp1, hl1, ht1, hx1⟩ := paintTo_total c h s p hs
    obtain ⟨h2, s2, t2, e2, hs2, hf2, hw2, hp2, hl2, ht2, hx2⟩ := ih h1 s1 hs1
    refine ⟨h2, s2, t1 ++ t2, ?_, hs2, hf2.trans hf1, hw2.trans hw1, hp2.trans hp1,
      hl1.trans hl2, ?_, ?_⟩
    · simp [paintAll, e1, e2]
    · rw [ht2, ht1, List.append_assoc]
    · intro x hx
      rcases List.mem_append.mp hx with hx | hx
      · exact hx1 x hx
      · exact hx2 x hx

/-! ## Lemmas on the session -/

theorem frame_fields {h1 h : Handler} (hf : h1.frame = h.frame) :
    h1.hasPressure = h.hasPressure ∧ h1.buttonDownPoint = h.buttonDownPoint ∧
    h1.startStrokeTime = h.startStrokeTime ∧ h1.lastStrokeTime = h.lastStrokeTime ∧
    h1.userTapped = h.userTapped ∧ h1.subscribers = h.subscribers ∧ h1.layer = h.layer ∧
    h1.undo = h.undo := by
  simpa [Handler.frame] using hf

theorem intToU32_of_nonneg (i : ℤ) (h0 : 0 ≤ i) (h1 : i < 2 ^ 31) : (intToU32 i : ℤ) = i := by
  unfold intToU32
  rw [Int.toNat_of_nonneg (Int.emod_nonneg _ (by norm_num))]
  exact Int.emod_eq_of_lt h0 (by omega)

theorem lengthSqrd_eq (h : Handler) (pos : PositionInputData) (zoom px py : ℚ) (hz : zoom ≠ 0)
    (hx : h.buttonDownPoint.x = px / zoom) (hy : h.buttonDownPoint.y = py / zoom) :
    lengthSqrd h pos zoom = (pos.x - px) ^ 2 + (pos.y - py) ^ 2 := by
  unfold lengthSqrd
  rw [hx, hy]
  field_simp

theorem singlePointFix_fst (h : Handler) (s : Stroke) (pos : PositionInputData) :
    (singlePointFix h s pos).1 = { h with trace := h.trace ++ fixCalls h s pos } := by
  unfold singlePointFix fixCalls
  split
  · split <;> simp [Handler.dispatch]
  · simp

theorem fixCalls_isCancellation (h : Handler) (s : Stroke) (pos : PositionInputData) :
    ∀ x ∈ fixCalls h s pos, Call.isCancellation x = false := by
  unfold fixCalls
  split
  · split <;> simp [Call.isCancellation]
  · simp

theorem appendEmptyLastPage_eq (ctl : Control) (h : Handler) :
    appendEmptyLastPage ctl h = { h with trace := h.trace ++ pageCalls ctl } := by
  unfold appendEmptyLastPage pageCalls
  split
  · split
    · split <;> simp [Handler.call]
    · simp [Handler.call]
  · simp

theorem pageCalls_isCancellation (ctl : Control) :
    ∀ x ∈ pageCalls ctl, Call.isCancellation x = false := by
  unfold pageCalls
  split
  · split
    · split <;> simp [Call.isCancellation]
    · simp [Call.isCancellation]
  · simp

theorem finishStroke_spec (c : Consts) (g : Collaborators) (ctl : Control) (h : Handler)
    (s : Stroke) (pos : PositionInputData) (hs : h.stroke = some s) :
    ∃ h1 t rest e, finishStroke c g ctl h pos = some h1 ∧ h1.stroke = none ∧
      h1.subscribers = [] ∧ h1.hasPressure = h.hasPressure ∧
      h1.buttonDownPoint = h.buttonDownPoint ∧ h1.startStrokeTime = h.startStrokeTime ∧
      h1.userTapped = h.userTapped ∧ h1.lastStrokeTime = h.lastStrokeTime ∧
      h1.undo = h.undo ++ .InsertUndoAction (singlePointFix h s pos).2 :: rest ∧
      h1.layer = h.layer ++ [e] ∧
      (rest = [] → e = (singlePointFix h s pos).2) ∧
      h1.trace = h.trace ++ t ∧ ∀ x ∈ t, Call.isCancellation x = false := by
  have e1 := singlePointFix_fst h s pos
  have x1 := fixCalls_isCancellation h s pos
  have x2 := pageCalls_isCancellation ctl
  unfold finishStroke
  simp only [hs]
  generalize singlePointFix h s pos = r at e1 ⊢
  obtain ⟨h1, s1⟩ := r
  simp only at e1
  subst e1
  simp only [Stroke.freeUnusedPointItems, appendEmptyLastPage_eq]
  split
  · split
    · rename_i r _
      simp only [strokeRecognizerDetected, Handler.call, Handler.dispatch, Handler.dispatchAndClear,
        List.append_assoc]
      refine ⟨_, _, [.RecognizerUndoAction s1 (adjustRecognized c g ctl s1 r)],
        adjustRecognized c g ctl s1 r, rfl, rfl, rfl, rfl, rfl, rfl, rfl, rfl, rfl, rfl, ?_, rfl, ?_⟩
      · simp
      · intro x hx
        simp only [List.mem_append, List.mem_cons, List.mem_singleton, List.not_mem_nil,
          or_false] at hx
        rcases hx with hx | rfl | hx | rfl | rfl | rfl | rfl | rfl | rfl | rfl | rfl
        · exact x1 x hx
        · rfl
        · exact x2 x hx
        all_goals rfl
    · simp only [insertStroke, Handler.call, Handler.dispatch, Handler.dispatchAndClear,
        List.append_assoc]
      refine ⟨_, _, [], s1, rfl, rfl, rfl, rfl, rfl, rfl, rfl, rfl, rfl, rfl, ?_, rfl, ?_⟩
      · simp
      · intro x hx
        simp only [List.mem_append, List.mem_cons, List.mem_singleton, List.not_mem_nil,
          or_false] at hx
        rcases hx with hx | rfl | hx | rfl | rfl | rfl | rfl | rfl | rfl
        · exact x1 x hx
        · rfl
        · exact x2 x hx
        all_goals rfl
  · simp only [insertStroke, Handler.call, Handler.dispatch, Handler.dispatchAndClear,
      List.append_assoc]
    refine ⟨_, _, [], s1, rfl, rfl, rfl, rfl, rfl, rfl, rfl, rfl, rfl, rfl, ?_, rfl, ?_⟩
    · simp
    · intro x hx
      simp only [List.mem_append, List.mem_cons, List.mem_singleton, List.not_mem_nil,
        or_false] at hx
      rcases hx with hx | rfl | hx | rfl | rfl | rfl | rfl | rfl
      · exact x1 x hx
      · rfl
      · exact x2 x hx
      all_goals rfl

/-- The state in which `onButtonReleaseEvent` reaches its stroke filter. -/
theorem release_flush (c : Consts) (h : Handler) (s : Stroke) (flush : List Point)
    (hs : h.stroke = some s) :
    ∃ h1 s1 t, paintAll c (h.call .stabilizerFinalizeStroke) flush = some h1 ∧
      h1.stroke = some s1 ∧ h1.frame = h.frame ∧ s1.width = s.width ∧
      s.points.length ≤ s1.points.length ∧
      h1.trace = h.trace ++ .stabilizerFinalizeStroke :: t ∧
      ∀ x ∈ t, Call.isPaint x = true := by
  obtain ⟨h1, s1, t, e, hs1, hf, hw, _, hl, ht, hx⟩ :=
    paintAll_total c flush (h.call .stabilizerFinalizeStroke) s hs
  exact ⟨h1, s1, t, e, hs1, hf, hw, hl, by simp [ht, Handler.call], hx⟩

theorem shortAndQuick_congr (st : Settings) (h1 h : Handler) (pos : PositionInputData) (zoom : ℚ)
    (hf : h1.frame = h.frame) : shortAndQuick st h1 pos zoom = shortAndQuick st h pos zoom := by
  obtain ⟨_, hb, ht, _⟩ := frame_fields hf
  simp [shortAndQuick, lengthSqrd, hb, ht]

theorem notSuccessive_congr (st : Settings) (h1 h : Handler) (pos : PositionInputData)
    (hf : h1.frame = h.frame) : notSuccessive st h1 pos = notSuccessive st h pos := by
  obtain ⟨_, _, _, hl, _⟩ := frame_fields hf
  simp [notSuccessive, hl]

theorem isPaint_not_isCancellation (x : Call) (hx : Call.isPaint x = true) :
    Call.isCancellation x = false := by
  unfold Call.isPaint at hx
  split at hx <;> first | rfl | cases hx

/-- The press of the samples leads from `sampleIdle` to `samplePressed`. -/
theorem samplePress_eq (last : ℕ) :
    onButtonPressEvent sampleConsts sampleControl (sampleIdle last) samplePress 1 =
      some (samplePressed last) := by
  simp [onButtonPressEvent, sampleIdle, samplePressed, samplePress, sampleControl, sampleConsts,
    createStroke, Stroke.addPoint, Stroke.getWidth, Handler.call]
  norm_num

/-! ## Tap rejection -/

/-- C2: successive taps are accepted. With the stroke filter enabled, a
release for which the time since `lastStrokeTime` is below `successiveTime`
is not discarded, whatever its length and duration: none of the calls it
makes is a `CANCELLATION_REQUEST`, `userTapped` is left as it was, an
`InsertUndoAction` for the stroke is put on the undo stack and one element
is added to the layer (the stroke itself, when no further undo action is
recorded). -/
theorem successive_tap_accepted (c : Consts) (g : Collaborators) (ctl : Control) (h : Handler)
    (s : Stroke) (pos : PositionInputData) (zoom : ℚ) (flush : List Point)
    (hs : h.stroke = some s) (hen : ctl.settings.strokeFilterEnabled = true)
    (hSr : ctl.settings.strokeFilterSuccessiveTime < 2 ^ 31)
    (hel : (subU32 pos.timestamp h.lastStrokeTime : ℤ) < ctl.settings.strokeFilterSuccessiveTime) :
    ∃ h1 t sf rest e, onButtonReleaseEvent c g ctl h pos zoom flush = some h1 ∧
      h1.trace = h.trace ++ t ∧ (∀ x ∈ t, Call.isCancellation x = false) ∧
      h1.userTapped = h.userTapped ∧
      h1.undo = h.undo ++ .InsertUndoAction sf :: rest ∧
      h1.layer = h.layer ++ [e] ∧ (rest = [] → e = sf) ∧ h1.stroke = none := by
  obtain ⟨h1, s1, t, e, hs1, hf, _, _, ht, hp⟩ := release_flush c h s flush hs
  obtain ⟨_, _, _, _, htap, _, hlay, hundo⟩ := frame_fields hf
  have hS0 : 0 ≤ ctl.settings.strokeFilterSuccessiveTime :=
    le_of_lt (lt_of_le_of_lt (Int.natCast_nonneg _) hel)
  have hn : notSuccessive ctl.settings h1 pos = false := by
    rw [notSuccessive_congr _ _ _ _ hf]
    simp only [notSuccessive, decide_eq_false_iff_not]
    have := intToU32_of_nonneg _ hS0 hSr
    omega
  obtain ⟨h2, t2, rest, el, e2, hstr, _, _, _, _, htap2, _, hundo2, hlay2, hrest, ht2, hc2⟩ :=
    finishStroke_spec c g ctl { h1 with lastStrokeTime := pos.timestamp } s1 pos hs1
  have er : onButtonReleaseEvent c g ctl h pos zoom flush = some h2 := by
    simp only [onButtonReleaseEvent, hs, e, Option.some_bind, hen, hn, Bool.and_false,
      if_true, Bool.false_eq_true, if_false, e2]
  refine ⟨h2, .stabilizerFinalizeStroke :: t ++ t2, _, rest, el, er, ?_, ?_, ?_, ?_, ?_, hrest,
    hstr⟩
  · rw [ht2]
    simp [ht]
  · intro x hx
    simp only [List.cons_append, List.mem_cons, List.mem_append] at hx
    rcases hx with rfl | hx | hx
    · rfl
    · exact isPaint_not_isCancellation x (hp x hx)
    · exact hc2 x hx
  · rw [htap2]
    exact htap
  · rw [hundo2]
    simp only [hundo]
  · rw [hlay2]
    simp only [hlay]

/-- Witness of C2: the press of the samples released one pixel and ten
milliseconds later, below both thresholds, 110 ms after the previous stroke
ended. -/
theorem successive_tap_accepted_witness :
    ∃ h1 t sf rest e, onButtonReleaseEvent sampleConsts sampleCollaborators sampleControl
        (samplePressed 900) sampleRelease 1 [] = some h1 ∧
      h1.trace = (samplePressed 900).trace ++ t ∧ (∀ x ∈ t, Call.isCancellation x = false) ∧
      h1.userTapped = (samplePressed 900).userTapped ∧
      h1.undo = (samplePressed 900).undo ++ .InsertUndoAction sf :: rest ∧
      h1.layer = (samplePressed 900).layer ++ [e] ∧ (rest = [] → e = sf) ∧ h1.stroke = none :=
  successive_tap_accepted sampleConsts sampleCollaborators sampleControl (samplePressed 900)
    ⟨2, true, [⟨10, 10, 1⟩]⟩ sampleRelease 1 [] rfl rfl
    (by norm_num [sampleControl, sampleSettings])
    (by norm_num [sampleRelease, samplePressed, sampleControl, sampleSettings, subU32])

/-! ## The motion threshold -/

theorem scaledPoint_x (h : Handler) (s : Stroke) (p : Point) : (scaledPoint h s p).x = p.x := by
  unfold scaledPoint
  split <;> rfl

theorem scaledPoint_y (h : Handler) (s : Stroke) (p : Point) : (scaledPoint h s p).y = p.y := by
  unfold scaledPoint
  split <;> rfl

theorem stored_x (c : Consts) (h : Handler) (p : Point) : (stored c h p).x = p.x := by
  unfold stored
  split <;> rfl

theorem stored_y (c : Consts) (h : Handler) (p : Point) : (stored c h p).y = p.y := by
  unfold stored
  split <;> rfl

theorem lineLengthSqTo_nonneg (p q : Point) : 0 ≤ p.lineLengthSqTo q := by
  unfold Point.lineLengthSqTo
  positivity

theorem sqrtLt_false_iff (d2 t : ℚ) (ht : 0 < t) : sqrtLt d2 t = false ↔ t ^ 2 ≤ d2 := by
  simp [sqrtLt, ht]

theorem sqrtLt_true_iff (d2 t : ℚ) (ht : 0 < t) : sqrtLt d2 t = true ↔ d2 < t ^ 2 := by
  simp [sqrtLt, ht]

/-- The square of `floorSqrtDiv d2 t` times `t ^ 2` does not exceed `d2`. -/
theorem floorSqrtDiv_sq_le (d2 t : ℚ) (ht : 0 < t) (hd : 0 ≤ d2) :
    ((floorSqrtDiv d2 t : ℤ) : ℚ) ^ 2 * t ^ 2 ≤ d2 := by
  have ht2 : 0 < t ^ 2 := by positivity
  have hq : 0 ≤ d2 / t ^ 2 := div_nonneg hd ht2.le
  have hf : (0 : ℤ) ≤ ⌊d2 / t ^ 2⌋ := Int.floor_nonneg.mpr hq
  have h1 : Nat.sqrt ⌊d2 / t ^ 2⌋.toNat * Nat.sqrt ⌊d2 / t ^ 2⌋.toNat ≤ ⌊d2 / t ^ 2⌋.toNat :=
    Nat.sqrt_le _
  have h2 : ((Nat.sqrt ⌊d2 / t ^ 2⌋.toNat : ℕ) : ℚ) ^ 2 ≤ d2 / t ^ 2 := by
    have h3 : ((⌊d2 / t ^ 2⌋.toNat : ℕ) : ℚ) = ((⌊d2 / t ^ 2⌋ : ℤ) : ℚ) := by
      have := Int.toNat_of_nonneg hf
      exact_mod_cast congrArg (fun z : ℤ => (z : ℚ)) this
    calc ((Nat.sqrt ⌊d2 / t ^ 2⌋.toNat : ℕ) : ℚ) ^ 2
        = ((Nat.sqrt ⌊d2 / t ^ 2⌋.toNat * Nat.sqrt ⌊d2 / t ^ 2⌋.toNat : ℕ) : ℚ) := by
          push_cast
          ring
      _ ≤ ((⌊d2 / t ^ 2⌋.toNat : ℕ) : ℚ) := by exact_mod_cast h1
      _ = ((⌊d2 / t ^ 2⌋ : ℤ) : ℚ) := h3
      _ ≤ d2 / t ^ 2 := Int.floor_le _
  have h4 := mul_le_mul_of_nonneg_right h2 ht2.le
  rw [div_mul_cancel₀ _ ht2.ne'] at h4
  simpa [floorSqrtDiv] using h4

/-- When `distance ≥ t`, `floorSqrtDiv d2 t` is at least one. -/
theorem one_le_floorSqrtDiv (d2 t : ℚ) (ht : 0 < t) (hd : t ^ 2 ≤ d2) :
    1 ≤ floorSqrtDiv d2 t := by
  have ht2 : 0 < t ^ 2 := by positivity
  have hq : 1 ≤ d2 / t ^ 2 := (one_le_div ht2).mpr hd
  have hf : (1 : ℤ) ≤ ⌊d2 / t ^ 2⌋ := Int.le_floor.mpr (by exact_mod_cast hq)
  have h1 : 1 ≤ ⌊d2 / t ^ 2⌋.toNat := by omega
  have h2 : 1 ≤ Nat.sqrt ⌊d2 / t ^ 2⌋.toNat := Nat.le_sqrt.mpr (by simpa using h1)
  unfold floorSqrtDiv
  exact_mod_cast h2

/-- The next integer after `floorSqrtDiv d2 t`, squared, times `t ^ 2`
exceeds `d2`. -/
theorem lt_floorSqrtDiv_succ_sq (d2 t : ℚ) (ht : 0 < t) (hd : 0 ≤ d2) :
    d2 < (((floorSqrtDiv d2 t : ℤ) : ℚ) + 1) ^ 2 * t ^ 2 := by
  have ht2 : 0 < t ^ 2 := by positivity
  have hq : 0 ≤ d2 / t ^ 2 := div_nonneg hd ht2.le
  have hf : (0 : ℤ) ≤ ⌊d2 / t ^ 2⌋ := Int.floor_nonneg.mpr hq
  have h1 : ⌊d2 / t ^ 2⌋.toNat <
      (Nat.sqrt ⌊d2 / t ^ 2⌋.toNat + 1) * (Nat.sqrt ⌊d2 / t ^ 2⌋.toNat + 1) :=
    Nat.lt_succ_sqrt _
  have h3 : ((⌊d2 / t ^ 2⌋.toNat : ℕ) : ℚ) = ((⌊d2 / t ^ 2⌋ : ℤ) : ℚ) := by
    have := Int.toNat_of_nonneg hf
    exact_mod_cast congrArg (fun z : ℤ => (z : ℚ)) this
  have h2 : d2 / t ^ 2 < ((Nat.sqrt ⌊d2 / t ^ 2⌋.toNat : ℕ) + 1 : ℚ) ^ 2 := by
    calc d2 / t ^ 2 < ((⌊d2 / t ^ 2⌋ : ℤ) : ℚ) + 1 := Int.lt_floor_add_one _
      _ = ((⌊d2 / t ^ 2⌋.toNat : ℕ) : ℚ) + 1 := by rw [h3]
      _ ≤ (((Nat.sqrt ⌊d2 / t ^ 2⌋.toNat + 1) * (Nat.sqrt ⌊d2 / t ^ 2⌋.toNat + 1) : ℕ) : ℚ) := by
          exact_mod_cast h1
      _ = ((Nat.sqrt ⌊d2 / t ^ 2⌋.toNat : ℕ) + 1 : ℚ) ^ 2 := by
          push_cast
          ring
  have h4 := mul_lt_mul_of_pos_right h2 ht2
  rw [div_mul_cancel₀ _ ht2.ne'] at h4
  simpa [floorSqrtDiv] using h4

/-- The embedding of `std::floor(distance / t)` is the floor of the real
quotient of the distance `√ d2` by `t`. -/
theorem floorSqrtDiv_eq_floor (d2 t : ℚ) (ht : 0 < t) (hd : 0 ≤ d2) :
    floorSqrtDiv d2 t = ⌊Real.sqrt (d2 : ℝ) / (t : ℝ)⌋ := by
  have htr : (0 : ℝ) < (t : ℝ) := by exact_mod_cast ht
  have hr0 : (0 : ℤ) ≤ floorSqrtDiv d2 t := by
    unfold floorSqrtDiv
    exact Int.natCast_nonneg _
  have hr0' : (0 : ℝ) ≤ ((floorSqrtDiv d2 t : ℤ) : ℝ) := by exact_mod_cast hr0
  have h1 : (((floorSqrtDiv d2 t : ℤ) : ℝ)) ^ 2 * (t : ℝ) ^ 2 ≤ (d2 : ℝ) := by
    exact_mod_cast floorSqrtDiv_sq_le d2 t ht hd
  have h2 : (d2 : ℝ) < ((((floorSqrtDiv d2 t : ℤ) : ℝ)) + 1) ^ 2 * (t : ℝ) ^ 2 := by
    exact_mod_cast lt_floorSqrtDiv_succ_sq d2 t ht hd
  symm
  rw [Int.floor_eq_iff]
  constructor
  · rw [le_div_iff₀ htr]
    apply Real.le_sqrt_of_sq_le
    rw [mul_pow]
    exact h1
  · rw [div_lt_iff₀ htr, Real.sqrt_lt' (by positivity), mul_pow]
    exact h2

/-- The embedding of the test `distance < t` is the test on the real
distance `√ d2`. -/
theorem sqrtLt_iff_sqrt_lt (d2 t : ℚ) : sqrtLt d2 t = true ↔ Real.sqrt (d2 : ℝ) < (t : ℝ) := by
  by_cases ht : 0 < t
  · have htr : (0 : ℝ) < (t : ℝ) := by exact_mod_cast ht
    rw [sqrtLt_true_iff d2 t ht, Real.sqrt_lt' htr]
    exact_mod_cast Iff.rfl
  · have htr : (t : ℝ) ≤ 0 := by exact_mod_cast not_lt.mp ht
    constructor
    · intro h
      simp [sqrtLt, ht] at h
    · intro h
      exact absurd (lt_of_lt_of_le h htr) (not_lt.mpr (Real.sqrt_nonneg _))

/-- Two points are far apart when their real distance is at least the
threshold. -/
theorem farApart_iff_le_sqrt (c : Consts) (a b : Point) (hT : 0 < c.PIXEL_MOTION_THRESHOLD) :
    farApart c a b ↔
      (c.PIXEL_MOTION_THRESHOLD : ℝ) ≤ Real.sqrt (((b.x - a.x) ^ 2 + (b.y - a.y) ^ 2 : ℚ) : ℝ) := by
  have htr : (0 : ℝ) < (c.PIXEL_MOTION_THRESHOLD : ℝ) := by exact_mod_cast hT
  rw [Real.le_sqrt' htr]
  unfold farApart
  exact_mod_cast Iff.rfl

theorem steps_length (inc : Point) : ∀ (n : ℕ) (a : Point), (steps inc n a).length = n
  | 0, _ => rfl
  | n + 1, a => by simp [steps, steps_length inc n]

theorem steps_chain (c : Consts) (inc : Point)
    (hinc : c.PIXEL_MOTION_THRESHOLD ^ 2 ≤ inc.x ^ 2 + inc.y ^ 2) :
    ∀ (n : ℕ) (a : Point), List.Chain (farApart c) a (steps inc n a)
  | 0, _ => List.Chain.nil
  | n + 1, a => by
    refine List.Chain.cons ?_ (steps_chain c inc hinc n _)
    simpa [farApart] using hinc

theorem steps_getLast (inc : Point) : ∀ (n : ℕ) (a : Point),
    ∃ l, (a :: steps inc n a).getLast? = some l ∧ l.x = a.x + n * inc.x ∧
      l.y = a.y + n * inc.y ∧ l.z = a.z + n * inc.z
  | 0, a => ⟨a, by simp [steps]⟩
  | n + 1, a => by
    obtain ⟨l, h1, hx, hy, hz⟩ := steps_getLast inc n
      ⟨a.x + inc.x, a.y + inc.y, a.z + inc.z⟩
    refine ⟨l, ?_, ?_, ?_, ?_⟩
    · rw [steps, List.getLast?_cons_cons]
      exact h1
    · rw [hx]
      push_cast
      ring
    · rw [hy]
      push_cast
      ring
    · rw [hz]
      push_cast
      ring

/-- The points a far sample adds to the stroke form a chain of far apart
points that starts at the last point of the stroke. -/
theorem midPoints_chain (c : Consts) (h : Handler) (point e : Point)
    (hT : 0 < c.PIXEL_MOTION_THRESHOLD) (hfar : farApart c e point) :
    List.Chain (farApart c) e (midPoints c h point e ++ [point]) := by
  unfold midPoints
  simp only
  split
  · generalize hn : nbSteps c (point.z - e.z) (point.lineLengthSqTo e) = n
    rcases Nat.eq_zero_or_pos (n - 1).toNat with hm | hm
    · rw [hm]
      simpa [steps] using hfar
    · have hn2 : 2 ≤ n := by omega
      have hnq : (0 : ℚ) < n := by exact_mod_cast (by omega : (0 : ℤ) < n)
      have hle : n ≤ floorSqrtDiv (point.lineLengthSqTo e) c.PIXEL_MOTION_THRESHOLD := by
        rw [← hn]
        exact min_le_right _ _
      have hf0 : (0 : ℚ) ≤ ((floorSqrtDiv (point.lineLengthSqTo e) c.PIXEL_MOTION_THRESHOLD : ℤ) : ℚ) := by
        exact_mod_cast (by omega : (0 : ℤ) ≤ floorSqrtDiv (point.lineLengthSqTo e) c.PIXEL_MOTION_THRESHOLD)
      have hsq : (n : ℚ) ^ 2 * c.PIXEL_MOTION_THRESHOLD ^ 2 ≤ point.lineLengthSqTo e := by
        refine le_trans ?_ (floorSqrtDiv_sq_le _ _ hT (lineLengthSqTo_nonneg _ _))
        have : (n : ℚ) ≤ ((floorSqrtDiv (point.lineLengthSqTo e) c.PIXEL_MOTION_THRESHOLD : ℤ) : ℚ) := by
          exact_mod_cast hle
        have h2 : (n : ℚ) ^ 2 ≤
            ((floorSqrtDiv (point.lineLengthSqTo e) c.PIXEL_MOTION_THRESHOLD : ℤ) : ℚ) ^ 2 :=
          pow_le_pow_left₀ hnq.le this 2
        exact mul_le_mul_of_nonneg_right h2 (by positivity)
      have hinc : c.PIXEL_MOTION_THRESHOLD ^ 2 ≤
          ((point.x - e.x) * (1 / (n : ℚ))) ^ 2 + ((point.y - e.y) * (1 / (n : ℚ))) ^ 2 := by
        have h3 : ((point.x - e.x) * (1 / (n : ℚ))) ^ 2 + ((point.y - e.y) * (1 / (n : ℚ))) ^ 2 =
            point.lineLengthSqTo e / (n : ℚ) ^ 2 := by
          unfold Point.lineLengthSqTo
          field_simp
        rw [h3, le_div_iff₀ (by positivity)]
        linarith
      have hc := steps_chain c
        ⟨(point.x - e.x) * (1 / (n : ℚ)), (point.y - e.y) * (1 / (n : ℚ)),
          (point.z - e.z) * (1 / (n : ℚ))⟩ hinc (n - 1).toNat
        { e with z := e.z + (point.z - e.z) * (1 / (n : ℚ)) }
      obtain ⟨l, hl, hx, hy, _⟩ := steps_getLast
        ⟨(point.x - e.x) * (1 / (n : ℚ)), (point.y - e.y) * (1 / (n : ℚ)),
          (point.z - e.z) * (1 / (n : ℚ))⟩ (n - 1).toNat
        { e with z := e.z + (point.z - e.z) * (1 / (n : ℚ)) }
      have hm1 : (((n - 1).toNat : ℕ) : ℚ) = (n : ℚ) - 1 := by
        have : (((n - 1).toNat : ℕ) : ℤ) = n - 1 := Int.toNat_of_nonneg (by omega)
        exact_mod_cast congrArg (fun z : ℤ => (z : ℚ)) this
      have hlast : farApart c l point := by
        unfold farApart
        rw [hx, hy, hm1]
        have h4 : point.x - (e.x + ((n : ℚ) - 1) * ((point.x - e.x) * (1 / (n : ℚ)))) =
            (point.x - e.x) * (1 / (n : ℚ)) := by
          field_simp
          ring
        have h5 : point.y - (e.y + ((n : ℚ) - 1) * ((point.y - e.y) * (1 / (n : ℚ)))) =
            (point.y - e.y) * (1 / (n : ℚ)) := by
          field_simp
          ring
        simp only at h4 h5 ⊢
        rw [h4, h5]
        exact hinc
      have hc1 : List.Chain' (farApart c)
          (({ e with z := e.z + (point.z - e.z) * (1 / (n : ℚ)) } : Point) ::
            steps ⟨(point.x - e.x) * (1 / (n : ℚ)), (point.y - e.y) * (1 / (n : ℚ)),
              (point.z - e.z) * (1 / (n : ℚ))⟩ (n - 1).toNat
              { e with z := e.z + (point.z - e.z) * (1 / (n : ℚ)) } ++ [point]) := by
        refine List.Chain'.append hc (List.chain'_singleton _) ?_
        intro x hx1 y hy1
        rw [hl] at hx1
        cases hx1
        cases hy1
        exact hlast
      rw [List.cons_append] at hc1
      have himp : ∀ {z : Point},
          farApart c { e with z := e.z + (point.z - e.z) * (1 / (n : ℚ)) } z → farApart c e z :=
        fun hz => hz
      exact List.Chain'.imp_head himp hc1
  · simpa using hfar

theorem chain_stored (c : Consts) (h : Handler) :
    ∀ (l : List Point) (e : Point), List.Chain (farApart c) e l →
      List.Chain (farApart c) e (l.map (stored c h))
  | [], _, _ => List.Chain.nil
  | a :: l, e, hc => by
    rw [List.chain_cons] at hc
    rw [List.map_cons, List.chain_cons]
    refine ⟨?_, ?_⟩
    · simpa [farApart, stored_x, stored_y] using hc.1
    · have h1 := chain_stored c h l a hc.2
      have himp : ∀ {z : Point}, farApart c a z → farApart c (stored c h a) z := by
        intro z hz
        simpa [farApart, stored_x, stored_y] using hz
      exact List.Chain'.imp_head himp h1

/-- One call of `paintTo` on a stroke whose consecutive points are far apart:
the call has a result, the consecutive points of the new stroke are far
apart, a far sample adds points and a close sample adds none. -/
theorem paintTo_wellSpaced (c : Consts) (h : Handler) (s : Stroke) (e p : Point)
    (hT : 0 < c.PIXEL_MOTION_THRESHOLD) (hs : h.stroke = some s)
    (he : s.points.getLast? = some e) (hc : List.Chain' (farApart c) s.points) :
    ∃ h1 s1 e1, paintTo c h p = some h1 ∧ h1.stroke = some s1 ∧
      s1.points.getLast? = some e1 ∧ List.Chain' (farApart c) s1.points ∧
      (c.PIXEL_MOTION_THRESHOLD ^ 2 ≤ (p.x - e.x) ^ 2 + (p.y - e.y) ^ 2 →
        s.points.length < s1.points.length) ∧
      ((p.x - e.x) ^ 2 + (p.y - e.y) ^ 2 < c.PIXEL_MOTION_THRESHOLD ^ 2 →
        s1.points.length = s.points.length) := by
  have hd2 : (scaledPoint h s p).lineLengthSqTo e = (p.x - e.x) ^ 2 + (p.y - e.y) ^ 2 := by
    simp [Point.lineLengthSqTo, scaledPoint_x, scaledPoint_y]
  rcases hd : sqrtLt ((scaledPoint h s p).lineLengthSqTo e) c.PIXEL_MOTION_THRESHOLD with _ | _
  · have hfar : farApart c e (scaledPoint h s p) := by
      have := (sqrtLt_false_iff _ _ hT).mp hd
      simpa [farApart, Point.lineLengthSqTo] using this
    have hch := chain_stored c h _ e (midPoints_chain c h (scaledPoint h s p) e hT hfar)
    obtain ⟨init, hinit⟩ := List.getLast?_eq_some_iff.mp he
    refine ⟨_, _, stored c h (scaledPoint h s p), paintTo_far c h s p e hs he hd, rfl, ?_, ?_, ?_, ?_⟩
    · simp
    · show List.Chain' (farApart c)
        (s.points ++ (midPoints c h (scaledPoint h s p) e ++ [scaledPoint h s p]).map (stored c h))
      rw [hinit] at hc ⊢
      exact List.Chain'.append_overlap hc hch (by simp)
    · intro _
      simp
    · intro hlt
      rw [hd2] at hd
      have := (sqrtLt_false_iff _ _ hT).mp hd
      exact absurd hlt (not_lt.mpr this)
  · rw [paintTo_close c h s p e hs he hd]
    have hnot : ¬ c.PIXEL_MOTION_THRESHOLD ^ 2 ≤ (p.x - e.x) ^ 2 + (p.y - e.y) ^ 2 := by
      rw [hd2] at hd
      exact not_le.mpr ((sqrtLt_true_iff _ _ hT).mp hd)
    split
    · rename_i hcond
      obtain ⟨hlen, _, _⟩ := hcond
      obtain ⟨a, ha⟩ := List.length_eq_one.mp hlen
      have hae : a = e := by
        rw [ha] at he
        simpa using he
      subst hae
      refine ⟨_, _, { a with z := (scaledPoint h s p).z }, rfl, rfl, ?_, ?_, ?_, ?_⟩
      · simp [Stroke.setLastPressure, ha, Stroke.setLastZ]
      · simp [Stroke.setLastPressure, ha, Stroke.setLastZ]
      · intro hge
        exact absurd hge hnot
      · intro _
        simp [Stroke.setLastPressure, setLastZ_length]
    · exact ⟨h, s, e, rfl, hs, he, hc, fun hge => absurd hge hnot, fun _ => rfl⟩

theorem paintAll_wellSpaced (c : Consts) (hT : 0 < c.PIXEL_MOTION_THRESHOLD) (ps : List Point) :
    ∀ (h : Handler) (s : Stroke) (e : Point), h.stroke = some s →
      s.points.getLast? = some e → List.Chain' (farApart c) s.points →
      ∃ h1 s1 e1, paintAll c h ps = some h1 ∧ h1.stroke = some s1 ∧
        s1.points.getLast? = some e1 ∧ List.Chain' (farApart c) s1.points := by
  induction ps with
  | nil =>
    intro h s e hs he hc
    exact ⟨h, s, e, rfl, hs, he, hc⟩
  | cons p ps ih =>
    intro h s e hs he hc
    obtain ⟨h1, s1, e1, r1, hs1, he1, hc1, _, _⟩ := paintTo_wellSpaced c h s e p hT hs he hc
    obtain ⟨h2, s2, e2, r2, hs2, he2, hc2⟩ := ih h1 s1 e1 hs1 he1 hc1
    exact ⟨h2, s2, e2, by simp [paintAll, r1, r2], hs2, he2, hc2⟩

/-- After a press the stroke of the handler has exactly one point. -/
theorem press_stroke (c : Consts) (ctl : Control) (h0 hp : Handler) (pos : PositionInputData)
    (zoom : ℚ) (hpress : onButtonPressEvent c ctl h0 pos zoom = some hp) :
    ∃ s pt, hp.stroke = some s ∧ s.points = [pt] := by
  unfold onButtonPressEvent at hpress
  split at hpress
  · cases hpress
  · simp only [Option.some.injEq] at hpress
    subst hpress
    exact ⟨_, _, rfl, rfl⟩

/-! ## The decomposition of a segment -/

/-- In the decomposition branch `nbSteps` is at least one. -/
theorem one_le_nbSteps (c : Consts) (widthDelta d2 : ℚ) (hT : 0 < c.PIXEL_MOTION_THRESHOLD)
    (hM : 0 < c.MAX_WIDTH_VARIATION) (hfar : c.PIXEL_MOTION_THRESHOLD ^ 2 ≤ d2)
    (hw : c.MAX_WIDTH_VARIATION < |widthDelta|) : 1 ≤ nbSteps c widthDelta d2 := by
  unfold nbSteps
  refine le_min ?_ (one_le_floorSqrtDiv d2 _ hT hfar)
  exact Int.one_le_ceil_iff.mpr (div_pos (lt_trans hM hw) hM)

/-- The result of a `paintTo` call that decomposes the segment: the points of
`steps`, then the scaled sample. -/
theorem paintTo_decompose (c : Consts) (h : Handler) (s : Stroke) (e p : Point)
    (hT : 0 < c.PIXEL_MOTION_THRESHOLD) (hs : h.stroke = some s)
    (he : s.points.getLast? = some e) (hp : h.hasPressure = true)
    (hfar : c.PIXEL_MOTION_THRESHOLD ^ 2 ≤ (p.x - e.x) ^ 2 + (p.y - e.y) ^ 2)
    (hw : c.MAX_WIDTH_VARIATION < |(scaledPoint h s p).z - e.z|) :
    ∃ h1 s1, paintTo c h p = some h1 ∧ h1.stroke = some s1 ∧
      s1.points = s.points ++
        steps
          ⟨(p.x - e.x) * (1 / (nbSteps c ((scaledPoint h s p).z - e.z)
              ((p.x - e.x) ^ 2 + (p.y - e.y) ^ 2) : ℚ)),
            (p.y - e.y) * (1 / (nbSteps c ((scaledPoint h s p).z - e.z)
              ((p.x - e.x) ^ 2 + (p.y - e.y) ^ 2) : ℚ)),
            ((scaledPoint h s p).z - e.z) * (1 / (nbSteps c ((scaledPoint h s p).z - e.z)
              ((p.x - e.x) ^ 2 + (p.y - e.y) ^ 2) : ℚ))⟩
          (nbSteps c ((scaledPoint h s p).z - e.z)
            ((p.x - e.x) ^ 2 + (p.y - e.y) ^ 2) - 1).toNat
          ⟨e.x, e.y, e.z + ((scaledPoint h s p).z - e.z) *
            (1 / (nbSteps c ((scaledPoint h s p).z - e.z)
              ((p.x - e.x) ^ 2 + (p.y - e.y) ^ 2) : ℚ))⟩ ++
        [scaledPoint h s p] := by
  have hd2 : (scaledPoint h s p).lineLengthSqTo e = (p.x - e.x) ^ 2 + (p.y - e.y) ^ 2 := by
    simp [Point.lineLengthSqTo, scaledPoint_x, scaledPoint_y]
  have hd : sqrtLt ((scaledPoint h s p).lineLengthSqTo e) c.PIXEL_MOTION_THRESHOLD = false := by
    rw [hd2]
    exact (sqrtLt_false_iff _ _ hT).mpr hfar
  have hcond : -((scaledPoint h s p).z - e.z) > c.MAX_WIDTH_VARIATION ∨
      (scaledPoint h s p).z - e.z > c.MAX_WIDTH_VARIATION := by
    rcases lt_abs.mp hw with h1 | h1
    · exact Or.inr h1
    · exact Or.inl h1
  have hst : ∀ l : List Point, l.map (stored c h) = l := by
    intro l
    have : stored c h = id := by
      funext q
      simp [stored, hp]
    rw [this, List.map_id]
  refine ⟨_, _, paintTo_far c h s p e hs he hd, rfl, ?_⟩
  simp only [hst, midPoints, hp, hcond, and_self, if_true, hd2, scaledPoint_x, scaledPoint_y,
    List.append_assoc]

/-- Sample values: for a width delta of 1 and a distance of 1 the source
computes `nbSteps = min (ceil (1 / 0.3)) (floor (1 / 0.3)) = min 4 3 = 3`. -/
theorem sample_nbSteps : nbSteps sampleConsts 1 1 = 3 := by
  have h1 : ⌈|(1 : ℚ)| / (3 / 10)⌉ = 4 := by
    rw [Int.ceil_eq_iff]
    norm_num
  have h2 : ⌊(1 : ℚ) / (3 / 10) ^ 2⌋ = 11 := by norm_num
  have h3 : Nat.sqrt 11 = 3 := by norm_num
  have h4 : (11 : ℤ).toNat = 11 := rfl
  show min ⌈|(1 : ℚ)| / (3 / 10)⌉ ((Nat.sqrt ⌊(1 : ℚ) / (3 / 10) ^ 2⌋.toNat : ℕ) : ℤ) = 3
  rw [h1, h2, h4, h3]
  rfl

/-- The decomposing call of the samples: after the press at `(10, 10)` with
width 1, the sample `(11, 10)` with pressure 1, that is width 2. -/
theorem sample_decompose :
    ∃ h1, paintTo sampleConsts (samplePressed 0) ⟨11, 10, 1⟩ = some h1 ∧
      h1.stroke = some ⟨2, true,
        [⟨10, 10, 1⟩, ⟨10 + 1 / 3, 10, 1 + 2 / 3⟩, ⟨10 + 2 / 3, 10, 2⟩, ⟨11, 10, 2⟩]⟩ := by
  have hz : (scaledPoint (samplePressed 0) ⟨2, true, [⟨10, 10, 1⟩]⟩ ⟨11, 10, 1⟩) = ⟨11, 10, 2⟩ := by
    norm_num [scaledPoint, samplePressed, Stroke.getWidth]
  have hn : nbSteps sampleConsts ((2 : ℚ) - 1) (Point.lineLengthSqTo ⟨11, 10, 2⟩ ⟨10, 10, 1⟩) = 3 := by
    have := sample_nbSteps
    norm_num [Point.lineLengthSqTo]
    exact this
  have h2 : ((3 : ℤ) - 1).toNat = 2 := by decide
  refine ⟨_, paintTo_far sampleConsts (samplePressed 0) ⟨2, true, [⟨10, 10, 1⟩]⟩ ⟨11, 10, 1⟩
    ⟨10, 10, 1⟩ rfl rfl ?_, ?_⟩
  · rw [hz]
    norm_num [sqrtLt, Point.lineLengthSqTo, sampleConsts]
  · rw [hz]
    simp only [appendPoints, midPoints, hn, h2, steps]
    norm_num [samplePressed, stored, sampleConsts]

/-- The number `nbSteps` of the source is the minimum of the two quotients,
rounded up and down, the second one taken with the real distance. -/
theorem nbSteps_eq_min (c : Consts) (widthDelta d2 : ℚ) (hT : 0 < c.PIXEL_MOTION_THRESHOLD)
    (hd : 0 ≤ d2) :
    nbSteps c widthDelta d2 = min ⌈|widthDelta| / c.MAX_WIDTH_VARIATION⌉
      ⌊Real.sqrt (d2 : ℝ) / (c.PIXEL_MOTION_THRESHOLD : ℝ)⌋ := by
  rw [← floorSqrtDiv_eq_floor d2 _ hT hd]
  rfl

theorem steps_z_chain (inc : Point) (d : ℚ) (hd : 0 < inc.z * d) :
    ∀ (n : ℕ) (a : Point),
      List.Chain (fun x y : ℚ => 0 < (y - x) * d) a.z ((steps inc n a).map fun q => q.z)
  | 0, _ => List.Chain.nil
  | n + 1, a => by
    simp only [steps, List.map_cons]
    refine List.Chain.cons ?_
      (steps_z_chain inc d hd n ⟨a.x + inc.x, a.y + inc.y, a.z + inc.z⟩)
    simpa using hd

/-- The widths along a decomposition: from the last point of the stroke
through the intermediate points every step changes the width in the direction
of the width delta, and the last intermediate point already has the width of
the sample. -/
theorem decompose_widths (c : Consts) (h : Handler) (s : Stroke) (e p : Point)
    (hT : 0 < c.PIXEL_MOTION_THRESHOLD) (hM : 0 < c.MAX_WIDTH_VARIATION)
    (hs : h.stroke = some s) (he : s.points.getLast? = some e) (hp : h.hasPressure = true)
    (hfar : c.PIXEL_MOTION_THRESHOLD ^ 2 ≤ (p.x - e.x) ^ 2 + (p.y - e.y) ^ 2)
    (hw : c.MAX_WIDTH_VARIATION < |(scaledPoint h s p).z - e.z|) :
    ∃ h1 s1 mids, paintTo c h p = some h1 ∧ h1.stroke = some s1 ∧
      s1.points = s.points ++ mids ++ [scaledPoint h s p] ∧
      List.Chain' (fun x y : ℚ => 0 < (y - x) * ((scaledPoint h s p).z - e.z))
        (e.z :: mids.map fun q => q.z) ∧
      ∀ m ∈ mids.getLast?, m.z = (scaledPoint h s p).z := by
  obtain ⟨h1, s1, r, hs1, hpts⟩ := paintTo_decompose c h s e p hT hs he hp hfar hw
  have hn1 := one_le_nbSteps c ((scaledPoint h s p).z - e.z) _ hT hM hfar hw
  generalize nbSteps c ((scaledPoint h s p).z - e.z) ((p.x - e.x) ^ 2 + (p.y - e.y) ^ 2) = n
    at hpts hn1
  generalize hdz : (scaledPoint h s p).z - e.z = dz at hpts hw
  have hnq : (0 : ℚ) < n := by exact_mod_cast (by omega : (0 : ℤ) < n)
  have hdz0 : dz ≠ 0 := by
    intro h0
    rw [h0, abs_zero] at hw
    exact absurd hM (not_lt.mpr hw.le)
  have hinc : 0 < dz * (1 / (n : ℚ)) * dz := by
    have : dz * (1 / (n : ℚ)) * dz = dz ^ 2 / n := by
      field_simp
      ring
    rw [this]
    positivity
  refine ⟨h1, s1, _, r, hs1, hpts, ?_, ?_⟩
  · have hc := steps_z_chain
      ⟨(p.x - e.x) * (1 / (n : ℚ)), (p.y - e.y) * (1 / (n : ℚ)), dz * (1 / (n : ℚ))⟩ dz hinc
      (n - 1).toNat ⟨e.x, e.y, e.z + dz * (1 / (n : ℚ))⟩
    have himp : ∀ {z : ℚ}, 0 < (z - (e.z + dz * (1 / (n : ℚ)))) * dz → 0 < (z - e.z) * dz := by
      intro z hz
      have : (z - e.z) * dz = (z - (e.z + dz * (1 / (n : ℚ)))) * dz + dz * (1 / (n : ℚ)) * dz := by
        ring
      rw [this]
      exact add_pos hz hinc
    exact List.Chain'.imp_head himp hc
  · intro m hm
    obtain ⟨l, hl, _, _, hz⟩ := steps_getLast
      ⟨(p.x - e.x) * (1 / (n : ℚ)), (p.y - e.y) * (1 / (n : ℚ)), dz * (1 / (n : ℚ))⟩
      (n - 1).toNat ⟨e.x, e.y, e.z + dz * (1 / (n : ℚ))⟩
    have hml : m = l := by
      rw [List.getLast?_cons, Option.mem_def.mp hm] at hl
      simpa using hl
    have hm1 : (((n - 1).toNat : ℕ) : ℚ) = (n : ℚ) - 1 := by
      have : (((n - 1).toNat : ℕ) : ℤ) = n - 1 := Int.toNat_of_nonneg (by omega)
      exact_mod_cast congrArg (fun z : ℤ => (z : ℚ)) this
    rw [hml, hz, hm1, ← hdz]
    simp only
    field_simp
    ring

/-! ## The single point fix -/

theorem singlePointFix_single (h : Handler) (s : Stroke) (pos : PositionInputData) (pt : Point)
    (hpt : s.points = [pt]) :
    ∃ first, (singlePointFix h s pos).2.points = [first, pt] ∧ first.x = pt.x ∧
      first.y = pt.y := by
  unfold singlePointFix
  rw [hpt]
  simp only
  split
  · exact ⟨{ pt with z := max pt.z (pos.pressure * s.getWidth) },
      by simp [Stroke.addPoint, Stroke.setLastPressure, hpt, Stroke.setLastZ], rfl, rfl⟩
  · exact ⟨pt, by simp [Stroke.addPoint, hpt], rfl, rfl⟩

/-- C6: the single point fix. A release that is not rejected as a tap and
finds the stroke, after the calls of the stabilizer, with exactly one point
`pt` hands to the undo stack, in an `InsertUndoAction`, a stroke of exactly
two points; the second is `pt` and the first has the same `x` and `y`. When
no further undo action is recorded (no shape was recognized) that stroke is
the element added to the layer. -/
theorem single_point_fix (c : Consts) (g : Collaborators) (ctl : Control) (h hf : Handler)
    (s sf : Stroke) (pt : Point) (pos : PositionInputData) (zoom : ℚ) (flush : List Point)
    (hs : h.stroke = some s)
    (hflush : paintAll c (h.call .stabilizerFinalizeStroke) flush = some hf)
    (hsf : hf.stroke = some sf) (hpt : sf.points = [pt])
    (hacc : ¬ (ctl.settings.strokeFilterEnabled = true ∧
      shortAndQuick ctl.settings h pos zoom = true ∧ notSuccessive ctl.settings h pos = true)) :
    ∃ h1 fin first rest, onButtonReleaseEvent c g ctl h pos zoom flush = some h1 ∧
      h1.undo = h.undo ++ .InsertUndoAction fin :: rest ∧
      fin.points = [first, pt] ∧ first.x = pt.x ∧ first.y = pt.y ∧
      (rest = [] → h1.layer = h.layer ++ [fin]) := by
  obtain ⟨hf', _, _, e, _, hfr, _⟩ := release_flush c h s flush hs
  rw [hflush] at e
  cases e
  obtain ⟨_, _, _, _, _, _, hlay, hundo⟩ := frame_fields hfr
  have hq := shortAndQuick_congr ctl.settings hf h pos zoom hfr
  have hn := notSuccessive_congr ctl.settings hf h pos hfr
  by_cases hen : ctl.settings.strokeFilterEnabled = true
  · obtain ⟨h2, _, rest, el, e2, _, _, _, _, _, _, _, hundo2, hlay2, hrest, _, _⟩ :=
      finishStroke_spec c g ctl { hf with lastStrokeTime := pos.timestamp } sf pos hsf
    obtain ⟨first, hfin, hx, hy⟩ :=
      singlePointFix_single { hf with lastStrokeTime := pos.timestamp } sf pos pt hpt
    have hcond : (shortAndQuick ctl.settings hf pos zoom && notSuccessive ctl.settings hf pos) =
        false := by
      rw [hq, hn]
      rcases hsq : shortAndQuick ctl.settings h pos zoom with _ | _
      · rfl
      · rcases hns : notSuccessive ctl.settings h pos with _ | _
        · rfl
        · exact absurd ⟨hen, hsq, hns⟩ hacc
    refine ⟨h2, _, first, rest, ?_, ?_, hfin, hx, hy, ?_⟩
    · simp only [onButtonReleaseEvent, hs, hflush, Option.some_bind, hen, hcond, if_true,
        Bool.false_eq_true, if_false, e2]
    · rw [hundo2]
      simp only [hundo]
    · intro hr
      rw [hlay2, hrest hr]
      simp only [hlay]
  · obtain ⟨h2, _, rest, el, e2, _, _, _, _, _, _, _, hundo2, hlay2, hrest, _, _⟩ :=
      finishStroke_spec c g ctl hf sf pos hsf
    obtain ⟨first, hfin, hx, hy⟩ := singlePointFix_single hf sf pos pt hpt
    refine ⟨h2, _, first, rest, ?_, ?_, hfin, hx, hy, ?_⟩
    · simp only [onButtonReleaseEvent, hs, hflush, Option.some_bind, hen, Bool.false_eq_true,
        if_false, e2]
    · rw [hundo2, hundo]
    · intro hr
      rw [hlay2, hrest hr, hlay]

/-- Witness of C6: the press of the samples released ten milliseconds later,
110 ms after the previous stroke ended, the stroke still having its first
point only. -/
theorem single_point_fix_witness :
    ∃ h1 fin first rest, onButtonReleaseEvent sampleConsts sampleCollaborators sampleControl
        (samplePressed 900) sampleRelease 1 [] = some h1 ∧
      h1.undo = (samplePressed 900).undo ++ .InsertUndoAction fin :: rest ∧
      fin.points = [first, ⟨10, 10, 1⟩] ∧ first.x = (10 : ℚ) ∧ first.y = (10 : ℚ) ∧
      (rest = [] → h1.layer = (samplePressed 900).layer ++ [fin]) :=
  single_point_fix sampleConsts sampleCollaborators sampleControl (samplePressed 900)
    ((samplePressed 900).call .stabilizerFinalizeStroke) ⟨2, true, [⟨10, 10, 1⟩]⟩
    ⟨2, true, [⟨10, 10, 1⟩]⟩ ⟨10, 10, 1⟩ sampleRelease 1 [] rfl rfl rfl rfl
    (by simp [notSuccessive, subU32, intToU32, sampleControl, sampleSettings, samplePressed,
      sampleRelease])

/-! ## Cancellation -/

/-- A release on an active stroke has a result, and afterwards the handler
holds no stroke and the pool has no subscriber. -/
theorem release_idle (c : Consts) (g : Collaborators) (ctl : Control) (h : Handler) (s : Stroke)
    (pos : PositionInputData) (zoom : ℚ) (flush : List Point) (hs : h.stroke = some s) :
    ∃ h1, onButtonReleaseEvent c g ctl h pos zoom flush = some h1 ∧ h1.stroke = none ∧
      h1.subscribers = [] := by
  obtain ⟨hf, sf, _, e, hsf, _, _⟩ := release_flush c h s flush hs
  obtain ⟨h2, _, _, _, e2, hst2, hsub2, _⟩ :=
    finishStroke_spec c g ctl { hf with lastStrokeTime := pos.timestamp } sf pos hsf
  obtain ⟨h3, _, _, _, e3, hst3, hsub3, _⟩ := finishStroke_spec c g ctl hf sf pos hsf
  simp only [onButtonReleaseEvent, hs, e, Option.some_bind]
  split
  · split
    · rw [hsf]
      exact ⟨_, rfl, rfl, rfl⟩
    · exact ⟨h2, e2, hst2, hsub2⟩
  · exact ⟨h3, e3, hst3, hsub3⟩

/-- In every reachable state a handler without a stroke has no subscriber in
its pool. -/
theorem reachable_idle (c : Consts) (g : Collaborators) (h : Handler) (hr : Reachable c g h) :
    h.stroke = none → h.subscribers = [] := by
  induction hr with
  | init h hs hsub => exact fun _ => hsub
  | press ctl pos zoom h h1 _ hp _ =>
    intro hn
    obtain ⟨s, _, hs, _⟩ := press_stroke c ctl h h1 pos zoom hp
    rw [hs] at hn
    cases hn
  | doublePress pos zoom h _ ih => exact ih
  | motion pos zoom emitted b h h1 _ hm ih =>
    intro hn
    unfold onMotionNotifyEvent at hm
    rcases hs : h.stroke with _ | s
    · simp only [hs, Option.some.injEq, Prod.mk.injEq] at hm
      rw [← hm.2] at hn ⊢
      exact ih hn
    · simp only [hs] at hm
      split at hm
      · simp only [Option.some.injEq, Prod.mk.injEq] at hm
        rw [← hm.2] at hn ⊢
        exact ih hn
      · obtain ⟨h2, s2, _, e2, hs2, _⟩ :=
          paintAll_total c emitted (h.call (.stabilizerProcessEvent pos)) s hs
        rw [e2] at hm
        simp only [Option.map_some', Option.some.injEq, Prod.mk.injEq] at hm
        rw [← hm.2, hs2] at hn
        cases hn
  | paint p h h1 _ hp _ =>
    intro hn
    rcases hs : h.stroke with _ | s
    · simp [paintTo, hs] at hp
    · obtain ⟨h2, s2, _, e2, hs2, _⟩ := paintTo_total c h s p hs
      rw [e2] at hp
      cases hp
      rw [hs2] at hn
      cases hn
  | cancel h _ ih =>
    intro hn
    unfold onSequenceCancelEvent at hn ⊢
    rcases hs : h.stroke with _ | s
    · simp only [hs] at hn ⊢
      exact ih hs
    · rfl
  | release ctl pos zoom flush h h1 _ hrel ih =>
    intro hn
    rcases hs : h.stroke with _ | s
    · simp only [onButtonReleaseEvent, hs, Option.some.injEq] at hrel
      rw [← hrel] at hn ⊢
      exact ih hn
    · obtain ⟨h2, e2, _, hsub⟩ := release_idle c g ctl h s pos zoom flush hs
      rw [e2] at hrel
      cases hrel
      exact hsub
  | view v h h1 _ hv _ =>
    intro hn
    unfold createView at hv
    split at hv
    · cases hv
    · cases hv
      rename_i s hs
      simp only at hn
      rw [hs] at hn
      cases hn
  | viewGone v h _ ih =>
    intro hn
    simp only at hn ⊢
    rw [ih hn]
    rfl

/-- C7: cancellation. In every reachable state of the handler,
`onSequenceCancelEvent` leaves the elements of the layer and the undo stack
unchanged, and afterwards the view pool has no subscriber and the handler
holds no stroke. -/
theorem cancel_frame (c : Consts) (g : Collaborators) (h : Handler) (hr : Reachable c g h) :
    (onSequenceCancelEvent g h).layer = h.layer ∧ (onSequenceCancelEvent g h).undo = h.undo ∧
      (onSequenceCancelEvent g h).subscribers = [] ∧ (onSequenceCancelEvent g h).stroke = none := by
  unfold onSequenceCancelEvent
  rcases hs : h.stroke with _ | s
  · exact ⟨rfl, rfl, reachable_idle c g h hr hs, hs⟩
  · exact ⟨rfl, rfl, rfl, rfl⟩

/-- Witness of C7: the handler after the press of the samples, with one view
registered in the pool. -/
theorem cancel_frame_witness :
    (onSequenceCancelEvent sampleCollaborators
        { samplePressed 0 with subscribers := (samplePressed 0).subscribers ++ [7] }).layer = [] ∧
      (onSequenceCancelEvent sampleCollaborators
        { samplePressed 0 with subscribers := (samplePressed 0).subscribers ++ [7] }).undo = [] ∧
      (onSequenceCancelEvent sampleCollaborators
        { samplePressed 0 with subscribers := (samplePressed 0).subscribers ++ [7] }).subscribers
        = [] ∧
      (onSequenceCancelEvent sampleCollaborators
        { samplePressed 0 with subscribers := (samplePressed 0).subscribers ++ [7] }).stroke
        = none :=
  cancel_frame sampleConsts sampleCollaborators
    { samplePressed 0 with subscribers := (samplePressed 0).subscribers ++ [7] }
    (Reachable.view 7 (samplePressed 0) _
      (Reachable.press sampleControl samplePress 1 (sampleIdle 0) (samplePressed 0)
        (Reachable.init (sampleIdle 0) rfl rfl) (samplePress_eq 0))
      rfl)

/-! ## Pressure scaling and first point thickening -/

theorem scaledPoint_eq (h : Handler) (s : Stroke) (p : Point) :
    scaledPoint h s p =
      ⟨p.x, p.y, if h.hasPressure = true ∧ 0 < p.z then p.z * s.width else p.z⟩ := by
  unfold scaledPoint
  split <;> simp_all [Stroke.getWidth]

/-- C9: first point thickening. For a sample closer than
`PIXEL_MOTION_THRESHOLD` to the last point `e`, with `zs` its scaled
pressure: no point is appended; a `THICKEN_FIRST_POINT_REQUEST` carrying `zs`
is dispatched and the single point of the stroke gets the width `zs` if and
only if the stroke has exactly one point, the session has pressure and `zs`
is strictly greater than the width of `e`; in all other cases the handler,
its stroke and the trace of its calls are unchanged. -/
theorem first_point_thickening (c : Consts) (h : Handler) (s : Stroke) (e p : Point) (zs : ℚ)
    (hT : 0 < c.PIXEL_MOTION_THRESHOLD) (hs : h.stroke = some s)
    (he : s.points.getLast? = some e)
    (hz : zs = if h.hasPressure = true ∧ 0 < p.z then p.z * s.width else p.z)
    (hclose : (p.x - e.x) ^ 2 + (p.y - e.y) ^ 2 < c.PIXEL_MOTION_THRESHOLD ^ 2) :
    ∃ h1 s1, paintTo c h p = some h1 ∧ h1.stroke = some s1 ∧
      s1.points.length = s.points.length ∧
      ((h1.trace = h.trace ++ [.dispatch (.THICKEN_FIRST_POINT_REQUEST zs)] ∧
          s1.points = [{ e with z := zs }]) ↔
        (s.points.length = 1 ∧ h.hasPressure = true ∧ e.z < zs)) ∧
      (¬ (s.points.length = 1 ∧ h.hasPressure = true ∧ e.z < zs) → h1 = h) := by
  have hsp : scaledPoint h s p = ⟨p.x, p.y, zs⟩ := by
    rw [scaledPoint_eq, hz]
  have hd : sqrtLt ((scaledPoint h s p).lineLengthSqTo e) c.PIXEL_MOTION_THRESHOLD = true := by
    rw [sqrtLt_true_iff _ _ hT]
    simpa [Point.lineLengthSqTo, hsp] using hclose
  rw [paintTo_close c h s p e hs he hd]
  simp only [hsp]
  by_cases hcond : s.points.length = 1 ∧ h.hasPressure = true ∧ e.z < zs
  · simp only [if_pos hcond]
    obtain ⟨a, ha⟩ := List.length_eq_one.mp hcond.1
    have hae : a = e := by
      rw [ha] at he
      simpa using he
    subst hae
    refine ⟨_, s.setLastPressure zs, rfl, rfl, ?_, ?_, fun hn => absurd hcond hn⟩
    · simp [Stroke.setLastPressure, setLastZ_length]
    · refine ⟨fun _ => hcond, fun _ => ⟨rfl, ?_⟩⟩
      simp [Stroke.setLastPressure, ha, Stroke.setLastZ]
  · simp only [if_neg hcond]
    refine ⟨h, s, rfl, hs, rfl, ?_, fun _ => rfl⟩
    refine ⟨fun hh => ?_, fun hh => absurd hh hcond⟩
    have := congrArg List.length hh.1
    simp at this

/-- Witness of C9: after the press of the samples at `(10, 10)` with width 1,
a sample a tenth of a pixel away with pressure 1, that is width 2. -/
theorem first_point_thickening_witness :
    ∃ h1 s1, paintTo sampleConsts (samplePressed 0) ⟨10 + 1 / 10, 10, 1⟩ = some h1 ∧
      h1.stroke = some s1 ∧
      s1.points.length = [(⟨10, 10, 1⟩ : Point)].length ∧
      ((h1.trace = (samplePressed 0).trace ++ [.dispatch (.THICKEN_FIRST_POINT_REQUEST 2)] ∧
          s1.points = [⟨10, 10, 2⟩]) ↔
        ([(⟨10, 10, 1⟩ : Point)].length = 1 ∧ (samplePressed 0).hasPressure = true ∧
          (1 : ℚ) < 2)) ∧
      (¬ ([(⟨10, 10, 1⟩ : Point)].length = 1 ∧ (samplePressed 0).hasPressure = true ∧
          (1 : ℚ) < 2) → h1 = samplePressed 0) :=
  first_point_thickening sampleConsts (samplePressed 0) ⟨2, true, [⟨10, 10, 1⟩]⟩ ⟨10, 10, 1⟩
    ⟨10 + 1 / 10, 10, 1⟩ 2 (by norm_num [sampleConsts]) rfl rfl (by norm_num [samplePressed])
    (by norm_num [sampleConsts])

/-! ## The press -/

/-- C10: the press. A press on a handler without stroke, at a zoom other than
zero, has a result: the handler holds a stroke with exactly one point, at
`(pos.x / zoom, pos.y / zoom)`, which is the recorded button-down point;
`hasPressure` holds exactly when the tool is pressure sensitive and the
pressure of the event is not `NO_PRESSURE`; the width of the point is the
pressure times the base width of the stroke when `hasPressure` holds and
`NO_PRESSURE` otherwise; and `startStrokeTime` is the time stamp of the
event. -/
theorem press_postcondition (c : Consts) (ctl : Control) (h : Handler) (pos : PositionInputData)
    (zoom : ℚ) (hidle : h.stroke = none) (_hzoom : zoom ≠ 0) :
    ∃ h1 s1 pt, onButtonPressEvent c ctl h pos zoom = some h1 ∧ h1.stroke = some s1 ∧
      s1.points = [pt] ∧ pt.x = pos.x / zoom ∧ pt.y = pos.y / zoom ∧
      h1.buttonDownPoint.x = pt.x ∧ h1.buttonDownPoint.y = pt.y ∧
      (h1.hasPressure = true ↔
        (s1.toolPressureSensitive = true ∧ pos.pressure ≠ c.NO_PRESSURE)) ∧
      pt.z = (if h1.hasPressure = true then pos.pressure * s1.getWidth else c.NO_PRESSURE) ∧
      h1.startStrokeTime = pos.timestamp := by
  unfold onButtonPressEvent
  rw [hidle]
  refine ⟨_, _, _, rfl, rfl, rfl, rfl, rfl, rfl, rfl, ?_, ?_, rfl⟩
  · simp [createStroke, Stroke.addPoint, Handler.call]
  · simp [createStroke, Stroke.addPoint, Handler.call, Stroke.getWidth]

/-- Witness of C10: the press of the samples on a new handler. -/
theorem press_postcondition_witness :
    ∃ h1 s1 pt, onButtonPressEvent sampleConsts sampleControl (sampleIdle 0) samplePress 1 =
        some h1 ∧ h1.stroke = some s1 ∧
      s1.points = [pt] ∧ pt.x = samplePress.x / 1 ∧ pt.y = samplePress.y / 1 ∧
      h1.buttonDownPoint.x = pt.x ∧ h1.buttonDownPoint.y = pt.y ∧
      (h1.hasPressure = true ↔
        (s1.toolPressureSensitive = true ∧ samplePress.pressure ≠ sampleConsts.NO_PRESSURE)) ∧
      pt.z = (if h1.hasPressure = true then samplePress.pressure * s1.getWidth
        else sampleConsts.NO_PRESSURE) ∧
      h1.startStrokeTime = samplePress.timestamp :=
  press_postcondition sampleConsts sampleControl (sampleIdle 0) samplePress 1 rfl one_ne_zero

/-! ## Motion -/

/-- C11: motion handling. Without a stroke `onMotionNotifyEvent` returns
`false` and changes nothing. With a stroke and a pressure of zero it returns
`true` and changes nothing: the stabilizer is not called and the stroke keeps
its points. With a stroke and any other pressure it returns `true`, its
first call is `processEvent` of the stabilizer with the sample, and what
follows are the `paintTo` calls the stabilizer answers with. -/
theorem motion_handling (c : Consts) (h : Handler) (pos : PositionInputData) (zoom : ℚ)
    (emitted : List Point) :
    (h.stroke = none → onMotionNotifyEvent c h pos zoom emitted = some (false, h)) ∧
    (∀ s, h.stroke = some s → pos.pressure = 0 →
      onMotionNotifyEvent c h pos zoom emitted = some (true, h)) ∧
    (∀ s, h.stroke = some s → pos.pressure ≠ 0 →
      ∃ h1 t, onMotionNotifyEvent c h pos zoom emitted = some (true, h1) ∧
        paintAll c (h.call (.stabilizerProcessEvent pos)) emitted = some h1 ∧
        h1.trace = h.trace ++ .stabilizerProcessEvent pos :: t ∧
        ∀ x ∈ t, Call.isPaint x = true) := by
  refine ⟨?_, ?_, ?_⟩
  · intro hs
    simp only [onMotionNotifyEvent, hs]
  · intro s hs hp
    simp only [onMotionNotifyEvent, hs, hp, if_true]
  · intro s hs hp
    obtain ⟨h1, _, t, e, _, _, _, _, _, ht, hx⟩ :=
      paintAll_total c emitted (h.call (.stabilizerProcessEvent pos)) s hs
    refine ⟨h1, t, ?_, e, ?_, hx⟩
    · simp only [onMotionNotifyEvent, hs, hp, if_false, e, Option.map_some']
    · simp [ht, Handler.call]

/-- Witness of C11: a motion on a new handler, and after the press of the
samples a motion without pressure and a motion with pressure. -/
theorem motion_handling_witness :
    onMotionNotifyEvent sampleConsts (sampleIdle 0) sampleMotion 1 [⟨15, 10, 1⟩] =
      some (false, sampleIdle 0) ∧
    onMotionNotifyEvent sampleConsts (samplePressed 0) sampleLift 1 [⟨12, 10, 0⟩] =
      some (true, samplePressed 0) ∧
    ∃ h1 t, onMotionNotifyEvent sampleConsts (samplePressed 0) sampleMotion 1 [⟨15, 10, 1⟩] =
        some (true, h1) ∧
      paintAll sampleConsts ((samplePressed 0).call (.stabilizerProcessEvent sampleMotion))
        [⟨15, 10, 1⟩] = some h1 ∧
      h1.trace = (samplePressed 0).trace ++ .stabilizerProcessEvent sampleMotion :: t ∧
      ∀ x ∈ t, Call.isPaint x = true :=
  ⟨(motion_handling sampleConsts (sampleIdle 0) sampleMotion 1 [⟨15, 10, 1⟩]).1 rfl,
    (motion_handling sampleConsts (samplePressed 0) sampleLift 1 [⟨12, 10, 0⟩]).2.1 _ rfl rfl,
    (motion_handling sampleConsts (samplePressed 0) sampleMotion 1 [⟨15, 10, 1⟩]).2.2 _ rfl
      (by norm_num [sampleMotion])⟩

/-! ## The stroke is never empty -/

/-- The invariant of the reachable states: a stroke held by the handler has
at least one point. -/
theorem reachable_points (c : Consts) (g : Collaborators) (h : Handler) (hr : Reachable c g h) :
    ∀ s, h.stroke = some s → 1 ≤ s.points.length := by
  induction hr with
  | init h hs _ =>
    intro s hs1
    rw [hs] at hs1
    cases hs1
  | press ctl pos zoom h h1 _ hp _ =>
    intro s hs
    obtain ⟨s1, pt, hs1, hpt⟩ := press_stroke c ctl h h1 pos zoom hp
    rw [hs1] at hs
    cases hs
    simp [hpt]
  | doublePress pos zoom h _ ih => exact ih
  | motion pos zoom emitted b h h1 _ hm ih =>
    intro s1 hs1
    unfold onMotionNotifyEvent at hm
    rcases hs : h.stroke with _ | s
    · simp only [hs, Option.some.injEq, Prod.mk.injEq] at hm
      rw [← hm.2] at hs1
      exact ih s1 hs1
    · simp only [hs] at hm
      split at hm
      · simp only [Option.some.injEq, Prod.mk.injEq] at hm
        rw [← hm.2] at hs1
        exact ih s1 hs1
      · obtain ⟨h2, s2, _, e2, hs2, _, _, _, hl, _⟩ :=
          paintAll_total c emitted (h.call (.stabilizerProcessEvent pos)) s hs
        rw [e2] at hm
        simp only [Option.map_some', Option.some.injEq, Prod.mk.injEq] at hm
        rw [← hm.2, hs2] at hs1
        cases hs1
        exact le_trans (ih s hs) hl
  | paint p h h1 _ hp ih =>
    intro s1 hs1
    rcases hs : h.stroke with _ | s
    · simp [paintTo, hs] at hp
    · obtain ⟨h2, s2, _, e2, hs2, _, _, _, hl, _⟩ := paintTo_total c h s p hs
      rw [e2] at hp
      cases hp
      rw [hs2] at hs1
      cases hs1
      exact le_trans (ih s hs) hl
  | cancel h _ ih =>
    intro s1 hs1
    unfold onSequenceCancelEvent at hs1
    rcases hs : h.stroke with _ | s
    · simp only [hs] at hs1
      cases hs1
    · simp only [hs] at hs1
      cases hs1
  | release ctl pos zoom flush h h1 _ hrel ih =>
    intro s1 hs1
    rcases hs : h.stroke with _ | s
    · simp only [onButtonReleaseEvent, hs, Option.some.injEq] at hrel
      rw [← hrel] at hs1
      exact ih s1 hs1
    · obtain ⟨h2, e2, hn, _⟩ := release_idle c g ctl h s pos zoom flush hs
      rw [e2] at hrel
      cases hrel
      rw [hn] at hs1
      cases hs1
  | view v h h1 _ hv ih =>
    intro s1 hs1
    unfold createView at hv
    split at hv
    · cases hv
    · cases hv
      exact ih s1 hs1
  | viewGone v h _ ih => exact ih

theorem samplePressed_reachable :
    Reachable sampleConsts sampleCollaborators (samplePressed 0) :=
  Reachable.press sampleControl samplePress 1 (sampleIdle 0) (samplePressed 0)
    (Reachable.init (sampleIdle 0) rfl rfl) (samplePress_eq 0)

/-- C12: the stroke in progress is never empty. In every state reachable from
a new handler by presses (which need an idle handler), motions, `paintTo`
calls, double presses, cancellations and releases, a stroke held by the
handler has at least one point. -/
theorem stroke_nonempty (c : Consts) (g : Collaborators) (h : Handler) (s : Stroke)
    (hr : Reachable c g h) (hs : h.stroke = some s) : 1 ≤ s.getPointCount :=
  reachable_points c g h hr s hs

/-- Witness of C12: the handler after the press of the samples is reachable
and holds the stroke with the one point of the press. -/
theorem stroke_nonempty_witness :
    Reachable sampleConsts sampleCollaborators (samplePressed 0) ∧
      (samplePressed 0).stroke = some ⟨2, true, [⟨10, 10, 1⟩]⟩ ∧
      1 ≤ Stroke.getPointCount ⟨2, true, [⟨10, 10, 1⟩]⟩ :=
  ⟨samplePressed_reachable, rfl,
    stroke_nonempty sampleConsts sampleCollaborators (samplePressed 0) _
      samplePressed_reachable rfl⟩

/-! ## The result of the finalization -/

theorem singlePointFix_snd_congr (h1 h2 : Handler) (s : Stroke) (pos : PositionInputData)
    (hp : h1.hasPressure = h2.hasPressure) :
    (singlePointFix h1 s pos).2 = (singlePointFix h2 s pos).2 := by
  unfold singlePointFix
  split
  · rw [hp]
    split <;> rfl
  · rfl

theorem fixCalls_congr (h1 h2 : Handler) (s : Stroke) (pos : PositionInputData)
    (hp : h1.hasPressure = h2.hasPressure) : fixCalls h1 s pos = fixCalls h2 s pos := by
  unfold fixCalls
  rw [hp]

/-- The result of `finishStroke` on a handler with a stroke. -/
theorem finishStroke_eq (c : Consts) (g : Collaborators) (ctl : Control) (h : Handler)
    (s : Stroke) (pos : PositionInputData) (hs : h.stroke = some s) :
    ∃ h1, finishStroke c g ctl h pos = some h1 ∧ h1.stroke = none ∧ h1.subscribers = [] ∧
      h1.hasPressure = h.hasPressure ∧ h1.buttonDownPoint = h.buttonDownPoint ∧
      h1.startStrokeTime = h.startStrokeTime ∧ h1.lastStrokeTime = h.lastStrokeTime ∧
      h1.userTapped = h.userTapped ∧
      h1.layer = h.layer ++ [finishElement c g ctl (singlePointFix h s pos).2] ∧
      h1.undo = h.undo ++ finishUndo c g ctl (singlePointFix h s pos).2 ∧
      h1.trace = h.trace ++
        (fixCalls h s pos ++ finishCalls c g ctl (singlePointFix h s pos).2) := by
  have e1 := singlePointFix_fst h s pos
  unfold finishStroke
  simp only [hs]
  generalize singlePointFix h s pos = r at e1 ⊢
  obtain ⟨h1, s1⟩ := r
  simp only at e1
  subst e1
  simp only [Stroke.freeUnusedPointItems, appendEmptyLastPage_eq, finishElement, finishUndo,
    finishCalls, recognizedShape, recognizerCalls]
  split
  · rename_i hdt
    rcases hrec : g.recognizePatterns s1 ctl.settings.strokeRecognizerMinSize with _ | r
    · simp only [insertStroke, Handler.call, Handler.dispatch, Handler.dispatchAndClear,
        List.append_assoc, Option.map_none', handoffCalls, Option.getD_none]
      exact ⟨_, rfl, rfl, rfl, rfl, rfl, rfl, rfl, rfl, rfl, rfl, by simp⟩
    · simp only [strokeRecognizerDetected, Handler.call, Handler.dispatch,
        Handler.dispatchAndClear, List.append_assoc, Option.map_some', handoffCalls,
        Option.getD_some]
      exact ⟨_, rfl, rfl, rfl, rfl, rfl, rfl, rfl, rfl, rfl, by simp, by simp⟩
  · simp only [insertStroke, Handler.call, Handler.dispatch, Handler.dispatchAndClear,
      List.append_assoc, handoffCalls, Option.getD_none]
    exact ⟨_, rfl, rfl, rfl, rfl, rfl, rfl, rfl, rfl, rfl, rfl, by simp⟩

theorem tapRejected_congr (ctl : Control) (h1 h : Handler) (pos : PositionInputData) (zoom : ℚ)
    (hf : h1.frame = h.frame) : tapRejected ctl h1 pos zoom = tapRejected ctl h pos zoom := by
  unfold tapRejected
  rw [shortAndQuick_congr _ _ _ _ _ hf, notSuccessive_congr _ _ _ _ hf]

/-- The result of a release that the stroke filter does not reject: `hf` and
`sf` are the handler and its stroke after the calls of the stabilizer. -/
theorem release_accepted (c : Consts) (g : Collaborators) (ctl : Control) (h hf : Handler)
    (s sf : Stroke) (pos : PositionInputData) (zoom : ℚ) (flush : List Point)
    (hs : h.stroke = some s)
    (hflush : paintAll c (h.call .stabilizerFinalizeStroke) flush = some hf)
    (hsf : hf.stroke = some sf) (hacc : tapRejected ctl h pos zoom = false) :
    ∃ h1, onButtonReleaseEvent c g ctl h pos zoom flush = some h1 ∧ h1.stroke = none ∧
      h1.subscribers = [] ∧ h1.userTapped = h.userTapped ∧
      h1.lastStrokeTime =
        (if ctl.settings.strokeFilterEnabled = true then pos.timestamp else h.lastStrokeTime) ∧
      h1.layer = h.layer ++ [finishElement c g ctl (singlePointFix hf sf pos).2] ∧
      h1.undo = h.undo ++ finishUndo c g ctl (singlePointFix hf sf pos).2 ∧
      h1.trace = hf.trace ++
        (fixCalls hf sf pos ++ finishCalls c g ctl (singlePointFix hf sf pos).2) := by
  obtain ⟨hf', _, _, e, _, hfr, _⟩ := release_flush c h s flush hs
  rw [hflush] at e
  cases e
  obtain ⟨_, _, _, hlast, htap, _, hlay, hundo⟩ := frame_fields hfr
  have hrej := tapRejected_congr ctl hf h pos zoom hfr
  rw [hacc] at hrej
  by_cases hen : ctl.settings.strokeFilterEnabled = true
  · obtain ⟨h2, e2, hst, hsub, _, _, _, hl2, ht2, hlay2, hundo2, htr2⟩ :=
      finishStroke_eq c g ctl { hf with lastStrokeTime := pos.timestamp } sf pos hsf
    have hsnd := singlePointFix_snd_congr { hf with lastStrokeTime := pos.timestamp } hf sf pos
      rfl
    have hfix := fixCalls_congr { hf with lastStrokeTime := pos.timestamp } hf sf pos rfl
    have hcond : (shortAndQuick ctl.settings hf pos zoom && notSuccessive ctl.settings hf pos) =
        false := by
      simpa [tapRejected, hen] using hrej
    refine ⟨h2, ?_, hst, hsub, ?_, ?_, ?_, ?_, ?_⟩
    · simp only [onButtonReleaseEvent, hs, hflush, Option.some_bind, hen, hcond, if_true,
        Bool.false_eq_true, if_false, e2]
    · rw [ht2]
      exact htap
    · rw [hl2, if_pos hen]
    · rw [hlay2, hsnd]
      simp only [hlay]
    · rw [hundo2, hsnd]
      simp only [hundo]
    · rw [htr2, hsnd, hfix]
  · obtain ⟨h2, e2, hst, hsub, _, _, _, hl2, ht2, hlay2, hundo2, htr2⟩ :=
      finishStroke_eq c g ctl hf sf pos hsf
    refine ⟨h2, ?_, hst, hsub, ?_, ?_, ?_, ?_, htr2⟩
    · simp only [onButtonReleaseEvent, hs, hflush, Option.some_bind, hen, Bool.false_eq_true,
        if_false, e2]
    · rw [ht2]
      exact htap
    · rw [hl2, if_neg hen]
      exact hlast
    · rw [hlay2, hlay]
    · rw [hundo2, hundo]

/-- The result of a release that the stroke filter rejects. -/
theorem release_rejected (c : Consts) (g : Collaborators) (ctl : Control) (h hf : Handler)
    (s sf : Stroke) (pos : PositionInputData) (zoom : ℚ) (flush : List Point)
    (hs : h.stroke = some s)
    (hflush : paintAll c (h.call .stabilizerFinalizeStroke) flush = some hf)
    (hsf : hf.stroke = some sf) (hrej : tapRejected ctl h pos zoom = true) :
    ∃ h1, onButtonReleaseEvent c g ctl h pos zoom flush = some h1 ∧ h1.stroke = none ∧
      h1.subscribers = [] ∧ h1.userTapped = true ∧ h1.lastStrokeTime = pos.timestamp ∧
      h1.layer = h.layer ∧ h1.undo = h.undo ∧
      h1.trace = hf.trace ++
        [.dispatchAndClear (.CANCELLATION_REQUEST (Range.ofRectangle (g.boundingRect sf)))] := by
  obtain ⟨hf', _, _, e, _, hfr, _⟩ := release_flush c h s flush hs
  rw [hflush] at e
  cases e
  obtain ⟨_, _, _, _, _, _, hlay, hundo⟩ := frame_fields hfr
  have hr := tapRejected_congr ctl hf h pos zoom hfr
  rw [hrej] at hr
  simp only [tapRejected, Bool.and_eq_true] at hr
  have er : onButtonReleaseEvent c g ctl h pos zoom flush = some
      { hf.dispatchAndClear (.CANCELLATION_REQUEST (Range.ofRectangle (g.boundingRect sf))) with
        stroke := none, userTapped := true, lastStrokeTime := pos.timestamp } := by
    simp only [onButtonReleaseEvent, hs, hflush, Option.some_bind, hr.1, hr.2.1, hr.2.2,
      Bool.and_self, if_true, hsf, Option.map_some']
  exact ⟨_, er, rfl, rfl, rfl, rfl, hlay, hundo, rfl⟩

/-! ## Persisted strokes -/

theorem singlePointFix_two (h : Handler) (s : Stroke) (pos : PositionInputData)
    (hl : 1 ≤ s.points.length) : 2 ≤ (singlePointFix h s pos).2.points.length := by
  unfold singlePointFix
  split
  · rename_i pt hpt
    split <;> simp [Stroke.addPoint, Stroke.setLastPressure, setLastZ_length, hpt]
  · rename_i hne
    rcases hp : s.points with _ | ⟨a, _ | ⟨b, l⟩⟩
    · rw [hp] at hl
      simp at hl
    · exact absurd hp (hne a)
    · simp

/-- C13: persisted strokes are drawable. A release in a reachable state adds
nothing to the undo stack and the layer (no stroke in progress, or a tap), or
finishes a freehand stroke `fin` of at least two points which it either
records in an `InsertUndoAction` and adds to the layer, or records in an
`InsertUndoAction` and a `RecognizerUndoAction` while the recognized shape is
added to the layer. -/
theorem persisted_strokes_drawable (c : Consts) (g : Collaborators) (ctl : Control)
    (h h1 : Handler) (pos : PositionInputData) (zoom : ℚ) (flush : List Point)
    (hr : Reachable c g h) (hrel : onButtonReleaseEvent c g ctl h pos zoom flush = some h1) :
    (h1.undo = h.undo ∧ h1.layer = h.layer) ∨
    ∃ fin, 2 ≤ fin.points.length ∧
      ((h1.undo = h.undo ++ [.InsertUndoAction fin] ∧ h1.layer = h.layer ++ [fin]) ∨
        ∃ r, h1.undo = h.undo ++ [.InsertUndoAction fin, .RecognizerUndoAction fin r] ∧
          h1.layer = h.layer ++ [r]) := by
  rcases hs : h.stroke with _ | s
  · simp only [onButtonReleaseEvent, hs, Option.some.injEq] at hrel
    rw [← hrel]
    exact Or.inl ⟨rfl, rfl⟩
  · obtain ⟨hf, sf, _, e, hsf, _, _, hlen, _⟩ := release_flush c h s flush hs
    have hone : 1 ≤ sf.points.length := le_trans (reachable_points c g h hr s hs) hlen
    rcases hrej : tapRejected ctl h pos zoom with _ | _
    · obtain ⟨h2, e2, _, _, _, _, hlay, hundo, _⟩ :=
        release_accepted c g ctl h hf s sf pos zoom flush hs e hsf hrej
      rw [e2] at hrel
      cases hrel
      refine Or.inr ⟨(singlePointFix hf sf pos).2, singlePointFix_two hf sf pos hone, ?_⟩
      rw [hlay, hundo]
      unfold finishElement finishUndo
      rcases recognizedShape c g ctl (singlePointFix hf sf pos).2 with _ | r
      · exact Or.inl ⟨rfl, rfl⟩
      · exact Or.inr ⟨r, rfl, rfl⟩
    · obtain ⟨h2, e2, _, _, _, _, hlay, hundo, _⟩ :=
        release_rejected c g ctl h hf s sf pos zoom flush hs e hsf hrej
      rw [e2] at hrel
      cases hrel
      exact Or.inl ⟨hundo, hlay⟩

/-- Witness of C13: the press of the samples released ten milliseconds later,
110 ms after the previous stroke ended. -/
theorem persisted_strokes_drawable_witness :
    ∃ h1, onButtonReleaseEvent sampleConsts sampleCollaborators sampleControl
        (samplePressed 900) sampleRelease 1 [] = some h1 ∧
      ((h1.undo = (samplePressed 900).undo ∧ h1.layer = (samplePressed 900).layer) ∨
      ∃ fin, 2 ≤ fin.points.length ∧
        ((h1.undo = (samplePressed 900).undo ++ [.InsertUndoAction fin] ∧
            h1.layer = (samplePressed 900).layer ++ [fin]) ∨
          ∃ r, h1.undo = (samplePressed 900).undo ++
              [.InsertUndoAction fin, .RecognizerUndoAction fin r] ∧
            h1.layer = (samplePressed 900).layer ++ [r])) := by
  obtain ⟨h1, e, _⟩ := release_idle sampleConsts sampleCollaborators sampleControl
    (samplePressed 900) ⟨2, true, [⟨10, 10, 1⟩]⟩ sampleRelease 1 [] rfl
  exact ⟨h1, e,
    persisted_strokes_drawable sampleConsts sampleCollaborators sampleControl (samplePressed 900)
      h1 sampleRelease 1 []
      (Reachable.press sampleControl samplePress 1 (sampleIdle 900) (samplePressed 900)
        (Reachable.init (sampleIdle 900) rfl rfl) (samplePress_eq 900))
      e⟩

/-! ## Return to idle -/

/-- C14: return to idle. A release always has a result, and on every branch
the handler holds no stroke afterwards, so that the next press passes its
`assert`; the same holds after a cancellation. -/
theorem return_to_idle (c : Consts) (g : Collaborators) (ctl ctl1 : Control) (h : Handler)
    (pos pos1 : PositionInputData) (zoom zoom1 : ℚ) (flush : List Point) :
    (∃ h1, onButtonReleaseEvent c g ctl h pos zoom flush = some h1 ∧ h1.stroke = none ∧
      (onButtonPressEvent c ctl1 h1 pos1 zoom1).isSome = true) ∧
    (onSequenceCancelEvent g h).stroke = none ∧
    (onButtonPressEvent c ctl1 (onSequenceCancelEvent g h) pos1 zoom1).isSome = true := by
  have hpress : ∀ h1 : Handler, h1.stroke = none →
      (onButtonPressEvent c ctl1 h1 pos1 zoom1).isSome = true := by
    intro h1 hn
    simp [onButtonPressEvent, hn]
  have hcancel : (onSequenceCancelEvent g h).stroke = none := by
    unfold onSequenceCancelEvent
    rcases hs : h.stroke with _ | s
    · exact hs
    · rfl
  refine ⟨?_, hcancel, hpress _ hcancel⟩
  rcases hs : h.stroke with _ | s
  · exact ⟨h, by simp only [onButtonReleaseEvent, hs], hs, hpress h hs⟩
  · obtain ⟨h1, e, hn, _⟩ := release_idle c g ctl h s pos zoom flush hs
    exact ⟨h1, e, hn, hpress h1 hn⟩

/-! ## Recognition -/

theorem isPaint_not_isAddElement (x : Call) (hx : Call.isPaint x = true) :
    Call.isAddElement x = false := by
  unfold Call.isPaint at hx
  split at hx <;> first | rfl | cases hx

theorem fixCalls_isPaint (h : Handler) (s : Stroke) (pos : PositionInputData) :
    ∀ x ∈ fixCalls h s pos, Call.isPaint x = true := by
  unfold fixCalls
  split
  · split <;> simp [Call.isPaint]
  · simp

theorem pageCalls_not_isAddElement (ctl : Control) :
    ∀ x ∈ pageCalls ctl, Call.isAddElement x = false := by
  unfold pageCalls
  split
  · split
    · split <;> simp [Call.isAddElement]
    · simp [Call.isAddElement]
  · simp

theorem pageCalls_ne_finalization (ctl : Control) (r : Range) :
    Call.dispatchAndClear (.FINALIZATION_REQUEST r) ∉ pageCalls ctl ∧
      Call.dispatch (.FINALIZATION_REQUEST r) ∉ pageCalls ctl := by
  unfold pageCalls
  split
  · split
    · split <;> simp
    · simp
  · simp

/-- C15: recognition replaces the plain insertion. For a release on a stroke
in progress that the stroke filter does not reject, with `fin` the stroke
after the single point fix: when the drawing type is the stroke recognizer
and the recognizer answers with a shape, the layer gets exactly one element,
the recognized shape (with its width set and snapped), the only `addElement`
call is the one for that shape, and no `FINALIZATION_REQUEST` with the empty
range is dispatched; when the drawing type is another one or the recognizer
finds nothing, the layer gets exactly the freehand stroke `fin`. -/
theorem recognition_replaces_insertion (c : Consts) (g : Collaborators) (ctl : Control)
    (h hf : Handler) (s sf : Stroke) (pos : PositionInputData) (zoom : ℚ) (flush : List Point)
    (hs : h.stroke = some s)
    (hflush : paintAll c (h.call .stabilizerFinalizeStroke) flush = some hf)
    (hsf : hf.stroke = some sf) (hacc : tapRejected ctl h pos zoom = false) :
    ∃ h1 t, onButtonReleaseEvent c g ctl h pos zoom flush = some h1 ∧ h1.trace = h.trace ++ t ∧
      (∀ r, ctl.drawingType = .DRAWING_TYPE_STROKE_RECOGNIZER →
        g.recognizePatterns (singlePointFix hf sf pos).2 ctl.settings.strokeRecognizerMinSize =
          some r →
        h1.layer = h.layer ++ [adjustRecognized c g ctl (singlePointFix hf sf pos).2 r] ∧
        (∀ e, Call.addElement e ∈ t ↔
          e = adjustRecognized c g ctl (singlePointFix hf sf pos).2 r) ∧
        Call.dispatchAndClear (.FINALIZATION_REQUEST .empty) ∉ t ∧
        Call.dispatch (.FINALIZATION_REQUEST .empty) ∉ t) ∧
      ((ctl.drawingType ≠ .DRAWING_TYPE_STROKE_RECOGNIZER ∨
          g.recognizePatterns (singlePointFix hf sf pos).2 ctl.settings.strokeRecognizerMinSize =
            none) →
        h1.layer = h.layer ++ [(singlePointFix hf sf pos).2] ∧
        (∀ e, Call.addElement e ∈ t ↔ e = (singlePointFix hf sf pos).2)) := by
  obtain ⟨hf', _, tp, e, _, _, _, _, htp, hpaint⟩ := release_flush c h s flush hs
  rw [hflush] at e
  cases e
  obtain ⟨h1, e1, _, _, _, _, hlay, _, htr⟩ :=
    release_accepted c g ctl h hf s sf pos zoom flush hs hflush hsf hacc
  have hfixp := fixCalls_isPaint hf sf pos
  have hpg := pageCalls_not_isAddElement ctl
  have hpf := pageCalls_ne_finalization ctl .empty
  have hnp : ∀ e, Call.addElement e ∉ tp := fun e he => by
    have := isPaint_not_isAddElement _ (hpaint _ he)
    simp [Call.isAddElement] at this
  have hnf : ∀ e, Call.addElement e ∉ fixCalls hf sf pos := fun e he => by
    have := isPaint_not_isAddElement _ (hfixp _ he)
    simp [Call.isAddElement] at this
  have hng : ∀ e, Call.addElement e ∉ pageCalls ctl := fun e he => by
    have := hpg _ he
    simp [Call.isAddElement] at this
  have hfp : ∀ r, Call.dispatchAndClear (.FINALIZATION_REQUEST r) ∉ tp ∧
      Call.dispatch (.FINALIZATION_REQUEST r) ∉ tp := fun r =>
    ⟨fun he => by simpa [Call.isPaint] using hpaint _ he,
      fun he => by simpa [Call.isPaint] using hpaint _ he⟩
  have hff : ∀ r, Call.dispatchAndClear (.FINALIZATION_REQUEST r) ∉ fixCalls hf sf pos ∧
      Call.dispatch (.FINALIZATION_REQUEST r) ∉ fixCalls hf sf pos := fun r =>
    ⟨fun he => by simpa [Call.isPaint] using hfixp _ he,
      fun he => by simpa [Call.isPaint] using hfixp _ he⟩
  refine ⟨h1, .stabilizerFinalizeStroke :: tp ++
    (fixCalls hf sf pos ++ finishCalls c g ctl (singlePointFix hf sf pos).2), e1, ?_, ?_, ?_⟩
  · rw [htr, htp]
    simp
  · intro r hdt hrec
    have hshape : recognizedShape c g ctl (singlePointFix hf sf pos).2 =
        some (adjustRecognized c g ctl (singlePointFix hf sf pos).2 r) := by
      simp [recognizedShape, hdt, hrec]
    refine ⟨?_, ?_, ?_, ?_⟩
    · rw [hlay, finishElement, hshape]
      rfl
    · intro el
      simp only [finishCalls, recognizerCalls, hdt, if_true, hshape, handoffCalls,
        List.cons_append, List.mem_cons, List.mem_append, List.mem_singleton,
        List.not_mem_nil, or_false, Call.addElement.injEq, false_or, hnp, hnf, hng]
      simp
    · simp only [finishCalls, recognizerCalls, hdt, if_true, hshape, handoffCalls,
        List.cons_append, List.mem_cons, List.mem_append, List.mem_singleton,
        List.not_mem_nil, or_false, false_or, (hfp .empty).1, (hff .empty).1, hpf.1]
      simp [replacementRange, Range.ofPoint, Range.addPoint]
    · simp only [finishCalls, recognizerCalls, hdt, if_true, hshape, handoffCalls,
        List.cons_append, List.mem_cons, List.mem_append, List.mem_singleton,
        List.not_mem_nil, or_false, false_or, (hfp .empty).2, (hff .empty).2, hpf.2]
      simp
  · intro hcase
    have hshape : recognizedShape c g ctl (singlePointFix hf sf pos).2 = none := by
      unfold recognizedShape
      rcases hcase with hdt | hrec
      · rw [if_neg hdt]
      · rw [hrec]
        simp
    refine ⟨?_, ?_⟩
    · rw [hlay, finishElement, hshape]
      rfl
    · intro el
      have hrc : Call.addElement el ∉ recognizerCalls ctl (singlePointFix hf sf pos).2 := by
        unfold recognizerCalls
        split <;> simp
      simp only [finishCalls, hshape, handoffCalls, List.cons_append, List.mem_cons,
        List.mem_append, List.mem_singleton, List.not_mem_nil, or_false,
        Call.addElement.injEq, false_or, hnp, hnf, hng, hrc]
      simp

/-- Witness of C15: the press of the samples released with the stroke
recognizer as drawing type and a recognizer that always finds a line. -/
theorem recognition_replaces_insertion_witness :
    ∃ h1 t, onButtonReleaseEvent sampleConsts sampleRecognizer sampleRecognizerControl
        (samplePressed 900) sampleRelease 1 [] = some h1 ∧
      h1.trace = (samplePressed 900).trace ++ t ∧
      (∀ r, sampleRecognizerControl.drawingType = .DRAWING_TYPE_STROKE_RECOGNIZER →
        sampleRecognizer.recognizePatterns
          (singlePointFix ((samplePressed 900).call .stabilizerFinalizeStroke)
            ⟨2, true, [⟨10, 10, 1⟩]⟩ sampleRelease).2
          sampleRecognizerControl.settings.strokeRecognizerMinSize = some r →
        h1.layer = (samplePressed 900).layer ++
          [adjustRecognized sampleConsts sampleRecognizer sampleRecognizerControl
            (singlePointFix ((samplePressed 900).call .stabilizerFinalizeStroke)
              ⟨2, true, [⟨10, 10, 1⟩]⟩ sampleRelease).2 r] ∧
        (∀ e, Call.addElement e ∈ t ↔
          e = adjustRecognized sampleConsts sampleRecognizer sampleRecognizerControl
            (singlePointFix ((samplePressed 900).call .stabilizerFinalizeStroke)
              ⟨2, true, [⟨10, 10, 1⟩]⟩ sampleRelease).2 r) ∧
        Call.dispatchAndClear (.FINALIZATION_REQUEST .empty) ∉ t ∧
        Call.dispatch (.FINALIZATION_REQUEST .empty) ∉ t) ∧
      ((sampleRecognizerControl.drawingType ≠ .DRAWING_TYPE_STROKE_RECOGNIZER ∨
          sampleRecognizer.recognizePatterns
            (singlePointFix ((samplePressed 900).call .stabilizerFinalizeStroke)
              ⟨2, true, [⟨10, 10, 1⟩]⟩ sampleRelease).2
            sampleRecognizerControl.settings.strokeRecognizerMinSize = none) →
        h1.layer = (samplePressed 900).layer ++
          [(singlePointFix ((samplePressed 900).call .stabilizerFinalizeStroke)
            ⟨2, true, [⟨10, 10, 1⟩]⟩ sampleRelease).2] ∧
        (∀ e, Call.addElement e ∈ t ↔
          e = (singlePointFix ((samplePressed 900).call .stabilizerFinalizeStroke)
            ⟨2, true, [⟨10, 10, 1⟩]⟩ sampleRelease).2)) :=
  recognition_replaces_insertion sampleConsts sampleRecognizer sampleRecognizerControl
    (samplePressed 900) ((samplePressed 900).call .stabilizerFinalizeStroke)
    ⟨2, true, [⟨10, 10, 1⟩]⟩ ⟨2, true, [⟨10, 10, 1⟩]⟩ sampleRelease 1 [] rfl rfl rfl
    (by simp [tapRejected, notSuccessive, subU32, intToU32, sampleRecognizerControl,
      sampleControl, sampleSettings, samplePressed, sampleRelease])

/-! ## The interpolation of the width -/

theorem steps_getElem (inc : Point) : ∀ (n : ℕ) (a : Point) (k : ℕ), k < n →
    (steps inc n a)[k]? =
      some ⟨a.x + (k + 1) * inc.x, a.y + (k + 1) * inc.y, a.z + (k + 1) * inc.z⟩
  | 0, _, _, hk => absurd hk (Nat.not_lt_zero _)
  | n + 1, a, 0, _ => by simp [steps]
  | n + 1, a, k + 1, hk => by
    rw [steps, List.getElem?_cons_succ,
      steps_getElem inc n ⟨a.x + inc.x, a.y + inc.y, a.z + inc.z⟩ k (Nat.lt_of_succ_lt_succ hk)]
    simp only [Option.some.injEq, Point.mk.injEq]
    push_cast
    refine ⟨by ring, by ring, by ring⟩

/-- The intermediate points of a decomposition: with `n` the number of steps,
the intermediate point of index `k` (from 0) has the position of step
`k + 1` on the line from `e` to the sample and the width of step `k + 2`. -/
theorem decompose_points (c : Consts) (h : Handler) (s : Stroke) (e p : Point)
    (hT : 0 < c.PIXEL_MOTION_THRESHOLD) (hM : 0 < c.MAX_WIDTH_VARIATION)
    (hs : h.stroke = some s) (he : s.points.getLast? = some e) (hp : h.hasPressure = true)
    (hfar : c.PIXEL_MOTION_THRESHOLD ^ 2 ≤ (p.x - e.x) ^ 2 + (p.y - e.y) ^ 2)
    (hw : c.MAX_WIDTH_VARIATION < |(scaledPoint h s p).z - e.z|) :
    ∃ h1 s1 mids, paintTo c h p = some h1 ∧ h1.stroke = some s1 ∧
      s1.points = s.points ++ mids ++ [scaledPoint h s p] ∧
      (mids.length : ℤ) = nbSteps c ((scaledPoint h s p).z - e.z)
        ((p.x - e.x) ^ 2 + (p.y - e.y) ^ 2) - 1 ∧
      ∀ k, k < mids.length → mids[k]? = some
        ⟨e.x + (k + 1) * ((p.x - e.x) / (nbSteps c ((scaledPoint h s p).z - e.z)
            ((p.x - e.x) ^ 2 + (p.y - e.y) ^ 2) : ℚ)),
          e.y + (k + 1) * ((p.y - e.y) / (nbSteps c ((scaledPoint h s p).z - e.z)
            ((p.x - e.x) ^ 2 + (p.y - e.y) ^ 2) : ℚ)),
          e.z + (k + 2) * (((scaledPoint h s p).z - e.z) /
            (nbSteps c ((scaledPoint h s p).z - e.z)
              ((p.x - e.x) ^ 2 + (p.y - e.y) ^ 2) : ℚ))⟩ := by
  obtain ⟨h1, s1, r, hs1, hpts⟩ := paintTo_decompose c h s e p hT hs he hp hfar hw
  have hn1 := one_le_nbSteps c ((scaledPoint h s p).z - e.z) _ hT hM hfar hw
  refine ⟨h1, s1, _, r, hs1, hpts, ?_, ?_⟩
  · rw [steps_length]
    omega
  · intro k hk
    rw [steps_length] at hk
    rw [steps_getElem _ _ _ k hk]
    simp only [Option.some.injEq, Point.mk.injEq]
    refine ⟨by ring, by ring, by ring⟩


/-- C16 at the decomposing call of the samples: the last point is
`e = (10, 10, 1)`, the scaled sample is `p = (11, 10, 2)` and `nbSteps` is 3.
The intermediate points have the `x` and `y` of the linear interpolation and
the call appends 3 points, but the first intermediate point has the width
`5/3` and the second the width `2`, where the linear interpolation
`e.z + k * (p.z - e.z) / 3` gives `4/3` and `5/3`. -/
theorem interpolation_failing_input :
    nbSteps sampleConsts ((2 : ℚ) - 1) (((11 : ℚ) - 10) ^ 2 + ((10 : ℚ) - 10) ^ 2) = 3 ∧
    ∃ h1, paintTo sampleConsts (samplePressed 0) ⟨11, 10, 1⟩ = some h1 ∧
      h1.stroke = some ⟨2, true,
        [⟨10, 10, 1⟩, ⟨10 + 1 * (11 - 10) / 3, 10 + 1 * (10 - 10) / 3, 5 / 3⟩,
          ⟨10 + 2 * (11 - 10) / 3, 10 + 2 * (10 - 10) / 3, 2⟩, ⟨11, 10, 2⟩]⟩ ∧
      (5 / 3 : ℚ) ≠ 1 + 1 * (2 - 1) / 3 ∧ (2 : ℚ) ≠ 1 + 2 * (2 - 1) / 3 := by
  refine ⟨?_, ?_⟩
  · have := sample_nbSteps
    norm_num
    exact this
  · obtain ⟨h1, e1, hs1⟩ := sample_decompose
    refine ⟨h1, e1, ?_, by norm_num, by norm_num⟩
    rw [hs1]
    norm_num

/-- Sample values: for a width delta of `1/2` and a distance of 5 the source
computes `nbSteps = min (ceil (0.5 / 0.3)) (floor (5 / 0.3)) = min 2 16 = 2`. -/
theorem sample_nbSteps_wide : nbSteps sampleConsts (1 / 2) 25 = 2 := by
  have h1 : ⌈|(1 / 2 : ℚ)| / (3 / 10)⌉ = 2 := by
    rw [Int.ceil_eq_iff]
    norm_num [abs_of_pos]
  have h2 : ⌊(25 : ℚ) / (3 / 10) ^ 2⌋ = 277 := by
    rw [Int.floor_eq_iff]
    norm_num
  have h3 : Nat.sqrt 277 = 16 := by norm_num
  have h4 : (277 : ℤ).toNat = 277 := rfl
  show min ⌈|(1 / 2 : ℚ)| / (3 / 10)⌉ ((Nat.sqrt ⌊(25 : ℚ) / (3 / 10) ^ 2⌋.toNat : ℕ) : ℤ) = 2
  rw [h1, h2, h4, h3]
  rfl

/-- C17 at a call that the motion threshold does not limit: the last point
is `(10, 10, 1)` and the sample `(15, 10)` has the scaled width `3/2`, so
`ceil (|dz| / 0.3) = 2` is below `floor (5 / 0.3) = 16` and the segment is
decomposed in two steps. The one intermediate point already has the width
`3/2`: the width changes by `1/2`, more than `MAX_WIDTH_VARIATION = 3/10`,
between the last point and the intermediate point. -/
theorem width_bound_failing_input :
    ⌈|(3 / 2 : ℚ) - 1| / sampleConsts.MAX_WIDTH_VARIATION⌉ ≤
      floorSqrtDiv (((15 : ℚ) - 10) ^ 2 + ((10 : ℚ) - 10) ^ 2)
        sampleConsts.PIXEL_MOTION_THRESHOLD ∧
    ∃ h1, paintTo sampleConsts (samplePressed 0) ⟨15, 10, 3 / 4⟩ = some h1 ∧
      h1.stroke = some ⟨2, true, [⟨10, 10, 1⟩, ⟨25 / 2, 10, 3 / 2⟩, ⟨15, 10, 3 / 2⟩]⟩ ∧
      sampleConsts.MAX_WIDTH_VARIATION < |(3 / 2 : ℚ) - 1| := by
  have hz : (scaledPoint (samplePressed 0) ⟨2, true, [⟨10, 10, 1⟩]⟩ ⟨15, 10, 3 / 4⟩) =
      ⟨15, 10, 3 / 2⟩ := by
    norm_num [scaledPoint, samplePressed, Stroke.getWidth]
  have hn : nbSteps sampleConsts ((3 / 2 : ℚ) - 1)
      (Point.lineLengthSqTo ⟨15, 10, 3 / 2⟩ ⟨10, 10, 1⟩) = 2 := by
    have := sample_nbSteps_wide
    norm_num [Point.lineLengthSqTo]
    exact this
  have h2 : ((2 : ℤ) - 1).toNat = 1 := by decide
  refine ⟨?_, ?_⟩
  · have hc : ⌈|(3 / 2 : ℚ) - 1| / (3 / 10)⌉ = 2 := by
      rw [Int.ceil_eq_iff]
      norm_num [abs_of_pos]
    have hf : ⌊(25 : ℚ) / (3 / 10) ^ 2⌋ = 277 := by
      rw [Int.floor_eq_iff]
      norm_num
    have h3 : Nat.sqrt 277 = 16 := by norm_num
    have h4 : (277 : ℤ).toNat = 277 := rfl
    show ⌈|(3 / 2 : ℚ) - 1| / (3 / 10)⌉ ≤
      ((Nat.sqrt ⌊(((15 : ℚ) - 10) ^ 2 + ((10 : ℚ) - 10) ^ 2) / (3 / 10) ^ 2⌋.toNat : ℕ) : ℤ)
    have h5 : (((15 : ℚ) - 10) ^ 2 + ((10 : ℚ) - 10) ^ 2) = 25 := by norm_num
    rw [hc, h5, hf, h4, h3]
    decide
  · refine ⟨_, paintTo_far sampleConsts (samplePressed 0) ⟨2, true, [⟨10, 10, 1⟩]⟩
      ⟨15, 10, 3 / 4⟩ ⟨10, 10, 1⟩ rfl rfl ?_, ?_, ?_⟩
    · rw [hz]
      norm_num [sqrtLt, Point.lineLengthSqTo, sampleConsts]
    · rw [hz]
      simp only [appendPoints, midPoints, hn, h2, steps]
      norm_num [samplePressed, stored, sampleConsts]
    · norm_num [sampleConsts, abs_of_pos]

/-! ## The time of the last stroke -/

theorem finishCalls_isCancellation (c : Consts) (g : Collaborators) (ctl : Control)
    (fin : Stroke) : ∀ x ∈ finishCalls c g ctl fin, Call.isCancellation x = false := by
  intro x hx
  unfold finishCalls at hx
  simp only [List.mem_cons, List.mem_append] at hx
  rcases hx with rfl | hx | hx | hx
  · rfl
  · exact pageCalls_isCancellation ctl x hx
  · unfold recognizerCalls at hx
    split at hx
    · simp only [List.mem_singleton] at hx
      subst hx
      rfl
    · simp at hx
  · generalize recognizedShape c g ctl fin = o at hx
    rcases o with _ | r
    · simp only [handoffCalls, List.mem_cons, List.mem_singleton, List.not_mem_nil,
        or_false] at hx
      rcases hx with rfl | rfl | rfl | rfl | rfl <;> rfl
    · simp only [handoffCalls, List.mem_cons, List.mem_singleton, List.not_mem_nil,
        or_false] at hx
      rcases hx with rfl | rfl | rfl | rfl | rfl | rfl | rfl <;> rfl

/-- C19: the maintenance of `lastStrokeTime`. A release on a stroke in
progress has a result. With the stroke filter enabled `lastStrokeTime` is the
time stamp of the release afterwards, whether the stroke was rejected or
accepted. With the filter disabled `lastStrokeTime` is unchanged and the
stroke is not discarded as a tap: `userTapped` is unchanged, no call is a
cancellation and an element is added to the layer. -/
theorem lastStrokeTime_maintenance (c : Consts) (g : Collaborators) (ctl : Control)
    (h : Handler) (s : Stroke) (pos : PositionInputData) (zoom : ℚ) (flush : List Point)
    (hs : h.stroke = some s) :
    ∃ h1 t, onButtonReleaseEvent c g ctl h pos zoom flush = some h1 ∧ h1.trace = h.trace ++ t ∧
      (ctl.settings.strokeFilterEnabled = true → h1.lastStrokeTime = pos.timestamp) ∧
      (ctl.settings.strokeFilterEnabled = false →
        h1.lastStrokeTime = h.lastStrokeTime ∧ h1.userTapped = h.userTapped ∧
        (∀ x ∈ t, Call.isCancellation x = false) ∧ ∃ e, h1.layer = h.layer ++ [e]) := by
  obtain ⟨hf, sf, tp, e, hsf, _, _, _, htp, hpaint⟩ := release_flush c h s flush hs
  rcases hrej : tapRejected ctl h pos zoom with _ | _
  · obtain ⟨h1, e1, _, _, htap, hlast, hlay, _, htr⟩ :=
      release_accepted c g ctl h hf s sf pos zoom flush hs e hsf hrej
    refine ⟨h1, .stabilizerFinalizeStroke :: tp ++
      (fixCalls hf sf pos ++ finishCalls c g ctl (singlePointFix hf sf pos).2), e1, ?_, ?_, ?_⟩
    · rw [htr, htp]
      simp
    · intro hen
      rw [hlast, if_pos hen]
    · intro hen
      refine ⟨?_, htap, ?_, _, hlay⟩
      · rw [hlast, if_neg (by simp [hen])]
      · intro x hx
        simp only [List.cons_append, List.mem_cons, List.mem_append] at hx
        rcases hx with rfl | hx | hx | hx
        · rfl
        · exact isPaint_not_isCancellation x (hpaint x hx)
        · exact fixCalls_isCancellation hf sf pos x hx
        · exact finishCalls_isCancellation c g ctl _ x hx
  · obtain ⟨h1, e1, _, _, _, hlast, _, _, htr⟩ :=
      release_rejected c g ctl h hf s sf pos zoom flush hs e hsf hrej
    have hen : ctl.settings.strokeFilterEnabled = true := by
      simp only [tapRejected, Bool.and_eq_true] at hrej
      exact hrej.1
    refine ⟨h1, .stabilizerFinalizeStroke :: tp ++
      [.dispatchAndClear (.CANCELLATION_REQUEST (Range.ofRectangle (g.boundingRect sf)))],
      e1, ?_, fun _ => hlast, ?_⟩
    · rw [htr, htp]
      simp
    · intro hdis
      rw [hen] at hdis
      cases hdis

/-- Witness of C19: the press of the samples released with the filter
enabled, 110 ms after the previous stroke ended. -/
theorem lastStrokeTime_maintenance_witness :
    ∃ h1 t, onButtonReleaseEvent sampleConsts sampleCollaborators sampleControl
        (samplePressed 900) sampleRelease 1 [] = some h1 ∧
      h1.trace = (samplePressed 900).trace ++ t ∧
      (sampleControl.settings.strokeFilterEnabled = true →
        h1.lastStrokeTime = sampleRelease.timestamp) ∧
      (sampleControl.settings.strokeFilterEnabled = false →
        h1.lastStrokeTime = (samplePressed 900).lastStrokeTime ∧
        h1.userTapped = (samplePressed 900).userTapped ∧
        (∀ x ∈ t, Call.isCancellation x = false) ∧
        ∃ e, h1.layer = (samplePressed 900).layer ++ [e]) :=
  lastStrokeTime_maintenance sampleConsts sampleCollaborators sampleControl (samplePressed 900)
    ⟨2, true, [⟨10, 10, 1⟩]⟩ sampleRelease 1 [] rfl

/-! ## The lock discipline -/

theorem lockRun_append (a b : List Call) :
    ∀ st, lockRun st (a ++ b) = (lockRun st a).bind fun st1 => lockRun st1 b := by
  induction a with
  | nil =>
    intro st
    rfl
  | cons x a ih =>
    intro st
    simp only [List.cons_append, lockRun]
    rcases lockStep st x with _ | st1
    · rfl
    · simp only [Option.some_bind]
      exact ih st1

theorem lockStep_free_of_isPaint (x : Call) (hx : Call.isPaint x = true) :
    lockStep .free x = some .free := by
  unfold Call.isPaint at hx
  split at hx <;> first | rfl | cases hx

theorem lockRun_free_of_isPaint :
    ∀ t : List Call, (∀ x ∈ t, Call.isPaint x = true) → lockRun .free t = some .free
  | [], _ => rfl
  | x :: t, hx => by
    simp only [lockRun, lockStep_free_of_isPaint x (hx x (List.mem_cons_self _ _)),
      Option.some_bind]
    exact lockRun_free_of_isPaint t fun y hy => hx y (List.mem_cons_of_mem _ hy)

theorem lockRun_pageCalls (ctl : Control) : lockRun .free (pageCalls ctl) = some .free := by
  unfold pageCalls
  split
  · split
    · split <;> rfl
    · rfl
  · rfl

theorem lockRun_finishCalls (c : Consts) (g : Collaborators) (ctl : Control) (fin : Stroke) :
    lockRun .free (finishCalls c g ctl fin) = some .free := by
  have h1 : lockRun .free (recognizerCalls ctl fin) = some .free := by
    unfold recognizerCalls
    split <;> rfl
  have h2 : lockRun .free (handoffCalls g fin (recognizedShape c g ctl fin)) = some .free := by
    rcases recognizedShape c g ctl fin with _ | r <;> rfl
  unfold finishCalls
  simp only [lockRun, lockStep, Option.some_bind, lockRun_append, lockRun_pageCalls, h1, h2]

/-- At the moment of a call that needs the lock free, in a trace that keeps
the lock discipline, the calls made so far have left the lock free. -/
theorem lockRun_free_before (a b : List Call) (x : Call) (st : LockState)
    (hrun : lockRun .free (a ++ x :: b) = some st) (hx : Call.needsFreeLock x = true) :
    lockRun .free a = some .free := by
  rw [lockRun_append] at hrun
  rcases ha : lockRun .free a with _ | s1
  · rw [ha] at hrun
    cases hrun
  · rw [ha] at hrun
    simp only [Option.some_bind, lockRun] at hrun
    rcases s1 with _ | _ | _
    · rfl
    · have hd : Call.isDocumentCall x = false := by
        unfold Call.needsFreeLock at hx
        split at hx <;> first | rfl | cases hx
      simp [lockStep, hd] at hrun
    · have hu : lockStep .used x = none := by
        unfold Call.needsFreeLock at hx
        split at hx <;> first | rfl | cases hx
      simp [hu] at hrun

/-- A trace that dispatches to the views between `lock` and `unlock` breaks
the lock discipline. -/
theorem lockRun_dispatch_under_lock (q : ViewRequest) (s : Stroke) :
    lockRun .free [.lock, .addElement s, .dispatch q, .unlock] = none ∧
      lockRun .free [.lock, .dispatch q, .unlock] = none ∧
      lockRun .free [.lock, .addElement s] = some .used := by
  refine ⟨rfl, rfl, rfl⟩

theorem strokeRecognizerDetected_trace (c : Consts) (g : Collaborators) (ctl : Control)
    (h : Handler) (s r : Stroke) (hs : h.stroke = some s) :
    ∃ h1, strokeRecognizerDetected c g ctl h r = some h1 ∧
      h1.trace = h.trace ++ handoffCalls g s (some (adjustRecognized c g ctl s r)) := by
  simp only [strokeRecognizerDetected, hs, Handler.call, Handler.dispatch,
    Handler.dispatchAndClear, List.append_assoc, handoffCalls]
  exact ⟨_, rfl, by simp⟩

/-- C20: the lock discipline. The calls `t` that a release makes on its
collaborators keep the lock discipline and leave the lock free: every `lock`
is followed by exactly one call on the document and then by `unlock`, and at
the moment of every dispatch to the views, recording of an undo action,
insertion of a page, shape recognition and `fireElementChanged` the lock is
not held. The same holds for the calls of `strokeRecognizerDetected` on a
handler with a stroke. -/
theorem lock_discipline (c : Consts) (g : Collaborators) (ctl : Control) (h : Handler)
    (pos : PositionInputData) (zoom : ℚ) (flush : List Point) (r : Stroke) :
    (∃ h1 t, onButtonReleaseEvent c g ctl h pos zoom flush = some h1 ∧ h1.trace = h.trace ++ t ∧
      lockRun .free t = some .free ∧
      ∀ a x b, t = a ++ x :: b → Call.needsFreeLock x = true → lockRun .free a = some .free) ∧
    (∀ s, h.stroke = some s →
      ∃ h1 t, strokeRecognizerDetected c g ctl h r = some h1 ∧ h1.trace = h.trace ++ t ∧
        lockRun .free t = some .free ∧
        ∀ a x b, t = a ++ x :: b → Call.needsFreeLock x = true →
          lockRun .free a = some .free) := by
  have hmeaning : ∀ t : List Call, lockRun .free t = some .free →
      ∀ a x b, t = a ++ x :: b → Call.needsFreeLock x = true → lockRun .free a = some .free := by
    intro t ht a x b hab hx
    rw [hab] at ht
    exact lockRun_free_before a b x _ ht hx
  refine ⟨?_, ?_⟩
  · rcases hs : h.stroke with _ | s
    · refine ⟨h, [], by simp only [onButtonReleaseEvent, hs], by simp, rfl, hmeaning [] rfl⟩
    · obtain ⟨hf, sf, tp, e, hsf, _, _, _, htp, hpaint⟩ := release_flush c h s flush hs
      have hp := lockRun_free_of_isPaint tp hpaint
      rcases hrej : tapRejected ctl h pos zoom with _ | _
      · obtain ⟨h1, e1, _, _, _, _, _, _, htr⟩ :=
          release_accepted c g ctl h hf s sf pos zoom flush hs e hsf hrej
        have hrun : lockRun .free (.stabilizerFinalizeStroke :: (tp ++
            (fixCalls hf sf pos ++ finishCalls c g ctl (singlePointFix hf sf pos).2))) =
            some .free := by
          rw [lockRun]
          simp only [lockStep, Option.some_bind]
          rw [lockRun_append, hp, Option.some_bind, lockRun_append,
            lockRun_free_of_isPaint _ (fixCalls_isPaint hf sf pos), Option.some_bind,
            lockRun_finishCalls]
        refine ⟨h1, _, e1, ?_, hrun, hmeaning _ hrun⟩
        rw [htr, htp]
        simp
      · obtain ⟨h1, e1, _, _, _, _, _, _, htr⟩ :=
          release_rejected c g ctl h hf s sf pos zoom flush hs e hsf hrej
        have hrun : lockRun .free (.stabilizerFinalizeStroke :: (tp ++
            [.dispatchAndClear
              (.CANCELLATION_REQUEST (Range.ofRectangle (g.boundingRect sf)))])) =
            some .free := by
          rw [lockRun]
          simp only [lockStep, Option.some_bind]
          rw [lockRun_append, hp]
          rfl
        refine ⟨h1, _, e1, ?_, hrun, hmeaning _ hrun⟩
        rw [htr, htp]
        simp
  · intro s hs
    obtain ⟨h1, e1, htr⟩ := strokeRecognizerDetected_trace c g ctl h s r hs
    exact ⟨h1, _, e1, htr, rfl, hmeaning _ rfl⟩

/-- Witness of C20: the release of the samples with the stroke recognizer as
drawing type, and `strokeRecognizerDetected` on the handler after the press
of the samples. -/
theorem lock_discipline_witness :
    (∃ h1 t, onButtonReleaseEvent sampleConsts sampleRecognizer sampleRecognizerControl
        (samplePressed 900) sampleRelease 1 [] = some h1 ∧
      h1.trace = (samplePressed 900).trace ++ t ∧ lockRun .free t = some .free ∧
      ∀ a x b, t = a ++ x :: b → Call.needsFreeLock x = true → lockRun .free a = some .free) ∧
    ∃ h1 t, strokeRecognizerDetected sampleConsts sampleRecognizer sampleRecognizerControl
        (samplePressed 900) ⟨1, true, [⟨10, 10, -1⟩, ⟨20, 10, -1⟩]⟩ = some h1 ∧
      h1.trace = (samplePressed 900).trace ++ t ∧ lockRun .free t = some .free ∧
      ∀ a x b, t = a ++ x :: b → Call.needsFreeLock x = true → lockRun .free a = some .free :=
  ⟨(lock_discipline sampleConsts sampleRecognizer sampleRecognizerControl (samplePressed 900)
      sampleRelease 1 [] ⟨1, true, [⟨10, 10, -1⟩, ⟨20, 10, -1⟩]⟩).1,
    (lock_discipline sampleConsts sampleRecognizer sampleRecognizerControl (samplePressed 900)
      sampleRelease 1 [] ⟨1, true, [⟨10, 10, -1⟩, ⟨20, 10, -1⟩]⟩).2 _ rfl⟩


/-! ## The scale factors of the snapping -/

theorem checkedDiv_of_ne (a b : ℚ) (hb : b ≠ 0) : checkedDiv a b = some (a / b) := by
  simp [checkedDiv, hb]

theorem epsilon_pos : 0 < epsilon := by
  norm_num [epsilon]

theorem ne_zero_of_epsilon_lt_abs (w : ℚ) (hw : epsilon < |w|) : w ≠ 0 := by
  intro h0
  rw [h0, abs_zero] at hw
  exact absurd hw (not_lt.mpr epsilon_pos.le)

theorem fxChecked_eq (d : Snapping) : d.fxChecked = some d.fx := by
  unfold Snapping.fxChecked Snapping.fx
  split
  · rename_i hw
    exact checkedDiv_of_ne _ _ (ne_zero_of_epsilon_lt_abs _ hw)
  · rfl

theorem fyChecked_eq (d : Snapping) : d.fyChecked = some d.fy := by
  unfold Snapping.fyChecked Snapping.fy
  split
  · rename_i hw
    exact checkedDiv_of_ne _ _ (ne_zero_of_epsilon_lt_abs _ hw)
  · rfl

/-- The snapping of the samples: the line from `(10, 10)` to `(20, 10)`,
with the width 2 of the stroke it replaces, is moved to `(14, 14)`, its lower
right corner `(24, 14)` snaps to `(28, 14)`; `fx` is `14 / 10` and `fy`, the
height being zero, is 1. -/
theorem sample_snapping :
    snapping sampleConsts sampleGrid (sampleLine.setWidth 2) =
      ⟨⟨14, 14, -1⟩, ⟨2, true, [⟨14, 14, -1⟩, ⟨24, 14, -1⟩]⟩, ⟨14, 14, 10, 0⟩, ⟨28, 14, -1⟩⟩ ∧
    (snapping sampleConsts sampleGrid (sampleLine.setWidth 2)).fx = 7 / 5 ∧
    (snapping sampleConsts sampleGrid (sampleLine.setWidth 2)).fy = 1 := by
  have f1 : ⌊(10 : ℚ) / 14 + 1 / 2⌋ = 1 := by
    rw [Int.floor_eq_iff]
    norm_num
  have f3 : ⌊((14 : ℚ) + 10) / 14 + 1 / 2⌋ = 2 := by
    rw [Int.floor_eq_iff]
    norm_num
  have f4 : ⌊((14 : ℚ) + 0) / 14 + 1 / 2⌋ = 1 := by
    rw [Int.floor_eq_iff]
    norm_num
  have e : snapping sampleConsts sampleGrid (sampleLine.setWidth 2) =
      ⟨⟨14, 14, -1⟩, ⟨2, true, [⟨14, 14, -1⟩, ⟨24, 14, -1⟩]⟩, ⟨14, 14, 10, 0⟩, ⟨28, 14, -1⟩⟩ := by
    simp only [snapping, sampleGrid, sampleLine, sampleConsts, Stroke.setWidth, List.map, f1]
    norm_num [f3, f4]
  refine ⟨e, ?_, ?_⟩
  · rw [e]
    norm_num [Snapping.fx, epsilon]
  · rw [e]
    norm_num [Snapping.fy, epsilon]

/-- C21: the guarded scale factors. With the snapping of recognized shapes
enabled, `strokeRecognizerDetected` adds to the layer the moved shape scaled
about its snapped top left corner by `fx` and `fy`, where `d` holds the
values of the snapping block. Computed with a division that fails on a zero
divisor, both factors are defined. `fx` is
`(belowRightSnapped.x - topLeftSnapped.x) / width` for a width of the snapped
bounds of the moved shape above epsilon in absolute value, a width that is
not zero, and 1 otherwise, so for a width of zero; likewise `fy` with the
height. -/
theorem guarded_scale_factors (c : Consts) (g : Collaborators) (ctl : Control) (h : Handler)
    (s r : Stroke) (hs : h.stroke = some s)
    (hsnap : ctl.settings.snapRecognizedShapesEnabled = true) :
    ∃ h1 d, strokeRecognizerDetected c g ctl h r = some h1 ∧
      d = snapping c g (r.setWidth (if g.hasPressure s then g.getAvgPressure s else s.getWidth)) ∧
      h1.layer = h.layer ++ [g.scale d.moved d.topLeftSnapped.x d.topLeftSnapped.y d.fx d.fy] ∧
      d.fxChecked = some d.fx ∧ d.fyChecked = some d.fy ∧
      (epsilon < |d.snappedBounds.width| →
        d.snappedBounds.width ≠ 0 ∧
        d.fx = (d.belowRightSnapped.x - d.topLeftSnapped.x) / d.snappedBounds.width) ∧
      (|d.snappedBounds.width| ≤ epsilon → d.fx = 1) ∧
      (d.snappedBounds.width = 0 → d.fx = 1) ∧
      (epsilon < |d.snappedBounds.height| →
        d.snappedBounds.height ≠ 0 ∧
        d.fy = (d.belowRightSnapped.y - d.topLeftSnapped.y) / d.snappedBounds.height) ∧
      (|d.snappedBounds.height| ≤ epsilon → d.fy = 1) ∧
      (d.snappedBounds.height = 0 → d.fy = 1) := by
  have er : ∃ h1, strokeRecognizerDetected c g ctl h r = some h1 ∧
      h1.layer = h.layer ++ [adjustRecognized c g ctl s r] := by
    simp only [strokeRecognizerDetected, hs, Handler.call, Handler.dispatch,
      Handler.dispatchAndClear]
    exact ⟨_, rfl, rfl⟩
  obtain ⟨h1, e1, hl⟩ := er
  refine ⟨h1, _, e1, rfl, ?_, fxChecked_eq _, fyChecked_eq _, ?_, ?_, ?_, ?_, ?_, ?_⟩
  · rw [hl]
    simp only [adjustRecognized, hsnap, if_true]
  · intro hw
    exact ⟨ne_zero_of_epsilon_lt_abs _ hw, by simp only [Snapping.fx, gt_iff_lt, hw, if_true]⟩
  · intro hw
    simp only [Snapping.fx, gt_iff_lt, not_lt.mpr hw, if_false]
  · intro hw
    simp only [Snapping.fx, gt_iff_lt, hw, abs_zero, not_lt.mpr epsilon_pos.le, if_false]
  · intro hw
    exact ⟨ne_zero_of_epsilon_lt_abs _ hw, by simp only [Snapping.fy, gt_iff_lt, hw, if_true]⟩
  · intro hw
    simp only [Snapping.fy, gt_iff_lt, not_lt.mpr hw, if_false]
  · intro hw
    simp only [Snapping.fy, gt_iff_lt, hw, abs_zero, not_lt.mpr epsilon_pos.le, if_false]

/-- Witness of C21: the stroke of the samples is replaced by the line from
`(10, 10)` to `(20, 10)` on a grid of 14 units. The line is moved to
`(14, 14)` and scaled by `fx = 14 / 10`, so that it ends at `(28, 14)`; its
height is zero and `fy = 1`. -/
theorem guarded_scale_factors_witness :
    (samplePressed 0).stroke = some ⟨2, true, [⟨10, 10, 1⟩]⟩ ∧
    sampleSnapControl.settings.snapRecognizedShapesEnabled = true ∧
    ∃ h1, strokeRecognizerDetected sampleConsts sampleGrid sampleSnapControl (samplePressed 0)
        sampleLine = some h1 ∧
      h1.layer = [⟨2, true, [⟨14, 14, -1⟩, ⟨28, 14, -1⟩]⟩] := by
  obtain ⟨h1, d, e, hd, hl, _, _, _, _, _, _, _, _⟩ :=
    guarded_scale_factors sampleConsts sampleGrid sampleSnapControl (samplePressed 0)
      ⟨2, true, [⟨10, 10, 1⟩]⟩ sampleLine rfl rfl
  have hd2 : d = snapping sampleConsts sampleGrid (sampleLine.setWidth 2) := by
    rw [hd]
    rfl
  refine ⟨rfl, rfl, h1, e, ?_⟩
  rw [hl, hd2, sample_snapping.2.1, sample_snapping.2.2, sample_snapping.1]
  norm_num [samplePressed, sampleGrid]

/-! ## The width of the first point -/

theorem pageCalls_isThicken (ctl : Control) : ∀ x ∈ pageCalls ctl, Call.isThicken x = false := by
  unfold pageCalls
  split
  · split
    · split <;> simp [Call.isThicken]
    · simp [Call.isThicken]
  · simp

theorem finishCalls_isThicken (c : Consts) (g : Collaborators) (ctl : Control) (fin : Stroke) :
    ∀ x ∈ finishCalls c g ctl fin, Call.isThicken x = false := by
  intro x hx
  unfold finishCalls at hx
  simp only [List.mem_cons, List.mem_append] at hx
  rcases hx with rfl | hx | hx | hx
  · rfl
  · exact pageCalls_isThicken ctl x hx
  · unfold recognizerCalls at hx
    split at hx
    · simp only [List.mem_singleton] at hx
      subst hx
      rfl
    · simp at hx
  · generalize recognizedShape c g ctl fin = o at hx
    rcases o with _ | r
    · simp only [handoffCalls, List.mem_cons, List.mem_singleton, List.not_mem_nil,
        or_false] at hx
      rcases hx with rfl | rfl | rfl | rfl | rfl <;> rfl
    · simp only [handoffCalls, List.mem_cons, List.mem_singleton, List.not_mem_nil,
        or_false] at hx
      rcases hx with rfl | rfl | rfl | rfl | rfl | rfl | rfl <;> rfl

/-- One `paintTo` call and the first point: its position is kept and its
width does not decrease; a request to thicken it is dispatched only when it
is the only point, and then with a width above the previous one, which
becomes the width of the point. -/
theorem paintTo_first (c : Consts) (h : Handler) (s : Stroke) (first : Point)
    (rest : List Point) (p : Point) (hs : h.stroke = some s) (hpts : s.points = first :: rest) :
    ∃ h1 s1 first1 rest1 t, paintTo c h p = some h1 ∧ h1.stroke = some s1 ∧
      h1.frame = h.frame ∧ s1.width = s.width ∧ s1.points = first1 :: rest1 ∧
      h1.trace = h.trace ++ t ∧ first1.x = first.x ∧ first1.y = first.y ∧
      first.z ≤ first1.z ∧ (first1.z ≠ first.z → ∃ x ∈ t, Call.isThicken x = true) ∧
      ∀ w, Call.dispatch (.THICKEN_FIRST_POINT_REQUEST w) ∈ t →
        rest = [] ∧ rest1 = [] ∧ first.z < w ∧ first1.z = w := by
  rcases hl : s.points.getLast? with _ | e
  · have he : s.points = [] := List.getLast?_eq_none_iff.mp hl
    rw [hpts] at he
    cases he
  · rcases hd : sqrtLt ((scaledPoint h s p).lineLengthSqTo e) c.PIXEL_MOTION_THRESHOLD with _ | _
    · refine ⟨_, _, first, rest ++ (midPoints c h (scaledPoint h s p) e ++
          [scaledPoint h s p]).map (stored c h), _, paintTo_far c h s p e hs hl hd, rfl, rfl, rfl,
        ?_, rfl, rfl, rfl, le_refl _, fun hne => absurd rfl hne, ?_⟩
      · simp [hpts]
      · intro w hw
        simp only [List.mem_map] at hw
        obtain ⟨q, _, hq⟩ := hw
        cases hq
    · rw [paintTo_close c h s p e hs hl hd]
      split
      · rename_i hcond
        obtain ⟨hlen, _, hlt⟩ := hcond
        have hrest : rest = [] := by
          rw [hpts] at hlen
          simpa using hlen
        subst hrest
        have hef : e = first := by
          rw [hpts] at hl
          simpa using hl.symm
        subst hef
        refine ⟨_, _, { e with z := (scaledPoint h s p).z }, [], [_], rfl, rfl, rfl, rfl, ?_,
          rfl, rfl, rfl, hlt.le, fun _ => ⟨_, List.mem_singleton.mpr rfl, rfl⟩, ?_⟩
        · simp [Stroke.setLastPressure, hpts, Stroke.setLastZ]
        · intro w hw
          simp only [List.mem_singleton, Call.dispatch.injEq,
            ViewRequest.THICKEN_FIRST_POINT_REQUEST.injEq] at hw
          subst hw
          exact ⟨rfl, rfl, hlt, rfl⟩
      · exact ⟨h, s, first, rest, [], rfl, hs, rfl, rfl, hpts, by simp, rfl, rfl, le_refl _,
          fun hne => absurd rfl hne, by simp⟩

/-- A run of `paintTo` calls and the first point: its position is kept and
its width does not decrease. -/
theorem paintAll_first (c : Consts) (ps : List Point) :
    ∀ (h : Handler) (s : Stroke) (first : Point) (rest : List Point), h.stroke = some s →
      s.points = first :: rest →
      ∃ h1 s1 first1 rest1, paintAll c h ps = some h1 ∧ h1.stroke = some s1 ∧
        h1.frame = h.frame ∧ s1.width = s.width ∧ s1.points = first1 :: rest1 ∧
        first1.x = first.x ∧ first1.y = first.y ∧ first.z ≤ first1.z := by
  induction ps with
  | nil =>
    intro h s first rest hs hpts
    exact ⟨h, s, first, rest, rfl, hs, rfl, rfl, hpts, rfl, rfl, le_refl _⟩
  | cons p ps ih =>
    intro h s first rest hs hpts
    obtain ⟨h1, s1, first1, rest1, _, e1, hs1, hf1, hw1, hp1, _, hx1, hy1, hz1, _⟩ :=
      paintTo_first c h s first rest p hs hpts
    obtain ⟨h2, s2, first2, rest2, e2, hs2, hf2, hw2, hp2, hx2, hy2, hz2⟩ :=
      ih h1 s1 first1 rest1 hs1 hp1
    refine ⟨h2, s2, first2, rest2, ?_, hs2, hf2.trans hf1, hw2.trans hw1, hp2, hx2.trans hx1,
      hy2.trans hy1, hz1.trans hz2⟩
    simp [paintAll, e1, e2]

/-- The single point fix and the first point: a stroke of several points is
left as it is; in a stroke of one point the first point gets the maximum of
its width and the pressure of the release times the base width, in a session
with pressure, and the point appended is the point as it was before. -/
theorem singlePointFix_first (h : Handler) (s : Stroke) (pos : PositionInputData)
    (first : Point) (rest : List Point) (hpts : s.points = first :: rest) :
    ∃ first2 rest2, (singlePointFix h s pos).2.points = first2 :: rest2 ∧
      first2.x = first.x ∧ first2.y = first.y ∧ first.z ≤ first2.z ∧
      (rest = [] → rest2 = [first] ∧
        first2.z =
          if h.hasPressure = true then max first.z (pos.pressure * s.getWidth) else first.z) ∧
      (rest ≠ [] → first2 = first ∧ rest2 = rest) ∧
      ∀ w, Call.dispatch (.THICKEN_FIRST_POINT_REQUEST w) ∈ fixCalls h s pos →
        rest = [] ∧ first.z ≤ w ∧ first2.z = w := by
  rcases rest with _ | ⟨b, l⟩
  · by_cases hp : h.hasPressure = true
    · refine ⟨{ first with z := max first.z (pos.pressure * s.getWidth) }, [first], ?_, rfl, rfl,
        le_max_left _ _, fun _ => ⟨rfl, by simp [hp]⟩, fun hne => absurd rfl hne, ?_⟩
      · simp [singlePointFix, hpts, hp, Stroke.addPoint, Stroke.setLastPressure,
          Stroke.setLastZ]
      · intro w hw
        simp only [fixCalls, hpts, hp, if_true, List.mem_singleton, Call.dispatch.injEq,
          ViewRequest.THICKEN_FIRST_POINT_REQUEST.injEq] at hw
        subst hw
        exact ⟨rfl, le_max_left _ _, rfl⟩
    · refine ⟨first, [first], ?_, rfl, rfl, le_refl _, fun _ => ⟨rfl, by simp [hp]⟩,
        fun hne => absurd rfl hne, ?_⟩
      · simp [singlePointFix, hpts, hp, Stroke.addPoint]
      · intro w hw
        simp [fixCalls, hpts, hp] at hw
  · refine ⟨first, b :: l, ?_, rfl, rfl, le_refl _,
      fun hne => absurd hne (List.cons_ne_nil _ _), fun _ => ⟨rfl, rfl⟩, ?_⟩
    · simp [singlePointFix, hpts]
    · intro w hw
      simp [fixCalls, hpts] at hw

/-- C23: the width of the first point never decreases. For a handler whose
stroke has the first point `first`: one `paintTo` call leaves a first point
of width at least `first.z`, and a request to thicken the first point carries
a width above `first.z` that becomes the width of the point; after a run of
`paintTo` calls the width of the first point is at least `first.z`; and at
the release, after the calls of the stabilizer left the first point `firstf`,
the stroke `fin` recorded in the `InsertUndoAction` of a release that is not
rejected has a first point of width at least `firstf.z`, a request to thicken
carries a width that is at least `firstf.z` and becomes the width of the
point, and when `firstf` was the only point the first point has the width
`max firstf.z (pos.pressure * width)` in a session with pressure and the
point appended is `firstf`, with the width recorded before the update. -/
theorem first_point_width_monotone (c : Consts) (g : Collaborators) (ctl : Control)
    (h : Handler) (s : Stroke) (first : Point) (rest ps flush : List Point)
    (pos : PositionInputData) (zoom : ℚ) (hs : h.stroke = some s)
    (hpts : s.points = first :: rest) :
    (∀ p, ∃ h1 s1 first1 rest1 t, paintTo c h p = some h1 ∧ h1.stroke = some s1 ∧
      s1.points = first1 :: rest1 ∧ h1.trace = h.trace ++ t ∧ first.z ≤ first1.z ∧
      (first1.z ≠ first.z → ∃ x ∈ t, Call.isThicken x = true) ∧
      ∀ w, Call.dispatch (.THICKEN_FIRST_POINT_REQUEST w) ∈ t → first.z < w ∧ first1.z = w) ∧
    (∃ h1 s1 first1 rest1, paintAll c h ps = some h1 ∧ h1.stroke = some s1 ∧
      s1.points = first1 :: rest1 ∧ first.z ≤ first1.z) ∧
    ∃ hf sf firstf restf, paintAll c (h.call .stabilizerFinalizeStroke) flush = some hf ∧
      hf.stroke = some sf ∧ sf.getWidth = s.getWidth ∧ sf.points = firstf :: restf ∧
      first.z ≤ firstf.z ∧
      (tapRejected ctl h pos zoom = false →
        ∃ h1 fin first2 rest2 u t, onButtonReleaseEvent c g ctl h pos zoom flush = some h1 ∧
          h1.undo = h.undo ++ .InsertUndoAction fin :: u ∧ h1.trace = hf.trace ++ t ∧
          fin.points = first2 :: rest2 ∧ firstf.z ≤ first2.z ∧
          (∀ w, Call.dispatch (.THICKEN_FIRST_POINT_REQUEST w) ∈ t →
            restf = [] ∧ firstf.z ≤ w ∧ first2.z = w) ∧
          (restf = [] → rest2 = [firstf] ∧
            first2.z =
              if h.hasPressure = true then max firstf.z (pos.pressure * sf.getWidth)
              else firstf.z) ∧
          (restf ≠ [] → fin = sf)) := by
  refine ⟨?_, ?_, ?_⟩
  · intro p
    obtain ⟨h1, s1, first1, rest1, t, e1, hs1, _, _, hp1, ht, _, _, hz, hch, hth⟩ :=
      paintTo_first c h s first rest p hs hpts
    exact ⟨h1, s1, first1, rest1, t, e1, hs1, hp1, ht, hz, hch,
      fun w hw => ⟨(hth w hw).2.2.1, (hth w hw).2.2.2⟩⟩
  · obtain ⟨h1, s1, first1, rest1, e1, hs1, _, _, hp1, _, _, hz⟩ :=
      paintAll_first c ps h s first rest hs hpts
    exact ⟨h1, s1, first1, rest1, e1, hs1, hp1, hz⟩
  · obtain ⟨hf, sf, firstf, restf, ef, hsf, hfr, hw, hpf, _, _, hz⟩ :=
      paintAll_first c flush (h.call .stabilizerFinalizeStroke) s first rest hs hpts
    refine ⟨hf, sf, firstf, restf, ef, hsf, hw, hpf, hz, ?_⟩
    intro hacc
    obtain ⟨h1, e1, _, _, _, _, _, hundo, htr⟩ :=
      release_accepted c g ctl h hf s sf pos zoom flush hs ef hsf hacc
    obtain ⟨first2, rest2, hp2, _, _, hz2, hone, hmany, hth⟩ :=
      singlePointFix_first hf sf pos firstf restf hpf
    have hpr : hf.hasPressure = h.hasPressure := (frame_fields hfr).1
    have hu : ∃ u, finishUndo c g ctl (singlePointFix hf sf pos).2 =
        .InsertUndoAction (singlePointFix hf sf pos).2 :: u := by
      unfold finishUndo
      split
      · exact ⟨_, rfl⟩
      · exact ⟨_, rfl⟩
    obtain ⟨u, hu⟩ := hu
    refine ⟨h1, (singlePointFix hf sf pos).2, first2, rest2, u, _, e1, ?_, htr, hp2, hz2, ?_, ?_,
      ?_⟩
    · rw [hundo, hu]
    · intro w hw
      rcases List.mem_append.mp hw with hw | hw
      · exact hth w hw
      · have := finishCalls_isThicken c g ctl _ _ hw
        simp [Call.isThicken] at this
    · intro hr
      rw [← hpr]
      exact hone hr
    · intro hr
      rcases restf with _ | ⟨b, l⟩
      · exact absurd rfl hr
      · simp [singlePointFix, hpf]

/-- Witness of C23: the stroke of the samples, with its only point
`(10, 10, 1)`, is released with the pressure 1 shortly after the previous
stroke. The stroke recorded has a first point of width `max 1 (1 * 2) = 2`
and the appended point has the width 1 recorded before. -/
theorem first_point_width_monotone_witness :
    (samplePressed 900).stroke = some ⟨2, true, [⟨10, 10, 1⟩]⟩ ∧
    ∃ h1 fin first2 u, onButtonReleaseEvent sampleConsts sampleCollaborators sampleControl
        (samplePressed 900) sampleFirmRelease 1 [] = some h1 ∧
      h1.undo = .InsertUndoAction fin :: u ∧ fin.points = [first2, ⟨10, 10, 1⟩] ∧
      first2.z = 2 := by
  obtain ⟨_, _, hf, sf, firstf, restf, ef, hsf, _, hpf, _, hrel⟩ :=
    first_point_width_monotone sampleConsts sampleCollaborators sampleControl
      (samplePressed 900) ⟨2, true, [⟨10, 10, 1⟩]⟩ ⟨10, 10, 1⟩ [] [] [] sampleFirmRelease 1
      rfl rfl
  simp only [paintAll, Option.some.injEq] at ef
  subst ef
  simp only [Handler.call, samplePressed, Option.some.injEq] at hsf
  subst hsf
  simp only [List.cons.injEq] at hpf
  obtain ⟨hfirst, hrest⟩ := hpf
  subst hfirst
  subst hrest
  obtain ⟨h1, fin, first2, rest2, u, _, e1, hundo, _, hp2, _, _, hone, _⟩ := hrel
    (by simp [tapRejected, notSuccessive, subU32, intToU32, sampleControl, sampleSettings,
      samplePressed, sampleFirmRelease])
  obtain ⟨hr2, hz2⟩ := hone rfl
  refine ⟨rfl, h1, fin, first2, u, e1, ?_, ?_, ?_⟩
  · rw [hundo]
    rfl
  · rw [hp2, hr2]
  · rw [hz2]
    norm_num [samplePressed, sampleFirmRelease, Stroke.getWidth]

/-! ## Double arithmetic: rounding -/

theorem bitLen_zero (fuel : ℕ) : bitLen fuel 0 = 0 := by
  cases fuel <;> simp [bitLen]

theorem bitLen_spec : ∀ (fuel n : ℕ), n ≤ fuel → 0 < n →
    2 ^ bitLen fuel n ≤ 2 * n ∧ n < 2 ^ bitLen fuel n := by
  intro fuel
  induction fuel with
  | zero =>
    intro n hn h0
    omega
  | succ f ih =>
    intro n hn h0
    have hne : n ≠ 0 := by omega
    simp only [bitLen, hne, if_false]
    rcases Nat.eq_zero_or_pos (n / 2) with hz | hp
    · have h1 : n = 1 := by omega
      subst h1
      simp [bitLen_zero]
    · obtain ⟨h1, h2⟩ := ih (n / 2) (by omega) hp
      rw [pow_succ]
      constructor
      · omega
      · omega

theorem ilog2_spec (q : ℚ) (hq : q ≠ 0) :
    (2 : ℚ) ^ ilog2 q ≤ |q| ∧ |q| < (2 : ℚ) ^ (ilog2 q + 1) := by
  have hn : 0 < q.num.natAbs := Int.natAbs_pos.mpr (Rat.num_ne_zero.mpr hq)
  have hd : 0 < q.den := q.den_pos
  obtain ⟨a1, a2⟩ := bitLen_spec q.num.natAbs q.num.natAbs le_rfl hn
  obtain ⟨b1, b2⟩ := bitLen_spec q.den q.den le_rfl hd
  have habs : |q| = (q.num.natAbs : ℚ) / (q.den : ℚ) := by
    have h1 : |q| = |(q.num : ℚ)| / |(q.den : ℚ)| := by
      rw [← abs_div, Rat.num_div_den]
    rw [h1, Nat.abs_cast]
    congr 1
    rw [Nat.cast_natAbs, Int.cast_abs]
  unfold ilog2
  generalize bitLen q.num.natAbs q.num.natAbs = a at a1 a2 ⊢
  generalize bitLen q.den q.den = b at b1 b2 ⊢
  have hdq : (0 : ℚ) < (q.den : ℚ) := by exact_mod_cast hd
  have a1q : (2 : ℚ) ^ a ≤ 2 * (q.num.natAbs : ℚ) := by exact_mod_cast a1
  have a2q : (q.num.natAbs : ℚ) < (2 : ℚ) ^ a := by exact_mod_cast a2
  have b1q : (2 : ℚ) ^ b ≤ 2 * (q.den : ℚ) := by exact_mod_cast b1
  have b2q : (q.den : ℚ) < (2 : ℚ) ^ b := by exact_mod_cast b2
  have hpa : (0 : ℚ) < (2 : ℚ) ^ a := by positivity
  have hpb : (0 : ℚ) < (2 : ℚ) ^ b := by positivity
  have two_ne : (2 : ℚ) ≠ 0 := by norm_num
  have hk : (2 : ℚ) ^ ((a : ℤ) - b) = (2 : ℚ) ^ a / (2 : ℚ) ^ b := by
    rw [zpow_sub₀ two_ne, zpow_natCast, zpow_natCast]
  have hk1 : (2 : ℚ) ^ ((a : ℤ) - b + 1) = 2 * ((2 : ℚ) ^ a / (2 : ℚ) ^ b) := by
    rw [zpow_add_one₀ two_ne, hk]
    ring
  have hkm : (2 : ℚ) ^ ((a : ℤ) - b - 1) = (2 : ℚ) ^ a / (2 : ℚ) ^ b / 2 := by
    rw [zpow_sub_one₀ two_ne, hk]
    ring
  have hup : |q| < 2 * ((2 : ℚ) ^ a / (2 : ℚ) ^ b) := by
    rw [habs, div_lt_iff₀ hdq]
    calc (q.num.natAbs : ℚ) < (2 : ℚ) ^ a := a2q
      _ = (2 : ℚ) ^ a / (2 : ℚ) ^ b * (2 : ℚ) ^ b := by field_simp
      _ ≤ (2 : ℚ) ^ a / (2 : ℚ) ^ b * (2 * (q.den : ℚ)) := by
        apply mul_le_mul_of_nonneg_left b1q
        positivity
      _ = 2 * ((2 : ℚ) ^ a / (2 : ℚ) ^ b) * (q.den : ℚ) := by ring
  have hlo : (2 : ℚ) ^ a / (2 : ℚ) ^ b / 2 ≤ |q| := by
    rw [habs, le_div_iff₀ hdq]
    calc (2 : ℚ) ^ a / (2 : ℚ) ^ b / 2 * (q.den : ℚ)
        ≤ (2 : ℚ) ^ a / (2 : ℚ) ^ b / 2 * (2 : ℚ) ^ b := by
          apply mul_le_mul_of_nonneg_left b2q.le
          positivity
      _ = (2 : ℚ) ^ a / 2 := by
        field_simp
        ring
      _ ≤ (q.num.natAbs : ℚ) := by linarith
  split
  · rename_i hle
    exact ⟨hle, by rw [hk1]; exact hup⟩
  · rename_i hnle
    rw [sub_add_cancel]
    exact ⟨by rw [hkm]; exact hlo, not_le.mp hnle⟩

theorem floor_le_roundEven (r : ℚ) : ⌊r⌋ ≤ roundEven r := by
  unfold roundEven
  split_ifs <;> omega

theorem le_roundEven (r : ℚ) (n : ℤ) (h : (n : ℚ) ≤ r) : n ≤ roundEven r :=
  le_trans (Int.le_floor.mpr h) (floor_le_roundEven r)

theorem two_zpow_pos (k : ℤ) : (0 : ℚ) < (2 : ℚ) ^ k := by positivity

/-- Rounding does not take a value of at least 1 below 1. -/
theorem one_le_rnd (x : ℚ) (hx : 1 ≤ x) : 1 ≤ rnd x := by
  have hx0 : x ≠ 0 := by linarith
  obtain ⟨h1, h2⟩ := ilog2_spec x hx0
  rw [abs_of_pos (by linarith)] at h1 h2
  have hL : 0 ≤ ilog2 x := by
    by_contra hneg
    have hle : ilog2 x + 1 ≤ 0 := by omega
    have : (2 : ℚ) ^ (ilog2 x + 1) ≤ (2 : ℚ) ^ (0 : ℤ) :=
      zpow_le_zpow_right₀ (by norm_num) hle
    simp at this
    linarith
  have he : ulpExp x = ilog2 x - 52 := by
    unfold ulpExp
    exact max_eq_left (by omega)
  unfold rnd
  rw [he]
  have h52 : (((2 : ℤ) ^ 52 : ℤ) : ℚ) = (2 : ℚ) ^ (52 : ℤ) := by norm_num
  have hsplit : (2 : ℚ) ^ (52 : ℤ) * (2 : ℚ) ^ (ilog2 x - 52) = (2 : ℚ) ^ ilog2 x := by
    rw [← zpow_add₀ (by norm_num : (2 : ℚ) ≠ 0)]
    congr 1
    ring
  have hr : (((2 : ℤ) ^ 52 : ℤ) : ℚ) ≤ x / (2 : ℚ) ^ (ilog2 x - 52) := by
    rw [le_div_iff₀ (two_zpow_pos _), h52, hsplit]
    exact h1
  have hm := le_roundEven _ _ hr
  have hmq : (2 : ℚ) ^ (52 : ℤ) ≤ (roundEven (x / (2 : ℚ) ^ (ilog2 x - 52)) : ℚ) := by
    rw [← h52]
    exact_mod_cast hm
  calc (1 : ℚ) = (2 : ℚ) ^ (0 : ℤ) := by simp
    _ ≤ (2 : ℚ) ^ ilog2 x := zpow_le_zpow_right₀ (by norm_num) hL
    _ = (2 : ℚ) ^ (52 : ℤ) * (2 : ℚ) ^ (ilog2 x - 52) := hsplit.symm
    _ ≤ (roundEven (x / (2 : ℚ) ^ (ilog2 x - 52)) : ℚ) * (2 : ℚ) ^ (ilog2 x - 52) :=
      mul_le_mul_of_nonneg_right hmq (two_zpow_pos _).le

theorem fp_decomposeLoop_eq (c : Fp.Params) (increment : Point) (n : ℕ) :
    ∀ (e : Point) (h : Handler) (s : Stroke), h.stroke = some s →
      Fp.decomposeLoop c increment n e h =
        some (appendPoints c.toConsts h s (Fp.steps increment n e)) := by
  induction n with
  | zero =>
    intro e h s hs
    simp [Fp.decomposeLoop, Fp.steps, appendPoints_nil c.toConsts h s hs]
  | succ n ih =>
    intro e h s hs
    simp only [Fp.decomposeLoop, Fp.steps]
    rw [drawSegmentTo_eq c.toConsts h s _ hs]
    simp only [Option.some_bind]
    rw [ih _ (appendPoints c.toConsts h s [_])
      { s with points := s.points ++ [_].map (stored c.toConsts h) } rfl]
    rw [appendPoints_append]
    rfl

theorem fp_paintTo_close (c : Fp.Params) (h : Handler) (s : Stroke) (p e : Point)
    (hs : h.stroke = some s) (he : s.points.getLast? = some e)
    (hd : c.lineLengthTo (Fp.scaledPoint h s p) e < c.PIXEL_MOTION_THRESHOLD) :
    Fp.paintTo c h p = some
      (if s.points.length = 1 ∧ h.hasPressure = true ∧ e.z < (Fp.scaledPoint h s p).z then
        { h with stroke := some (s.setLastPressure (Fp.scaledPoint h s p).z) }.dispatch
          (.THICKEN_FIRST_POINT_REQUEST (Fp.scaledPoint h s p).z)
      else h) := by
  simp only [Fp.paintTo, hs, he, hd, if_true, Stroke.getPointCount]
  split <;> rfl

theorem fp_paintTo_far (c : Fp.Params) (h : Handler) (s : Stroke) (p e : Point)
    (hs : h.stroke = some s) (he : s.points.getLast? = some e)
    (hd : ¬ c.lineLengthTo (Fp.scaledPoint h s p) e < c.PIXEL_MOTION_THRESHOLD) :
    Fp.paintTo c h p = some (appendPoints c.toConsts h s
      (Fp.midPoints c h (Fp.scaledPoint h s p) e ++ [Fp.scaledPoint h s p])) := by
  simp only [Fp.paintTo, hs, he, hd, Fp.midPoints, if_false]
  by_cases hp : h.hasPressure = true
  · by_cases hw : -(fsub (Fp.scaledPoint h s p).z e.z) > c.MAX_WIDTH_VARIATION ∨
        fsub (Fp.scaledPoint h s p).z e.z > c.MAX_WIDTH_VARIATION
    · simp only [hp, hw, if_true, and_self]
      rw [fp_decomposeLoop_eq c _ _ _ h s hs]
      simp only [Option.some_bind]
      rw [drawSegmentTo_eq c.toConsts _ _ _ rfl, appendPoints_append]
    · simp only [hp, hw, if_true, if_false, and_false, List.nil_append]
      exact drawSegmentTo_eq c.toConsts h s _ hs
  · simp only [hp, if_false, false_and, Bool.false_eq_true, List.nil_append]
    exact drawSegmentTo_eq c.toConsts h s _ hs

theorem fp_paintTo_empty (c : Fp.Params) (h : Handler) (s : Stroke) (p : Point)
    (hs : h.stroke = some s) (he : s.points = []) :
    Fp.paintTo c h p = some (appendPoints c.toConsts h s [Fp.scaledPoint h s p]) := by
  simp only [Fp.paintTo, hs, he, List.getLast?_nil]
  exact drawSegmentTo_eq c.toConsts h s _ (by simp [hs, he])

theorem fp_paintTo_total (c : Fp.Params) (h : Handler) (s : Stroke) (p : Point)
    (hs : h.stroke = some s) :
    ∃ h1 s1 t, Fp.paintTo c h p = some h1 ∧ h1.stroke = some s1 ∧ h1.frame = h.frame ∧
      s1.width = s.width ∧ s1.toolPressureSensitive = s.toolPressureSensitive ∧
      s.points.length ≤ s1.points.length ∧
      h1.trace = h.trace ++ t ∧ ∀ x ∈ t, Call.isPaint x = true := by
  rcases hl : s.points.getLast? with _ | e
  · have he : s.points = [] := List.getLast?_eq_none_iff.mp hl
    refine ⟨_, _, _, fp_paintTo_empty c h s p hs he, rfl, rfl, rfl, rfl, by simp, rfl, ?_⟩
    simp [Call.isPaint]
  · by_cases hd : c.lineLengthTo (Fp.scaledPoint h s p) e < c.PIXEL_MOTION_THRESHOLD
    · rw [fp_paintTo_close c h s p e hs hl hd]
      split
      · refine ⟨_, _, [_], rfl, rfl, rfl, rfl, rfl, ?_, rfl, ?_⟩
        · simp [Stroke.setLastPressure, setLastZ_length]
        · simp [Call.isPaint]
      · exact ⟨h, s, [], rfl, hs, rfl, rfl, rfl, le_refl _, by simp, by simp⟩
    · refine ⟨_, _, _, fp_paintTo_far c h s p e hs hl hd, rfl, rfl, rfl, rfl, by simp, rfl, ?_⟩
      intro x hx
      simp only [List.mem_map] at hx
      obtain ⟨q, _, rfl⟩ := hx
      rfl

theorem fp_paintAll_total (c : Fp.Params) (ps : List Point) :
    ∀ (h : Handler) (s : Stroke), h.stroke = some s →
    ∃ h1 s1 t, Fp.paintAll c h ps = some h1 ∧ h1.stroke = some s1 ∧ h1.frame = h.frame ∧
      s1.width = s.width ∧ s1.toolPressureSensitive = s.toolPressureSensitive ∧
      s.points.length ≤ s1.points.length ∧
      h1.trace = h.trace ++ t ∧ ∀ x ∈ t, Call.isPaint x = true := by
  induction ps with
  | nil =>
    intro h s hs
    exact ⟨h, s, [], rfl, hs, rfl, rfl, rfl, le_refl _, by simp, by simp⟩
  | cons p ps ih =>
    intro h s hs
    obtain ⟨h1, s1, t1, e1, hs1, hf1, hw1, hp1, hl1, ht1, hx1⟩ := fp_paintTo_total c h s p hs
    obtain ⟨h2, s2, t2, e2, hs2, hf2, hw2, hp2, hl2, ht2, hx2⟩ := ih h1 s1 hs1
    refine ⟨h2, s2, t1 ++ t2, ?_, hs2, hf2.trans hf1, hw2.trans hw1, hp2.trans hp1,
      hl1.trans hl2, ?_, ?_⟩
    · simp [Fp.paintAll, e1, e2]
    · rw [ht2, ht1, List.append_assoc]
    · intro x hx
      rcases List.mem_append.mp hx with hx | hx
      · exact hx1 x hx
      · exact hx2 x hx

/-! ## Double arithmetic: the number of steps of a decomposition -/

theorem fp_scaledPoint_x (h : Handler) (s : Stroke) (p : Point) :
    (Fp.scaledPoint h s p).x = p.x := by
  unfold Fp.scaledPoint
  split <;> rfl

theorem fp_scaledPoint_y (h : Handler) (s : Stroke) (p : Point) :
    (Fp.scaledPoint h s p).y = p.y := by
  unfold Fp.scaledPoint
  split <;> rfl

/-- In the decomposition branch `nbSteps`, computed in doubles, is at least
one. -/
theorem fp_one_le_nbSteps (c : Fp.Params) (widthDelta distance : ℚ)
    (hT : 0 < c.PIXEL_MOTION_THRESHOLD) (hM : 0 < c.MAX_WIDTH_VARIATION)
    (hfar : c.PIXEL_MOTION_THRESHOLD ≤ distance) (hw : c.MAX_WIDTH_VARIATION < |widthDelta|) :
    1 ≤ Fp.nbSteps c widthDelta distance := by
  unfold Fp.nbSteps fdiv
  refine le_min ?_ ?_
  · have h1 : (1 : ℚ) ≤ rnd (|widthDelta| / c.MAX_WIDTH_VARIATION) :=
      one_le_rnd _ ((one_le_div hM).mpr hw.le)
    have h2 : ((1 : ℤ) : ℚ) ≤ ((⌈rnd (|widthDelta| / c.MAX_WIDTH_VARIATION)⌉ : ℤ) : ℚ) := by
      push_cast
      exact le_trans h1 (Int.le_ceil _)
    exact_mod_cast h2
  · exact Int.le_floor.mpr (by
      push_cast
      exact one_le_rnd _ ((one_le_div hT).mpr hfar))

/-- C22: the number of steps is well defined, in double arithmetic. A
`paintTo` call whose sample is at a distance of at least
`PIXEL_MOTION_THRESHOLD` from the last point `e`, as `lineLengthTo` returns
it, has a result and appends points of which the last is the scaled sample
itself (without its width, replaced by `NO_PRESSURE`, in a session without
pressure). When moreover the width delta exceeds `MAX_WIDTH_VARIATION` in
absolute value, `nbSteps` is an integer of at least 1 and the division
`1 / nbSteps` of `stepLength` does not divide by zero. On a stroke without
points the call appends the sample alone. -/
theorem step_count_well_defined (c : Fp.Params) (h : Handler) (s : Stroke) (p : Point)
    (hT : 0 < c.PIXEL_MOTION_THRESHOLD) (hM : 0 < c.MAX_WIDTH_VARIATION)
    (hs : h.stroke = some s) :
    (∀ e, s.points.getLast? = some e →
      c.PIXEL_MOTION_THRESHOLD ≤ c.lineLengthTo (Fp.scaledPoint h s p) e →
      (c.MAX_WIDTH_VARIATION < |fsub (Fp.scaledPoint h s p).z e.z| →
        1 ≤ Fp.nbSteps c (fsub (Fp.scaledPoint h s p).z e.z)
          (c.lineLengthTo (Fp.scaledPoint h s p) e) ∧
        Fp.stepLengthChecked c (fsub (Fp.scaledPoint h s p).z e.z)
            (c.lineLengthTo (Fp.scaledPoint h s p) e) =
          some (fdiv 1 (Fp.nbSteps c (fsub (Fp.scaledPoint h s p).z e.z)
            (c.lineLengthTo (Fp.scaledPoint h s p) e)))) ∧
      ∃ h1 s1 mids, Fp.paintTo c h p = some h1 ∧ h1.stroke = some s1 ∧
        s1.points = s.points ++ mids ++
          [if h.hasPressure = true then Fp.scaledPoint h s p
            else ⟨p.x, p.y, c.NO_PRESSURE⟩]) ∧
    (s.points = [] →
      ∃ h1 s1, Fp.paintTo c h p = some h1 ∧ h1.stroke = some s1 ∧
        s1.points =
          [if h.hasPressure = true then Fp.scaledPoint h s p
            else ⟨p.x, p.y, c.NO_PRESSURE⟩]) := by
  have hst : stored c.toConsts h (Fp.scaledPoint h s p) =
      if h.hasPressure = true then Fp.scaledPoint h s p else ⟨p.x, p.y, c.NO_PRESSURE⟩ := by
    simp only [stored, fp_scaledPoint_x, fp_scaledPoint_y]
  constructor
  · intro e he hfar
    constructor
    · intro hw
      have h1 := fp_one_le_nbSteps c _ _ hT hM hfar hw
      refine ⟨h1, ?_⟩
      unfold Fp.stepLengthChecked
      rw [if_neg]
      have : (0 : ℤ) < Fp.nbSteps c (fsub (Fp.scaledPoint h s p).z e.z)
          (c.lineLengthTo (Fp.scaledPoint h s p) e) := lt_of_lt_of_le one_pos h1
      exact_mod_cast this.ne'
    · refine ⟨_, _, (Fp.midPoints c h (Fp.scaledPoint h s p) e).map (stored c.toConsts h),
        fp_paintTo_far c h s p e hs he (not_lt.mpr hfar), rfl, ?_⟩
      simp [hst]
  · intro he
    refine ⟨_, _, fp_paintTo_empty c h s p hs he, rfl, ?_⟩
    simp [he, hst]

theorem sampleParams_pos :
    0 < sampleParams.PIXEL_MOTION_THRESHOLD ∧ 0 < sampleParams.MAX_WIDTH_VARIATION := by
  decide!

/-- Witness of C22: the decomposing call of the samples, from the last point
`(10, 10, 1)` to the sample `(11, 10)` of scaled width 2, with both thresholds
the double `0.3`. The number of steps is 3 and the last point appended is the
scaled sample. -/
theorem step_count_well_defined_witness :
    ∃ h1 s1 mids, Fp.paintTo sampleParams (samplePressed 0) ⟨11, 10, 1⟩ = some h1 ∧
      h1.stroke = some s1 ∧ s1.points = [⟨10, 10, 1⟩] ++ mids ++ [⟨11, 10, 2⟩] ∧
      Fp.nbSteps sampleParams 1 1 = 3 ∧
      Fp.stepLengthChecked sampleParams 1 1 = some (fdiv 1 3) := by
  obtain ⟨_, h1, s1, mids, e1, hs1, hpts⟩ :=
    (step_count_well_defined sampleParams (samplePressed 0) ⟨2, true, [⟨10, 10, 1⟩]⟩ ⟨11, 10, 1⟩
      sampleParams_pos.1 sampleParams_pos.2 rfl).1 ⟨10, 10, 1⟩ rfl (by decide!)
  have hq : Fp.scaledPoint (samplePressed 0) ⟨2, true, [⟨10, 10, 1⟩]⟩ ⟨11, 10, 1⟩ =
      ⟨11, 10, 2⟩ := by decide!
  rw [hq] at hpts
  exact ⟨h1, s1, mids, e1, hs1, hpts, by decide!, by decide!⟩

/-! ## Double arithmetic: the number of intermediate points -/

theorem fp_steps_length (inc : Point) : ∀ (n : ℕ) (a : Point), (Fp.steps inc n a).length = n
  | 0, _ => rfl
  | n + 1, a => by simp [Fp.steps, fp_steps_length inc n]

theorem fp_midPoints_length (c : Fp.Params) (h : Handler) (q e : Point)
    (hp : h.hasPressure = true) (hw : c.MAX_WIDTH_VARIATION < |fsub q.z e.z|) :
    (Fp.midPoints c h q e).length =
      (castInt (Fp.nbSteps c (fsub q.z e.z) (c.lineLengthTo q e)) - 1).toNat := by
  have hc : h.hasPressure = true ∧
      (-(fsub q.z e.z) > c.MAX_WIDTH_VARIATION ∨ fsub q.z e.z > c.MAX_WIDTH_VARIATION) := by
    refine ⟨hp, ?_⟩
    rcases lt_abs.mp hw with h1 | h1
    · exact Or.inr h1
    · exact Or.inl h1
  unfold Fp.midPoints
  simp only
  rw [if_pos hc, fp_steps_length]

/-- C4, as stated, fails, and so does the count with exact quotients or
beyond the range of `int`. First, for the decomposing call of the samples
(last point `(10, 10, 1)`, scaled sample `(11, 10, 2)`, both thresholds the
double `0.3`) the minimum is 3, in exact and in double arithmetic, and the
call commits two intermediate points before the sample. Second, from the last
point `(0, 0, 0.2)` to the sample `(0.8999999999999999, 0)` of scaled width 2
the minimum of the exact quotients is 2, the code computes 3 because the
quotient `0.8999999999999999 / 0.3` is rounded to 3, and two intermediate
points are committed. Third, for a width delta of `1199999999` over a
distance of `4000000000` the minimum is `3999999997`, above `INT_MAX`, and
with the conversion to `int` of x86-64 no intermediate point is committed. -/
theorem intermediate_point_count_counterexample :
    (min ⌈|(2 : ℚ) - 1| / sampleParams.MAX_WIDTH_VARIATION⌉
        ⌊(1 : ℚ) / sampleParams.PIXEL_MOTION_THRESHOLD⌋ = 3 ∧
      Fp.nbSteps sampleParams 1 1 = 3 ∧
      (Fp.paintTo sampleParams (samplePressed 0) ⟨11, 10, 1⟩).bind (fun h => h.stroke) =
        some ⟨2, true, [⟨10, 10, 1⟩,
          ⟨5817149518686891 / 562949953421312, 10, 3752999689475413 / 2251799813685248⟩,
          ⟨3002399751580331 / 281474976710656, 10, 9007199254740991 / 4503599627370496⟩,
          ⟨11, 10, 2⟩]⟩) ∧
    (min ⌈|(2 : ℚ) - rnd 0.2| / sampleParams.MAX_WIDTH_VARIATION⌉
        ⌊rnd 0.8999999999999999 / sampleParams.PIXEL_MOTION_THRESHOLD⌋ = 2 ∧
      Fp.nbSteps sampleParams (fsub 2 (rnd 0.2)) (rnd 0.8999999999999999) = 3 ∧
      (Fp.paintTo sampleParams { samplePressed 0 with stroke := some ⟨2, true, [⟨0, 0, rnd 0.2⟩]⟩ }
          ⟨rnd 0.8999999999999999, 0, 1⟩).bind (fun h => h.stroke) =
        some ⟨2, true, [⟨0, 0, rnd 0.2⟩,
          ⟨2702159776422297 / 9007199254740992, 0, 3152519739159347 / 2251799813685248⟩,
          ⟨2702159776422297 / 4503599627370496, 0, 2⟩,
          ⟨rnd 0.8999999999999999, 0, 2⟩]⟩) ∧
    (Fp.nbSteps sampleParams 1199999999 4000000000 = 3999999997 ∧
      (Fp.paintTo sampleParams (samplePressed 0) ⟨4000000010, 10, 600000000⟩).bind
          (fun h => h.stroke) =
        some ⟨2, true, [⟨10, 10, 1⟩, ⟨4000000010, 10, 1200000000⟩]⟩) := by
  decide!

/-- C4 (amended): the number of intermediate points, in double arithmetic. A
`paintTo` call in a session with pressure, whose sample is at a distance of
at least `PIXEL_MOTION_THRESHOLD` from the last point `e` and whose scaled
width differs from the width of `e` by more than `MAX_WIDTH_VARIATION`,
appends intermediate points `mids` and then the scaled sample. When
`nbSteps`, the minimum as the code computes it in doubles, is within the
range of `int`, the number of intermediate points is `nbSteps - 1`, so that
the call appends `nbSteps` points. -/
theorem intermediate_point_count (c : Fp.Params) (h : Handler) (s : Stroke) (e p : Point)
    (hT : 0 < c.PIXEL_MOTION_THRESHOLD) (hM : 0 < c.MAX_WIDTH_VARIATION)
    (hs : h.stroke = some s) (he : s.points.getLast? = some e) (hp : h.hasPressure = true)
    (hfar : c.PIXEL_MOTION_THRESHOLD ≤ c.lineLengthTo (Fp.scaledPoint h s p) e)
    (hw : c.MAX_WIDTH_VARIATION < |fsub (Fp.scaledPoint h s p).z e.z|)
    (hN : Fp.nbSteps c (fsub (Fp.scaledPoint h s p).z e.z)
      (c.lineLengthTo (Fp.scaledPoint h s p) e) ≤ 2 ^ 31 - 1) :
    ∃ h1 s1 mids, Fp.paintTo c h p = some h1 ∧ h1.stroke = some s1 ∧
      s1.points = s.points ++ mids ++ [Fp.scaledPoint h s p] ∧
      (mids.length : ℤ) =
        Fp.nbSteps c (fsub (Fp.scaledPoint h s p).z e.z)
          (c.lineLengthTo (Fp.scaledPoint h s p) e) - 1 ∧
      (mids.length : ℤ) =
        min ⌈fdiv |fsub (Fp.scaledPoint h s p).z e.z| c.MAX_WIDTH_VARIATION⌉
          ⌊fdiv (c.lineLengthTo (Fp.scaledPoint h s p) e) c.PIXEL_MOTION_THRESHOLD⌋ - 1 := by
  have h1 := fp_one_le_nbSteps c _ _ hT hM hfar hw
  have hcast : castInt (Fp.nbSteps c (fsub (Fp.scaledPoint h s p).z e.z)
      (c.lineLengthTo (Fp.scaledPoint h s p) e)) =
      Fp.nbSteps c (fsub (Fp.scaledPoint h s p).z e.z)
        (c.lineLengthTo (Fp.scaledPoint h s p) e) := by
    unfold castInt
    rw [if_pos]
    constructor <;> omega
  have hlen : (((Fp.midPoints c h (Fp.scaledPoint h s p) e).map
      (stored c.toConsts h)).length : ℤ) =
      Fp.nbSteps c (fsub (Fp.scaledPoint h s p).z e.z)
        (c.lineLengthTo (Fp.scaledPoint h s p) e) - 1 := by
    rw [List.length_map, fp_midPoints_length c h _ e hp hw, hcast,
      Int.toNat_of_nonneg (by omega)]
  refine ⟨_, _, (Fp.midPoints c h (Fp.scaledPoint h s p) e).map (stored c.toConsts h),
    fp_paintTo_far c h s p e hs he (not_lt.mpr hfar), rfl, ?_, hlen, hlen⟩
  simp [stored, hp]

/-- Witness of C4 (amended): the decomposing call of the samples, with
`nbSteps = 3` and two intermediate points. -/
theorem intermediate_point_count_witness :
    ∃ h1 s1 mids, Fp.paintTo sampleParams (samplePressed 0) ⟨11, 10, 1⟩ = some h1 ∧
      h1.stroke = some s1 ∧ s1.points = [⟨10, 10, 1⟩] ++ mids ++ [⟨11, 10, 2⟩] ∧
      (mids.length : ℤ) = 3 - 1 := by
  obtain ⟨h1, s1, mids, e1, hs1, hpts, hlen, _⟩ :=
    intermediate_point_count sampleParams (samplePressed 0) ⟨2, true, [⟨10, 10, 1⟩]⟩ ⟨10, 10, 1⟩
      ⟨11, 10, 1⟩ sampleParams_pos.1 sampleParams_pos.2 rfl rfl rfl (by decide!) (by decide!)
      (by decide!)
  have hq : Fp.scaledPoint (samplePressed 0) ⟨2, true, [⟨10, 10, 1⟩]⟩ ⟨11, 10, 1⟩ =
      ⟨11, 10, 2⟩ := by decide!
  have hn : Fp.nbSteps sampleParams
      (fsub (Fp.scaledPoint (samplePressed 0) ⟨2, true, [⟨10, 10, 1⟩]⟩ ⟨11, 10, 1⟩).z 1)
      (sampleParams.lineLengthTo
        (Fp.scaledPoint (samplePressed 0) ⟨2, true, [⟨10, 10, 1⟩]⟩ ⟨11, 10, 1⟩) ⟨10, 10, 1⟩) =
      3 := by decide!
  rw [hq] at hpts
  rw [hn] at hlen
  exact ⟨h1, s1, mids, e1, hs1, hpts, hlen⟩

/-! ## Double arithmetic: the motion threshold -/

/-- Parts (i) and (ii) of the motion threshold invariant hold in double
arithmetic: a `paintTo` call whose sample is at a distance of at least
`PIXEL_MOTION_THRESHOLD` from the last point, as `lineLengthTo` returns it,
appends at least one point, and a call whose sample is closer leaves the
number of points unchanged. -/
theorem fp_paintTo_count (c : Fp.Params) (h : Handler) (s : Stroke) (e p : Point)
    (hs : h.stroke = some s) (he : s.points.getLast? = some e) :
    ∃ h1 s1, Fp.paintTo c h p = some h1 ∧ h1.stroke = some s1 ∧
      (c.PIXEL_MOTION_THRESHOLD ≤ c.lineLengthTo (Fp.scaledPoint h s p) e →
        s.points.length < s1.points.length) ∧
      (c.lineLengthTo (Fp.scaledPoint h s p) e < c.PIXEL_MOTION_THRESHOLD →
        s1.points.length = s.points.length) := by
  by_cases hd : c.lineLengthTo (Fp.scaledPoint h s p) e < c.PIXEL_MOTION_THRESHOLD
  · rw [fp_paintTo_close c h s p e hs he hd]
    split
    · exact ⟨_, _, rfl, rfl, fun hge => absurd hd (not_lt.mpr hge),
        fun _ => by simp [Stroke.setLastPressure, setLastZ_length]⟩
    · exact ⟨h, s, rfl, hs, fun hge => absurd hd (not_lt.mpr hge), fun _ => rfl⟩
  · exact ⟨_, _, fp_paintTo_far c h s p e hs he hd, rfl, fun _ => by simp,
      fun hlt => absurd hlt hd⟩

/-- C3 at a decomposing call in double arithmetic, with both thresholds the
double `0.3`: after the press of the samples the last point is `(10, 10, 1)`,
and the sample `(10.9, 10)` of scaled width 2 is at the distance
`0.9000000000000004`, so that it is accepted and decomposed in 3 steps. The
intermediate points have `x = 10.3` and `x = 10.600000000000001`; the sample
is committed `0.29999999999999893` away from the second one, closer than
`PIXEL_MOTION_THRESHOLD`, for `lineLengthTo` as well as for the exact
difference of the coordinates. -/
theorem motion_threshold_failing_input :
    Fp.onButtonPressEvent sampleParams sampleControl (sampleIdle 0) samplePress 1 =
      some (samplePressed 0) ∧
    sampleParams.PIXEL_MOTION_THRESHOLD ≤
      sampleParams.lineLengthTo ⟨rnd 10.9, 10, 2⟩ ⟨10, 10, 1⟩ ∧
    (Fp.paintTo sampleParams (samplePressed 0) ⟨rnd 10.9, 10, 1⟩).bind (fun h => h.stroke) =
      some ⟨2, true, [⟨10, 10, 1⟩,
        ⟨2899192260119757 / 281474976710656, 10, 3752999689475413 / 2251799813685248⟩,
        ⟨1491817376566477 / 140737488355328, 10, 9007199254740991 / 4503599627370496⟩,
        ⟨rnd 10.9, 10, 2⟩]⟩ ∧
    sampleParams.lineLengthTo ⟨rnd 10.9, 10, 2⟩
        ⟨1491817376566477 / 140737488355328, 10, 9007199254740991 / 4503599627370496⟩ <
      sampleParams.PIXEL_MOTION_THRESHOLD ∧
    (rnd 10.9 - 1491817376566477 / 140737488355328) ^ 2 + ((10 : ℚ) - 10) ^ 2 <
      sampleParams.PIXEL_MOTION_THRESHOLD ^ 2 := by
  decide!

/-! ## Double arithmetic: the progression of the width -/

/-- C5 at two decomposing calls in double arithmetic, with both thresholds
the double `0.3`, after the press of the samples (last point `(10, 10, 1)`,
base width 2). For the sample `(15, 10)` of pressure `0.75` the segment is
decomposed in 2 steps, and the widths of the three points are `1`, `1.5`,
`1.5`: the intermediate point already has the width of the sample. For the
sample `(11, 10)` of pressure `0.2` the widths are `1`,
`0.39999999999999997`, `0.4`: the width falls below the width of the sample
and rises again. -/
theorem width_progression_failing_input :
    (Fp.nbSteps sampleParams (fsub (fmul (3 / 4) 2) 1)
        (sampleParams.lineLengthTo ⟨15, 10, fmul (3 / 4) 2⟩ ⟨10, 10, 1⟩) = 2 ∧
      (Fp.paintTo sampleParams (samplePressed 0) ⟨15, 10, 3 / 4⟩).bind (fun h => h.stroke) =
        some ⟨2, true, [⟨10, 10, 1⟩, ⟨25 / 2, 10, 3 / 2⟩, ⟨15, 10, 3 / 2⟩]⟩ ∧
      ¬ ((3 / 2 : ℚ) < 3 / 2)) ∧
    ((Fp.paintTo sampleParams (samplePressed 0) ⟨11, 10, rnd 0.2⟩).bind (fun h => h.stroke) =
        some ⟨2, true, [⟨10, 10, 1⟩, ⟨21 / 2, 10, 7205759403792793 / 18014398509481984⟩,
          ⟨11, 10, 3602879701896397 / 9007199254740992⟩]⟩ ∧
      (7205759403792793 / 18014398509481984 : ℚ) < 3602879701896397 / 9007199254740992 ∧
      (3602879701896397 / 9007199254740992 : ℚ) < 1) := by
  decide!

/-! ## Double arithmetic: the stroke filter -/

theorem fp_release_flush (c : Fp.Params) (h : Handler) (s : Stroke) (flush : List Point)
    (hs : h.stroke = some s) :
    ∃ h1 s1 t, Fp.paintAll c (h.call .stabilizerFinalizeStroke) flush = some h1 ∧
      h1.stroke = some s1 ∧ h1.frame = h.frame ∧ s1.width = s.width ∧
      s.points.length ≤ s1.points.length ∧
      h1.trace = h.trace ++ .stabilizerFinalizeStroke :: t ∧
      ∀ x ∈ t, Call.isPaint x = true := by
  obtain ⟨h1, s1, t, e, hs1, hf, hw, _, hl, ht, hx⟩ :=
    fp_paintAll_total c flush (h.call .stabilizerFinalizeStroke) s hs
  exact ⟨h1, s1, t, e, hs1, hf, hw, hl, by simp [ht, Handler.call], hx⟩

theorem fp_shortAndQuick_congr (st : Settings) (h1 h : Handler) (pos : PositionInputData)
    (zoom : ℚ) (hf : h1.frame = h.frame) :
    Fp.shortAndQuick st h1 pos zoom = Fp.shortAndQuick st h pos zoom := by
  obtain ⟨_, hb, ht, _⟩ := frame_fields hf
  simp [Fp.shortAndQuick, Fp.lengthSqrd, hb, ht]

/-- C1, as stated, fails; all releases come ten milliseconds after the press,
with the sample settings: 1 mm at 254 dpi, that is 10 pixels, 150 ms and
500 ms. First, one pixel from the press and exactly 500 ms after the
previous stroke the stroke is not discarded. Second, with a
`successiveTime` of `-1`, which the comparison converts to `guint32`, it is
not discarded either. Third, a tap 100 ms after a tap that was discarded is
not discarded, although no stroke was accepted since the time 0:
`lastStrokeTime` is the time of the discarded tap. Fourth, a press at the
zoom 1 released at the same position at the zoom 2 is not discarded. Fifth, a
press at `(2.8, 5)` released at `(12.799999999999999, 5)`, both at the zoom
`1.5`, is less than 10 pixels long but `lengthSqrd` is computed as
`100.00000000000001` and the stroke is not discarded. -/
theorem tap_rejection_counterexample :
    ((sampleRelease.x - samplePress.x) ^ 2 + (sampleRelease.y - samplePress.y) ^ 2 <
        (sampleSettings.strokeFilterIgnoreLength * sampleSettings.displayDpi / 25.4) ^ 2 ∧
      (sampleRelease.timestamp : ℤ) - samplePress.timestamp <
        sampleSettings.strokeFilterIgnoreTime ∧
      (sampleRelease.timestamp : ℤ) - (samplePressed 510).lastStrokeTime ≥
        sampleSettings.strokeFilterSuccessiveTime ∧
      Fp.onButtonPressEvent sampleParams sampleControl (sampleIdle 510) samplePress 1 =
        some (samplePressed 510) ∧
      (Fp.onButtonReleaseEvent sampleParams sampleCollaborators sampleControl
          (samplePressed 510) sampleRelease 1 []).map
        (fun h => (h.userTapped, h.layer, h.undo)) =
        some (false, [⟨2, true, [⟨10, 10, 1⟩, ⟨10, 10, 1⟩]⟩],
          [.InsertUndoAction ⟨2, true, [⟨10, 10, 1⟩, ⟨10, 10, 1⟩]⟩])) ∧
    ((sampleRelease.timestamp : ℤ) - (samplePressed 0).lastStrokeTime ≥ -1 ∧
      (Fp.onButtonReleaseEvent sampleParams sampleCollaborators
          { sampleControl with
            settings := { sampleSettings with strokeFilterSuccessiveTime := -1 } }
          (samplePressed 0) sampleRelease 1 []).map
        (fun h => (h.userTapped, h.layer.length, h.undo.length)) = some (false, 1, 1)) ∧
    ((Fp.onButtonReleaseEvent sampleParams sampleCollaborators sampleControl (samplePressed 0)
          sampleRelease 1 []).map (fun h => (h.userTapped, h.layer, h.undo, h.lastStrokeTime)) =
        some (true, [], [], 1010) ∧
      ((Fp.onButtonReleaseEvent sampleParams sampleCollaborators sampleControl (samplePressed 0)
          sampleRelease 1 []).bind
        (fun h => (Fp.onButtonPressEvent sampleParams sampleControl h ⟨10, 10, 1 / 2, 1100⟩ 1).bind
          (fun h => Fp.onButtonReleaseEvent sampleParams sampleCollaborators sampleControl h
            ⟨11, 10, 0, 1110⟩ 1 []))).map
        (fun h => (h.userTapped, h.layer.length, h.undo.length)) = some (true, 1, 1)) ∧
    (Fp.onButtonReleaseEvent sampleParams sampleCollaborators sampleControl (samplePressed 0)
        ⟨10, 10, 0, 1010⟩ 2 []).map
      (fun h => (h.userTapped, h.layer.length, h.undo.length)) = some (false, 1, 1) ∧
    ((rnd 12.799999999999999 - rnd 2.8) ^ 2 + ((5 : ℚ) - 5) ^ 2 <
        (sampleSettings.strokeFilterIgnoreLength * sampleSettings.displayDpi / 25.4) ^ 2 ∧
      (Fp.onButtonPressEvent sampleParams sampleControl (sampleIdle 0)
          ⟨rnd 2.8, 5, 1 / 2, 1000⟩ (3 / 2)).map
        (fun h => Fp.lengthSqrd h ⟨rnd 12.799999999999999, 5, 0, 1010⟩ (3 / 2)) =
        some (7036874417766401 / 70368744177664) ∧
      ((Fp.onButtonPressEvent sampleParams sampleControl (sampleIdle 0)
          ⟨rnd 2.8, 5, 1 / 2, 1000⟩ (3 / 2)).bind
        (fun h => Fp.onButtonReleaseEvent sampleParams sampleCollaborators sampleControl h
          ⟨rnd 12.799999999999999, 5, 0, 1010⟩ (3 / 2) [])).map
        (fun h => (h.userTapped, h.layer.length, h.undo.length)) = some (false, 1, 1)) := by
  refine ⟨⟨?_, ?_, ?_, ?_, ?_⟩, ⟨?_, ?_⟩, ⟨?_, ?_⟩, ?_, ?_, ?_, ?_⟩ <;> decide!

/-- C1 (amended): tap rejection, in double arithmetic. With the stroke filter
enabled, a release on a stroke in progress for which `lengthSqrd`, computed
in doubles from the position and the zoom of the release and the anchor
recorded at the press, is below the double value of `(L * (D / 25.4)) ^ 2`,
whose duration since the press is below `ignoreTime`, and for which the time
since `lastStrokeTime` is strictly greater than a `successiveTime` that is
not negative, discards the stroke: after the calls of the
stabilizer the only call is the dispatch of a `CANCELLATION_REQUEST` that
clears the pool, the handler holds no stroke, `userTapped` is set, and the
layer and the undo stack are unchanged. -/
theorem tap_rejection (c : Fp.Params) (g : Collaborators) (ctl : Control) (h : Handler)
    (s : Stroke) (pos : PositionInputData) (zoom : ℚ) (flush : List Point)
    (hs : h.stroke = some s) (hen : ctl.settings.strokeFilterEnabled = true)
    (hlen : Fp.lengthSqrd h pos zoom <
      fsq (fmul ctl.settings.strokeFilterIgnoreLength
        (fdiv ctl.settings.displayDpi (rnd 25.4))))
    (hTr : ctl.settings.strokeFilterIgnoreTime < 2 ^ 31)
    (hdur : (subU32 pos.timestamp h.startStrokeTime : ℤ) < ctl.settings.strokeFilterIgnoreTime)
    (hS0 : 0 ≤ ctl.settings.strokeFilterSuccessiveTime)
    (hSr : ctl.settings.strokeFilterSuccessiveTime < 2 ^ 31)
    (hel : ctl.settings.strokeFilterSuccessiveTime < (subU32 pos.timestamp h.lastStrokeTime : ℤ)) :
    ∃ h1 s1 t, Fp.onButtonReleaseEvent c g ctl h pos zoom flush = some h1 ∧
      h1.trace = h.trace ++ .stabilizerFinalizeStroke :: t ++
        [.dispatchAndClear (.CANCELLATION_REQUEST (Range.ofRectangle (g.boundingRect s1)))] ∧
      (∀ x ∈ t, Call.isPaint x = true) ∧
      h1.subscribers = [] ∧ h1.stroke = none ∧ h1.userTapped = true ∧
      h1.layer = h.layer ∧ h1.undo = h.undo := by
  obtain ⟨h1, s1, t, e, hs1, hf, _, _, ht, hp⟩ := fp_release_flush c h s flush hs
  obtain ⟨_, _, _, _, _, _, hlay, hundo⟩ := frame_fields hf
  have hT0 : 0 ≤ ctl.settings.strokeFilterIgnoreTime :=
    le_of_lt (lt_of_le_of_lt (Int.natCast_nonneg _) hdur)
  have hq : Fp.shortAndQuick ctl.settings h1 pos zoom = true := by
    rw [fp_shortAndQuick_congr _ _ _ _ _ hf]
    simp only [Fp.shortAndQuick, Fp.dpmm, Bool.and_eq_true, decide_eq_true_eq]
    refine ⟨hlen, ?_⟩
    have := intToU32_of_nonneg _ hT0 hTr
    omega
  have hn : notSuccessive ctl.settings h1 pos = true := by
    rw [notSuccessive_congr _ _ _ _ hf]
    simp only [notSuccessive, decide_eq_true_eq]
    have := intToU32_of_nonneg _ hS0 hSr
    omega
  have er : Fp.onButtonReleaseEvent c g ctl h pos zoom flush = some
      { h1.dispatchAndClear (.CANCELLATION_REQUEST (Range.ofRectangle (g.boundingRect s1))) with
        stroke := none, userTapped := true, lastStrokeTime := pos.timestamp } := by
    simp only [Fp.onButtonReleaseEvent, hs, e, Option.some_bind, hen, hq, hn, Bool.and_self,
      if_true, hs1, Option.map_some']
  refine ⟨_, s1, t, er, ?_, hp, rfl, rfl, rfl, hlay, hundo⟩
  simp [Handler.dispatchAndClear, ht]

/-- Witness of C1 (amended): the press of the samples released one pixel and
ten milliseconds later, 1010 ms after the previous stroke, at the zoom 1. -/
theorem tap_rejection_witness :
    ∃ h1 s1 t, Fp.onButtonReleaseEvent sampleParams sampleCollaborators sampleControl
        (samplePressed 0) sampleRelease 1 [] = some h1 ∧
      h1.trace = (samplePressed 0).trace ++ .stabilizerFinalizeStroke :: t ++
        [.dispatchAndClear (.CANCELLATION_REQUEST
          (Range.ofRectangle (sampleCollaborators.boundingRect s1)))] ∧
      (∀ x ∈ t, Call.isPaint x = true) ∧
      h1.subscribers = [] ∧ h1.stroke = none ∧ h1.userTapped = true ∧
      h1.layer = (samplePressed 0).layer ∧ h1.undo = (samplePressed 0).undo :=
  tap_rejection sampleParams sampleCollaborators sampleControl (samplePressed 0)
    ⟨2, true, [⟨10, 10, 1⟩]⟩ sampleRelease 1 [] rfl rfl (by decide!) (by decide!) (by decide!)
    (by decide!) (by decide!) (by decide!)
end StrokeHandler
